import Mathlib

/-!
Verification of the hull-boundary data structure (`src/hull.rs`).

The Rust code maintains a circular doubly-linked list of "live" points over a
dense node arena (`data : Vec<Node>`), indexed by a fixed-size bucket array
(`buckets : [PointIndex; N]`, `N = 1 << 10`).  We embed the structure shallowly:

* `PointIndex` is a `Nat`; the sentinel `EMPTY` is `usize::MAX = 2 ^ 64 - 1`.
* `EdgeIndex` is an opaque `Nat` (never interpreted).
* Arrays become `List`s; in-bounds indexing `data[p]` becomes
  `(h.data[p]?).getD default`.  All theorems carry the in-bounds hypotheses
  that the Rust code's indexing enforces by panicking.
* Operations that can panic (`assert!` failures, or indexing with the
  sentinel) return `Except Hull Hull`; the `.error` payload is the state at
  the moment execution halts.  Since every `assert!` in the source precedes
  all mutation, the error payload on those paths is the unmodified structure.
* The two unbounded loops in `Hull::get` (the empty-bucket scan and the
  bucket-chain walk) are given explicit fuel.  The scan visits at most
  `buckets.len()` slots before it has wrapped around the whole array, so fuel
  `buckets.length` is exact.  The chain walk is given fuel
  `data.length + 1`; a separate theorem shows this fuel suffices whenever the
  Rust loop terminates at all, and that on the divergent inputs the walk
  returns `none` for every fuel.
-/

/-- Sentinel point index: `EMPTY = PointIndex(std::usize::MAX)`. -/
def EMPTY : Nat := 2 ^ 64 - 1

/-- Number of angular buckets: `const N: usize = 1 << 10`. -/
def NBUCKETS : Nat := 1 <<< 10

/-- One node of the arena (`struct Node` in `hull.rs`): the point's fixed
angular rank `order`, its opaque half-edge handle `edge`, and the circular
doubly-linked neighbours `prev`/`next` (both `EMPTY` when not live). -/
structure Node where
  order : Nat
  edge : Nat
  prev : Nat
  next : Nat
deriving DecidableEq, Repr

/-- Default node, as initialised in `Hull::new`: order 0, default edge,
`prev = next = EMPTY`. -/
instance : Inhabited Node := ⟨⟨0, 0, EMPTY, EMPTY⟩⟩

/-- The hull structure (`struct Hull`): the bucket array and the dense node
arena. -/
structure Hull where
  buckets : List Nat
  data : List Node
deriving DecidableEq, Repr

/-- Read node `p` of the arena (`self.data[p.0]`).  Out-of-bounds access,
which panics in Rust, yields the default node here; every theorem that relies
on a node read carries the corresponding bounds hypothesis. -/
def Hull.nodeAt (h : Hull) (p : Nat) : Node := (h.data[p]?).getD default

/-- Read bucket slot `b` (`self.buckets[b]`). -/
def Hull.bucketAt (h : Hull) (b : Nat) : Nat := (h.buckets[b]?).getD EMPTY

/-- Replace node `p` by `f` applied to it (a field assignment to
`self.data[p.0]` in the source). -/
def Hull.modifyNode (h : Hull) (p : Nat) (f : Node → Node) : Hull :=
  { h with data := h.data.set p (f (h.nodeAt p)) }

/-- Write bucket slot `b` (`self.buckets[b] = v`). -/
def Hull.setBucket (h : Hull) (b v : Nat) : Hull :=
  { h with buckets := h.buckets.set b v }

/-- Angular order rank of point `p`. -/
def Hull.ordOf (h : Hull) (p : Nat) : Nat := (h.nodeAt p).order

/-- Edge handle stored at point `p`. -/
def Hull.edgeOf (h : Hull) (p : Nat) : Nat := (h.nodeAt p).edge

/-- Bucket assignment at the level of order ranks:
`(order * self.buckets.len()) / self.data.len()`. -/
def Hull.bucketOfOrd (h : Hull) (o : Nat) : Nat :=
  (o * h.buckets.length) / h.data.length

/-- `fn bucket(&self, p: PointIndex) -> usize`. -/
def Hull.bucket (h : Hull) (p : Nat) : Nat := h.bucketOfOrd (h.ordOf p)

/-- A point is live when it is part of the boundary cycle: its `next` link is
not the sentinel (`self.data[p.0].next != EMPTY`), and it is a real index of
the arena. -/
def Hull.live (h : Hull) (p : Nat) : Prop :=
  p < h.data.length ∧ (h.nodeAt p).next ≠ EMPTY

instance (h : Hull) (p : Nat) : Decidable (h.live p) :=
  inferInstanceAs (Decidable (_ ∧ _))

/-- Modelled from the spec: `Hull::new` (which calls `crate::predicates::pseudo_angle`,
a file not present under `src/`) sorts the candidate points once by
pseudo-angle around the center and records each point's rank in its node's
`order` field, leaving `prev = next = EMPTY` everywhere and all buckets
`EMPTY`.  We take the resulting rank assignment (`ords`, one rank per point)
as the constructor's input. -/
def Hull.init (ords : List Nat) : Hull :=
  { buckets := List.replicate NBUCKETS EMPTY
    data := ords.map fun o => { order := o, edge := 0, prev := EMPTY, next := EMPTY } }

/-- `pub fn insert_first(&mut self, p: PointIndex, e: EdgeIndex)`.  The
`assert!(self.buckets[b] == EMPTY)` precedes all writes, so the error payload
is the unmodified structure. -/
def Hull.insert_first (h : Hull) (p e : Nat) : Except Hull Hull :=
  let b := h.bucket p
  if h.bucketAt b = EMPTY then
    .ok (((h.setBucket b p).modifyNode p fun n =>
      { n with next := p, prev := p, edge := e }))
  else .error h

/-- `pub fn update(&mut self, p: PointIndex, e: EdgeIndex)`. The
`assert!(self.data[p.0].next != EMPTY)` precedes the single write. -/
def Hull.update (h : Hull) (p e : Nat) : Except Hull Hull :=
  if (h.nodeAt p).next ≠ EMPTY then
    .ok (h.modifyNode p fun n => { n with edge := e })
  else .error h

/-- `pub fn edge(&self, p: PointIndex) -> EdgeIndex`; `none` models the
`assert!` panic on a non-live point. -/
def Hull.edge (h : Hull) (p : Nat) : Option Nat :=
  if (h.nodeAt p).next ≠ EMPTY then some (h.nodeAt p).edge else none

/-- The empty-bucket scan of `Hull::get`:
`while self.buckets[t] == EMPTY { t = (t + 1) % N }`, returning
`self.buckets[t]`.  Fuel bounds the number of slots inspected; `none` means
the loop ran past the fuel (in Rust: looped forever, since after
`buckets.length` steps every slot has been seen). -/
def Hull.scanB (h : Hull) (t : Nat) : Nat → Option Nat
  | 0 => none
  | fuel + 1 =>
    if h.bucketAt t = EMPTY then h.scanB ((t + 1) % h.buckets.length) fuel
    else some (h.bucketAt t)

/-- The bucket-chain walk of `Hull::get`:
`while self.data[next.0].order < self.data[p.0].order && self.bucket(next) == b
 { next = self.data[next.0].next }`, returning the final `next`.  `none` means
the fuel ran out. -/
def Hull.walk (h : Hull) (po b cur : Nat) : Nat → Option Nat
  | 0 => none
  | fuel + 1 =>
    if (h.nodeAt cur).order < po ∧ h.bucket cur = b then
      h.walk po b (h.nodeAt cur).next fuel
    else some cur

/-- `pub fn get(&self, p: PointIndex) -> (PointIndex, PointIndex)` — the
spec's `locate`.  Returns `none` when either loop fails to terminate within
its fuel (which, for the chain walk, happens exactly on the inputs where the
Rust loop runs forever). -/
def Hull.get (h : Hull) (p : Nat) : Option (Nat × Nat) :=
  let b := h.bucket p
  let first := h.bucketAt b
  let nextO :=
    if first = EMPTY then h.scanB b h.buckets.length
    else h.walk (h.ordOf p) b first (h.data.length + 1)
  match nextO with
  | none => none
  | some nxt => some ((h.nodeAt nxt).prev, nxt)

/-- `pub fn get_edge(&self, p: PointIndex) -> EdgeIndex`. -/
def Hull.get_edge (h : Hull) (p : Nat) : Option Nat :=
  match h.get p with
  | some (prv, _) => some ((h.nodeAt prv).edge)
  | none => none

/-- `pub fn insert(&mut self, p: PointIndex, e: EdgeIndex)`.  The
`assert!(self.data[p.0].next == EMPTY)` (together with the bounds check the
Rust indexing performs) precedes everything, so that error path carries the
unmodified structure.  A `none` from `get` (the divergent walk) also yields
`.error h`: the loop mutates nothing while it spins.  The two splice writes
`self.data[next.0].prev = p` and `self.data[prev.0].next = p` panic in Rust
when `next`/`prev` is the sentinel; the corresponding error payloads carry
the state mutated so far. -/
def Hull.insert (h : Hull) (p e : Nat) : Except Hull Hull :=
  if p < h.data.length ∧ (h.nodeAt p).next = EMPTY then
    let b := h.bucket p
    match h.get p with
    | none => .error h
    | some (prv, nxt) =>
      let h1 := if h.bucketAt b = EMPTY ∨ h.bucketAt b = nxt then h.setBucket b p else h
      let h2 := h1.modifyNode p fun n => { n with edge := e, next := nxt, prev := prv }
      if nxt < h2.data.length then
        let h3 := h2.modifyNode nxt fun n => { n with prev := p }
        if prv < h3.data.length then
          .ok (h3.modifyNode prv fun n => { n with next := p })
        else .error h3
      else .error h2
  else .error h

/-- `pub fn erase(&mut self, p: PointIndex)`.  The source has no assertion;
its preconditions (`p` live and its neighbours real indices) appear as
hypotheses of the theorems below.  The bucket-entry replacement reads
`self.bucket(next)` after the unlinking, which we mirror exactly. -/
def Hull.erase (h : Hull) (p : Nat) : Hull :=
  let b := h.bucket p
  let nxt := (h.nodeAt p).next
  let prv := (h.nodeAt p).prev
  let h1 := h.modifyNode nxt fun n => { n with prev := prv }
  let h2 := h1.modifyNode prv fun n => { n with next := nxt }
  let h3 := h2.modifyNode p fun n => { n with next := EMPTY }
  let h4 := h3.modifyNode p fun n => { n with prev := EMPTY }
  if h4.bucketAt b = p then
    if h4.bucket nxt = b then h4.setBucket b nxt else h4.setBucket b EMPTY
  else h4

/-- The cycle walk of `Hull::values`, with fuel: emit the edge at `cur`, move
to `cur`'s `next`, and stop upon returning to `start` (after having moved at
least once). -/
def Hull.valuesAux (h : Hull) (start cur : Nat) (started : Bool) : Nat → Option (List Nat)
  | 0 => none
  | fuel + 1 =>
    if cur = start ∧ started then some []
    else
      match h.valuesAux start (h.nodeAt cur).next true fuel with
      | some l => some ((h.nodeAt cur).edge :: l)
      | none => none

/-- `pub fn values(&self)` — the spec's `iterate`.  The starting point is the
entry of the first non-empty bucket (`self.buckets.iter().filter(..).next().unwrap()`);
`none` models both the `unwrap` panic on an all-empty bucket array and a
walk that fails to close within `data.length + 1` steps. -/
def Hull.values (h : Hull) : Option (List Nat) :=
  match (List.range h.buckets.length).find? (fun b => h.bucketAt b ≠ EMPTY) with
  | none => none
  | some b => h.valuesAux (h.bucketAt b) (h.bucketAt b) false (h.data.length + 1)

/-! ## The well-formedness invariant

A reachable hull state (fresh construction, then `insert_first` once and any
number of `insert`/`erase` calls that complete without panicking) keeps the
following invariant: orders are an injective assignment of ranks below
`data.length`; the live points form a single cycle linked in strictly
increasing order modulo one wraparound, with `prev` the inverse of `next`;
and every bucket slot is either `EMPTY` (and then no live point maps to that
bucket) or holds the minimum-order live point of its bucket. -/

/-- Point `j` is live and has the least order among live points with order
strictly above `o`. -/
def Hull.minAboveP (h : Hull) (o j : Nat) : Prop :=
  h.live j ∧ o < h.ordOf j ∧
    ∀ k < h.data.length, h.live k → o < h.ordOf k → h.ordOf j ≤ h.ordOf k

/-- Point `j` is live and has the greatest order among live points with order
strictly below `o`. -/
def Hull.maxBelowP (h : Hull) (o j : Nat) : Prop :=
  h.live j ∧ h.ordOf j < o ∧
    ∀ k < h.data.length, h.live k → h.ordOf k < o → h.ordOf k ≤ h.ordOf j

/-- Point `j` is live with minimal order among all live points. -/
def Hull.isMinLive (h : Hull) (j : Nat) : Prop :=
  h.live j ∧ ∀ k < h.data.length, h.live k → h.ordOf j ≤ h.ordOf k

/-- Point `j` is live with maximal order among all live points. -/
def Hull.isMaxLive (h : Hull) (j : Nat) : Prop :=
  h.live j ∧ ∀ k < h.data.length, h.live k → h.ordOf k ≤ h.ordOf j

/-- `j` is the cyclic successor position for order value `o`: the least live
point above `o`, or — when no live point lies above `o` — the global
minimum-order live point (the wraparound). -/
def Hull.ordSucc (h : Hull) (o j : Nat) : Prop :=
  h.minAboveP o j ∨
    ((∀ k < h.data.length, h.live k → h.ordOf k ≤ o) ∧ h.isMinLive j)

/-- `j` is the cyclic predecessor position for order value `o`. -/
def Hull.ordPred (h : Hull) (o j : Nat) : Prop :=
  h.maxBelowP o j ∨
    ((∀ k < h.data.length, h.live k → o ≤ h.ordOf k) ∧ h.isMaxLive j)

/-- The link invariant at live point `i`: its `next` is its cyclic successor
in the angular order. -/
def Hull.cyclicSucc (h : Hull) (i j : Nat) : Prop := h.ordSucc (h.ordOf i) j

/-- The link invariant at live point `i`: its `prev` is its cyclic
predecessor in the angular order. -/
def Hull.cyclicPred (h : Hull) (i j : Nat) : Prop := h.ordPred (h.ordOf i) j

/-- Well-formedness of a hull state (see the section comment above). -/
def Hull.WF (h : Hull) : Prop :=
  0 < h.buckets.length ∧
  h.data.length ≤ EMPTY ∧
  (∀ i < h.data.length, h.ordOf i < h.data.length) ∧
  (∀ i < h.data.length, ∀ j < h.data.length, h.ordOf i = h.ordOf j → i = j) ∧
  (∀ i < h.data.length, (h.nodeAt i).next = EMPTY → (h.nodeAt i).prev = EMPTY) ∧
  (∀ i < h.data.length, h.live i → h.cyclicSucc i (h.nodeAt i).next) ∧
  (∀ i < h.data.length, h.live i → h.cyclicPred i (h.nodeAt i).prev) ∧
  (∀ b < h.buckets.length, h.bucketAt b ≠ EMPTY →
    h.live (h.bucketAt b) ∧ h.bucket (h.bucketAt b) = b ∧
      ∀ k < h.data.length, h.live k → h.bucket k = b →
        h.ordOf (h.bucketAt b) ≤ h.ordOf k) ∧
  (∀ b < h.buckets.length, h.bucketAt b = EMPTY →
    ∀ k < h.data.length, h.live k → h.bucket k ≠ b)

instance (h : Hull) (o j : Nat) : Decidable (h.minAboveP o j) :=
  inferInstanceAs (Decidable (_ ∧ _))

instance (h : Hull) (o j : Nat) : Decidable (h.maxBelowP o j) :=
  inferInstanceAs (Decidable (_ ∧ _))

instance (h : Hull) (j : Nat) : Decidable (h.isMinLive j) :=
  inferInstanceAs (Decidable (_ ∧ _))

instance (h : Hull) (j : Nat) : Decidable (h.isMaxLive j) :=
  inferInstanceAs (Decidable (_ ∧ _))

instance (h : Hull) (o j : Nat) : Decidable (h.ordSucc o j) :=
  inferInstanceAs (Decidable (_ ∨ _))

instance (h : Hull) (o j : Nat) : Decidable (h.ordPred o j) :=
  inferInstanceAs (Decidable (_ ∨ _))

instance (h : Hull) (i j : Nat) : Decidable (h.cyclicSucc i j) :=
  inferInstanceAs (Decidable (Hull.ordSucc _ _ _))

instance (h : Hull) (i j : Nat) : Decidable (h.cyclicPred i j) :=
  inferInstanceAs (Decidable (Hull.ordPred _ _ _))

set_option synthInstance.maxSize 600 in
instance (h : Hull) : Decidable h.WF :=
  inferInstanceAs (Decidable (_ ∧ _))

/-- Concrete three-point hull used by several witnesses below: orders
`0,1,2`; points `0` and `1` live and linked in a two-cycle; point `2` not
live; three buckets, buckets `0` and `1` holding their live points. -/
def Whull : Hull :=
  { buckets := [0, 1, EMPTY]
    data := [⟨0, 10, 1, 1⟩, ⟨1, 11, 0, 0⟩, ⟨2, 0, EMPTY, EMPTY⟩] }

/-- Two-point hull with point `1` live alone as a self-loop in bucket `1`
and bucket `0` empty (the shape left behind by a prior bootstrap on point
`1`). -/
def WhullQ : Hull :=
  { buckets := [EMPTY, 1]
    data := [⟨0, 0, EMPTY, EMPTY⟩, ⟨1, 20, 1, 1⟩] }

/-- The two-point hull (orders `0`, `1`; `1 << 10` buckets as in the source)
after bootstrapping point `0` with `insert_first 0 7`. -/
def c3Hull : Hull :=
  match (Hull.init [0, 1]).insert_first 0 7 with
  | .ok h => h
  | .error h => h

/-- The 1025-point hull (orders `0..1024`, `1 << 10` buckets) after
bootstrapping point `0`.  Points `0` and `1` share bucket `0`
(`1 * 1024 / 1025 = 0`), and point `1`'s order is above point `0`'s. -/
def divergeHull : Hull :=
  match (Hull.init (List.range 1025)).insert_first 0 5 with
  | .ok h => h
  | .error h => h

/-- The list of live point indices. -/
def Hull.liveL (h : Hull) : List Nat :=
  (List.range h.data.length).filter fun k => decide (h.live k)

/-- The divergence condition of `get`: every live point sits in `p`'s bucket
with order strictly below `p`'s.  On such states the Rust walk loops
forever. -/
def Hull.getStuck (h : Hull) (p : Nat) : Prop :=
  ∀ k < h.data.length, h.live k → (h.bucket k = h.bucket p ∧ h.ordOf k < h.ordOf p)

instance (h : Hull) (p : Nat) : Decidable (h.getStuck p) :=
  inferInstanceAs (Decidable (∀ k < h.data.length, _))

/-- Cyclic betweenness of orders: `p`'s rank lies strictly between `a`'s and
`c`'s going counterclockwise, modulo the wraparound at the maximum (when
`ord c ≤ ord a` the pair wraps, and `p` lies either above `a` or below `c`;
for `a = c`, the single-live-point bracket, any `p` of different rank is
between). -/
def Hull.betweenCyc (h : Hull) (a p c : Nat) : Prop :=
  (h.ordOf a < h.ordOf p ∧ h.ordOf p < h.ordOf c) ∨
  (h.ordOf c ≤ h.ordOf a ∧ (h.ordOf a < h.ordOf p ∨ h.ordOf p < h.ordOf c))

instance (h : Hull) (a p c : Nat) : Decidable (h.betweenCyc a p c) :=
  inferInstanceAs (Decidable (_ ∨ _))

/-- The state produced by a successful `insert p e` that found the bracket
`(prv, nxt)`: the conditional bucket-entry update followed by the three node
writes, in source order. -/
def Hull.spliceIns (h : Hull) (p e prv nxt : Nat) : Hull :=
  (((if h.bucketAt (h.bucket p) = EMPTY ∨ h.bucketAt (h.bucket p) = nxt
      then h.setBucket (h.bucket p) p else h).modifyNode p
    fun n => { n with edge := e, next := nxt, prev := prv }).modifyNode nxt
    fun n => { n with prev := p }).modifyNode prv
    fun n => { n with next := p }

/-- The state after the successful `Whull.insert 2 20`, used by the C4
witness. -/
def c4H : Hull :=
  match Whull.insert 2 20 with
  | .ok h => h
  | .error h => h

/-- The set of live point indices. -/
def Hull.liveFS (h : Hull) : Finset Nat :=
  (Finset.range h.data.length).filter fun k => (h.nodeAt k).next ≠ EMPTY

/-- `|live set|`. -/
def Hull.liveCount (h : Hull) : Nat := h.liveFS.card

/-- One step of the spec's forward iteration: follow the `next` link. -/
def Hull.nextIter (h : Hull) (p : Nat) : Nat := (h.nodeAt p).next

/-- One step of the backward iteration: follow the `prev` link. -/
def Hull.prevIter (h : Hull) (p : Nat) : Nat := (h.nodeAt p).prev

/-- Position of `p` in the angular order of the live set: the number of live
points of strictly smaller order. -/
def Hull.posOf (h : Hull) (p : Nat) : Nat :=
  (h.liveFS.filter fun q => h.ordOf q < h.ordOf p).card

/-- The state after erasing the only live point: nothing is live, and one
bucket slot still holds the dead point (the C3 anomaly), whose links are
both sentinels; every other slot is empty.  From such a state no `insert`
returns successfully and no `erase` has a live argument. -/
def Hull.DeadEnd (h : Hull) : Prop :=
  0 < h.buckets.length ∧ h.data.length ≤ EMPTY ∧
  (∀ k < h.data.length, ¬ h.live k) ∧
  ∃ q, q < h.data.length ∧ (h.nodeAt q).prev = EMPTY ∧
    h.bucket q < h.buckets.length ∧ h.bucketAt (h.bucket q) = q ∧
    ∀ b < h.buckets.length, b ≠ h.bucket q → h.bucketAt b = EMPTY

/-- One boundary operation of the claim: an `insert` (which performs its own
`get`) or an `erase`. -/
inductive HOp where
  | ins (p e : Nat)
  | ers (p : Nat)
deriving DecidableEq

/-- Apply one operation, requiring its precondition: an `ins` must complete
successfully (no assertion failure, terminating `get`, in-bounds splice), an
`ers` must target a live point (the documented precondition; the source does
not check it). -/
def Hull.applyOp (h : Hull) : HOp → Option Hull
  | .ins p e =>
    match h.insert p e with
    | .ok h' => some h'
    | .error _ => none
  | .ers p => if h.live p then some (h.erase p) else none

/-- Apply a sequence of operations, failing as soon as one precondition
fails. -/
def Hull.applyOps (h : Hull) : List HOp → Option Hull
  | [] => some h
  | op :: ops =>
    match h.applyOp op with
    | some h' => h'.applyOps ops
    | none => none

/-- A tiny fresh state for the C2 witness: two points with orders `1, 0`,
one bucket, nothing live. -/
def c2H0 : Hull :=
  { buckets := [EMPTY]
    data := [⟨1, 0, EMPTY, EMPTY⟩, ⟨0, 0, EMPTY, EMPTY⟩] }

/-- The bootstrap state of the C2 witness: `insert_first 0`. -/
def c2H1 : Hull :=
  match c2H0.insert_first 0 7 with
  | .ok h => h
  | .error h => h

/-- The final state of the C2 witness: point `1` inserted as well. -/
def c2H : Hull :=
  match c2H1.applyOps [HOp.ins 1 8] with
  | some h => h
  | none => c2H1

/-- Named access to the components of `Hull.WF`. -/
theorem Hull.WF.bpos {h : Hull} (w : h.WF) : 0 < h.buckets.length := w.1

theorem Hull.WF.lenle {h : Hull} (w : h.WF) : h.data.length ≤ EMPTY := w.2.1

theorem Hull.WF.ordlt {h : Hull} (w : h.WF) :
    ∀ i < h.data.length, h.ordOf i < h.data.length := w.2.2.1

theorem Hull.WF.ordinj {h : Hull} (w : h.WF) :
    ∀ i < h.data.length, ∀ j < h.data.length, h.ordOf i = h.ordOf j → i = j := w.2.2.2.1

theorem Hull.WF.deadprev {h : Hull} (w : h.WF) :
    ∀ i < h.data.length, (h.nodeAt i).next = EMPTY → (h.nodeAt i).prev = EMPTY :=
  w.2.2.2.2.1

theorem Hull.WF.nextsucc {h : Hull} (w : h.WF) :
    ∀ i < h.data.length, h.live i → h.cyclicSucc i (h.nodeAt i).next := w.2.2.2.2.2.1

theorem Hull.WF.prevpred {h : Hull} (w : h.WF) :
    ∀ i < h.data.length, h.live i → h.cyclicPred i (h.nodeAt i).prev := w.2.2.2.2.2.2.1

theorem Hull.WF.bfull {h : Hull} (w : h.WF) :
    ∀ b < h.buckets.length, h.bucketAt b ≠ EMPTY →
      h.live (h.bucketAt b) ∧ h.bucket (h.bucketAt b) = b ∧
        ∀ k < h.data.length, h.live k → h.bucket k = b →
          h.ordOf (h.bucketAt b) ≤ h.ordOf k := w.2.2.2.2.2.2.2.1

theorem Hull.WF.bempty {h : Hull} (w : h.WF) :
    ∀ b < h.buckets.length, h.bucketAt b = EMPTY →
      ∀ k < h.data.length, h.live k → h.bucket k ≠ b := w.2.2.2.2.2.2.2.2

/-! ## Frame lemmas for the primitive state accesses -/

theorem Hull.data_length_modify (h : Hull) (p : Nat) (f : Node → Node) :
    (h.modifyNode p f).data.length = h.data.length := by
  simp [Hull.modifyNode]

theorem Hull.buckets_modify (h : Hull) (p : Nat) (f : Node → Node) :
    (h.modifyNode p f).buckets = h.buckets := rfl

theorem Hull.bucketAt_modify (h : Hull) (p : Nat) (f : Node → Node) (b : Nat) :
    (h.modifyNode p f).bucketAt b = h.bucketAt b := rfl

theorem Hull.nodeAt_modify_self (h : Hull) (p : Nat) (f : Node → Node)
    (hp : p < h.data.length) : (h.modifyNode p f).nodeAt p = f (h.nodeAt p) := by
  simp [Hull.modifyNode, Hull.nodeAt, List.getElem?_set_self hp]

theorem Hull.nodeAt_modify_ne (h : Hull) (p : Nat) (f : Node → Node) (i : Nat)
    (hne : p ≠ i) : (h.modifyNode p f).nodeAt i = h.nodeAt i := by
  simp [Hull.modifyNode, Hull.nodeAt, List.getElem?_set_ne hne]

theorem Hull.nodeAt_modify_oob (h : Hull) (p : Nat) (f : Node → Node)
    (hp : ¬ p < h.data.length) (i : Nat) :
    (h.modifyNode p f).nodeAt i = h.nodeAt i := by
  by_cases hpi : p = i
  · subst hpi
    simp [Hull.modifyNode, Hull.nodeAt, List.getElem?_set, hp,
      List.getElem?_eq_none (Nat.le_of_not_lt hp)]
  · exact h.nodeAt_modify_ne p f i hpi

theorem Hull.data_setBucket (h : Hull) (b v : Nat) :
    (h.setBucket b v).data = h.data := rfl

theorem Hull.nodeAt_setBucket (h : Hull) (b v i : Nat) :
    (h.setBucket b v).nodeAt i = h.nodeAt i := rfl

theorem Hull.buckets_length_setBucket (h : Hull) (b v : Nat) :
    (h.setBucket b v).buckets.length = h.buckets.length := by
  simp [Hull.setBucket]

theorem Hull.bucketAt_setBucket_self (h : Hull) (b v : Nat)
    (hb : b < h.buckets.length) : (h.setBucket b v).bucketAt b = v := by
  simp [Hull.setBucket, Hull.bucketAt, List.getElem?_set_self hb]

theorem Hull.bucketAt_setBucket_ne (h : Hull) (b v b' : Nat) (hne : b ≠ b') :
    (h.setBucket b v).bucketAt b' = h.bucketAt b' := by
  simp [Hull.setBucket, Hull.bucketAt, List.getElem?_set_ne hne]

theorem Hull.ordOf_modify_of_order_eq (h : Hull) (p : Nat) (f : Node → Node)
    (hf : ∀ n, (f n).order = n.order) (i : Nat) :
    (h.modifyNode p f).ordOf i = h.ordOf i := by
  by_cases hp : p < h.data.length
  · by_cases hpi : p = i
    · subst hpi
      simp [Hull.ordOf, h.nodeAt_modify_self p f hp, hf]
    · simp [Hull.ordOf, h.nodeAt_modify_ne p f i hpi]
  · simp [Hull.ordOf, h.nodeAt_modify_oob p f hp]

theorem Hull.bucket_modify_of_order_eq (h : Hull) (p : Nat) (f : Node → Node)
    (hf : ∀ n, (f n).order = n.order) (i : Nat) :
    (h.modifyNode p f).bucket i = h.bucket i := by
  unfold Hull.bucket Hull.bucketOfOrd
  rw [h.ordOf_modify_of_order_eq p f hf, h.data_length_modify, h.buckets_modify]

theorem Hull.bucket_setBucket (h : Hull) (b v i : Nat) :
    (h.setBucket b v).bucket i = h.bucket i := by
  simp [Hull.bucket, Hull.bucketOfOrd, Hull.ordOf, Hull.setBucket, Hull.nodeAt]

/-! ## Bucket-assignment arithmetic -/

theorem Hull.bucketOfOrd_mono (h : Hull) {o1 o2 : Nat} (hle : o1 ≤ o2) :
    h.bucketOfOrd o1 ≤ h.bucketOfOrd o2 :=
  Nat.div_le_div_right (Nat.mul_le_mul_right _ hle)

theorem Hull.bucket_mono (h : Hull) {i j : Nat} (hle : h.ordOf i ≤ h.ordOf j) :
    h.bucket i ≤ h.bucket j :=
  h.bucketOfOrd_mono hle

theorem Hull.ord_lt_of_bucket_lt (h : Hull) {i j : Nat}
    (hb : h.bucket i < h.bucket j) : h.ordOf i < h.ordOf j := by
  by_contra hcon
  exact absurd (h.bucket_mono (Nat.le_of_not_lt hcon)) (Nat.not_le_of_lt hb)

theorem Hull.bucketOfOrd_lt (h : Hull) {o : Nat} (ho : o < h.data.length)
    (hb : 0 < h.buckets.length) : h.bucketOfOrd o < h.buckets.length := by
  have hd : 0 < h.data.length := Nat.lt_of_le_of_lt (Nat.zero_le o) ho
  unfold Hull.bucketOfOrd
  rw [Nat.div_lt_iff_lt_mul hd]
  calc o * h.buckets.length < h.data.length * h.buckets.length :=
        Nat.mul_lt_mul_of_lt_of_le ho (Nat.le_refl _) hb
    _ = h.buckets.length * h.data.length := Nat.mul_comm _ _

/-- C8: the bucket of a point is `(order * N_BUCKETS) / total_point_count`
(with `N_BUCKETS = buckets.len()` and `total_point_count = data.len()` as in
the source); the assignment is monotone in `order`; the induced map on order
ranks has contiguous (interval) preimages; and every rank below the point
count lands in a valid bucket index. -/
theorem C8_bucket_assignment (h : Hull) (p q : Nat) (hp : p < h.data.length)
    (hq : q < h.data.length) (hb : 0 < h.buckets.length) :
    h.bucket p = ((h.nodeAt p).order * h.buckets.length) / h.data.length ∧
    (h.ordOf p ≤ h.ordOf q → h.bucket p ≤ h.bucket q) ∧
    (∀ o1 o2 o3 : Nat, o1 ≤ o2 → o2 ≤ o3 → h.bucketOfOrd o1 = h.bucketOfOrd o3 →
      h.bucketOfOrd o2 = h.bucketOfOrd o1) ∧
    (∀ o < h.data.length, h.bucketOfOrd o < h.buckets.length) := by
  refine ⟨rfl, fun hle => h.bucket_mono hle, fun o1 o2 o3 h12 h23 h13 => ?_,
    fun o ho => h.bucketOfOrd_lt ho hb⟩
  have g12 := h.bucketOfOrd_mono h12
  have g23 := h.bucketOfOrd_mono h23
  omega

/-- Witness for C8 at the concrete hull `Whull`, points `0` and `1`. -/
theorem C8_bucket_assignment_witness :
    ((0 : Nat) < Whull.data.length ∧ (1 : Nat) < Whull.data.length ∧
      0 < Whull.buckets.length) ∧
    (Whull.bucket 0 = ((Whull.nodeAt 0).order * Whull.buckets.length) / Whull.data.length ∧
    (Whull.ordOf 0 ≤ Whull.ordOf 1 → Whull.bucket 0 ≤ Whull.bucket 1) ∧
    (∀ o1 o2 o3 : Nat, o1 ≤ o2 → o2 ≤ o3 →
      Whull.bucketOfOrd o1 = Whull.bucketOfOrd o3 →
      Whull.bucketOfOrd o2 = Whull.bucketOfOrd o1) ∧
    (∀ o < Whull.data.length, Whull.bucketOfOrd o < Whull.buckets.length)) :=
  ⟨⟨by decide, by decide, by decide⟩,
    C8_bucket_assignment Whull 0 1 (by decide) (by decide) (by decide)⟩

/-- C6: calling `insert` with an already-live point, `update` or `edge` with
a non-live point, or `insert_first` with a non-empty target bucket, halts at
the `assert!` (modelled by `Except.error`/`none`).  In every one of these
operations the assertion is the first statement, before any write, so the
error payload is the structure exactly as it was at entry — the state is
unchanged on the error path. -/
theorem C6_contract_violations (h : Hull) (p e : Nat) (hp : p < h.data.length) :
    (h.live p → h.insert p e = .error h) ∧
    (¬ h.live p → h.update p e = .error h) ∧
    (¬ h.live p → h.edge p = none) ∧
    (h.bucketAt (h.bucket p) ≠ EMPTY → h.insert_first p e = .error h) := by
  refine ⟨fun hc => ?_, fun hc => ?_, fun hc => ?_, fun hc => ?_⟩
  · unfold Hull.insert
    rw [if_neg]
    rintro ⟨-, hnext⟩
    exact hc.2 hnext
  · have hnext : (h.nodeAt p).next = EMPTY := by
      by_contra hne
      exact hc ⟨hp, hne⟩
    unfold Hull.update
    rw [if_neg]
    intro hcon
    exact hcon hnext
  · have hnext : (h.nodeAt p).next = EMPTY := by
      by_contra hne
      exact hc ⟨hp, hne⟩
    unfold Hull.edge
    rw [if_neg]
    intro hcon
    exact hcon hnext
  · unfold Hull.insert_first
    exact if_neg hc

/-- Witness for C6 at `Whull`: point `0` is live (so `insert 0` halts),
point `2` is not (so `update 2`/`edge 2` halt), and point `0`'s bucket is
occupied (so `insert_first 0` halts). -/
theorem C6_contract_violations_witness :
    ((0 : Nat) < Whull.data.length ∧
      (Whull.live 0 → Whull.insert 0 5 = .error Whull) ∧
      (¬ Whull.live 0 → Whull.update 0 5 = .error Whull) ∧
      (¬ Whull.live 0 → Whull.edge 0 = none) ∧
      (Whull.bucketAt (Whull.bucket 0) ≠ EMPTY → Whull.insert_first 0 5 = .error Whull)) ∧
    ((2 : Nat) < Whull.data.length ∧
      (Whull.live 2 → Whull.insert 2 5 = .error Whull) ∧
      (¬ Whull.live 2 → Whull.update 2 5 = .error Whull) ∧
      (¬ Whull.live 2 → Whull.edge 2 = none) ∧
      (Whull.bucketAt (Whull.bucket 2) ≠ EMPTY → Whull.insert_first 2 5 = .error Whull)) :=
  ⟨⟨by decide, C6_contract_violations Whull 0 5 (by decide)⟩,
   ⟨by decide, C6_contract_violations Whull 2 5 (by decide)⟩⟩

/-! ## Characterising `erase` -/

/-- Total if-form of the node-modification frame rule. -/
theorem Hull.nodeAt_modify (h : Hull) (q : Nat) (f : Node → Node) (i : Nat) :
    (h.modifyNode q f).nodeAt i =
      if i = q ∧ q < h.data.length then f (h.nodeAt q) else h.nodeAt i := by
  by_cases hq : q < h.data.length
  · by_cases hiq : i = q
    · subst hiq
      rw [h.nodeAt_modify_self i f hq, if_pos ⟨rfl, hq⟩]
    · rw [h.nodeAt_modify_ne q f i (fun hcon => hiq hcon.symm), if_neg]
      rintro ⟨hcon, -⟩
      exact hiq hcon
  · rw [h.nodeAt_modify_oob q f hq, if_neg]
    rintro ⟨-, hcon⟩
    exact hq hcon

/-- The data array of `erase` is the four-write splice, independently of the
bucket-entry branch. -/
theorem Hull.erase_data (h : Hull) (p : Nat) :
    (h.erase p).data =
      ((((h.modifyNode (h.nodeAt p).next fun n => { n with prev := (h.nodeAt p).prev }).modifyNode
          (h.nodeAt p).prev fun n => { n with next := (h.nodeAt p).next }).modifyNode
          p fun n => { n with next := EMPTY }).modifyNode
          p fun n => { n with prev := EMPTY }).data := by
  simp only [Hull.erase]
  split
  · split <;> rfl
  · rfl

theorem Hull.erase_data_length (h : Hull) (p : Nat) :
    (h.erase p).data.length = h.data.length := by
  have hd := h.erase_data p
  have : (h.erase p).data.length =
      (((((h.modifyNode (h.nodeAt p).next fun n => { n with prev := (h.nodeAt p).prev }).modifyNode
          (h.nodeAt p).prev fun n => { n with next := (h.nodeAt p).next }).modifyNode
          p fun n => { n with next := EMPTY }).modifyNode
          p fun n => { n with prev := EMPTY })).data.length := by rw [hd]
  simpa [Hull.data_length_modify] using this

/-- Node-level effect of `erase`: only `p`'s own `prev`/`next` (cleared to
the sentinel), the `prev` of `p`'s old `next`, and the `next` of `p`'s old
`prev` change; every `order` and `edge` field is untouched. -/
theorem Hull.nodeAt_congr {h1 h2 : Hull} (hd : h1.data = h2.data) (i : Nat) :
    h1.nodeAt i = h2.nodeAt i := by
  unfold Hull.nodeAt
  rw [hd]

theorem Hull.erase_nodeAt_base (h : Hull) (p i : Nat) :
    (h.erase p).nodeAt i =
      ((((h.modifyNode (h.nodeAt p).next fun n => { n with prev := (h.nodeAt p).prev }).modifyNode
          (h.nodeAt p).prev fun n => { n with next := (h.nodeAt p).next }).modifyNode
          p fun n => { n with next := EMPTY }).modifyNode
          p fun n => { n with prev := EMPTY }).nodeAt i :=
  Hull.nodeAt_congr (h.erase_data p) i

/-- `erase` never changes any `order` field. -/
theorem Hull.erase_order (h : Hull) (p i : Nat) :
    ((h.erase p).nodeAt i).order = (h.nodeAt i).order := by
  rw [Hull.erase_nodeAt_base]
  simp only [Hull.nodeAt_modify, Hull.data_length_modify]
  generalize (h.nodeAt p).next = a
  generalize (h.nodeAt p).prev = b
  split_ifs <;> subst_vars <;> first | rfl | omega | simp_all

/-- `erase` never changes any `edge` field. -/
theorem Hull.erase_edge (h : Hull) (p i : Nat) :
    ((h.erase p).nodeAt i).edge = (h.nodeAt i).edge := by
  rw [Hull.erase_nodeAt_base]
  simp only [Hull.nodeAt_modify, Hull.data_length_modify]
  generalize (h.nodeAt p).next = a
  generalize (h.nodeAt p).prev = b
  split_ifs <;> subst_vars <;> first | rfl | omega | simp_all

/-- The `next` field after `erase p`: cleared at `p`, redirected at `p`'s
old `prev`, untouched elsewhere. -/
theorem Hull.erase_next (h : Hull) (p : Nat) (hp : p < h.data.length)
    (hn : (h.nodeAt p).next < h.data.length) (hv : (h.nodeAt p).prev < h.data.length)
    (i : Nat) :
    ((h.erase p).nodeAt i).next =
      if i = p then EMPTY
      else if i = (h.nodeAt p).prev then (h.nodeAt p).next
      else (h.nodeAt i).next := by
  rw [Hull.erase_nodeAt_base]
  simp only [Hull.nodeAt_modify, Hull.data_length_modify, hp, hn, hv, and_true,
    eq_self_iff_true, if_true]
  generalize (h.nodeAt p).next = a
  generalize (h.nodeAt p).prev = b
  split_ifs <;> subst_vars <;> first | rfl | omega | simp_all

/-- The `prev` field after `erase p`: cleared at `p`, redirected at `p`'s
old `next`, untouched elsewhere. -/
theorem Hull.erase_prev (h : Hull) (p : Nat) (hp : p < h.data.length)
    (hn : (h.nodeAt p).next < h.data.length) (hv : (h.nodeAt p).prev < h.data.length)
    (i : Nat) :
    ((h.erase p).nodeAt i).prev =
      if i = p then EMPTY
      else if i = (h.nodeAt p).next then (h.nodeAt p).prev
      else (h.nodeAt i).prev := by
  rw [Hull.erase_nodeAt_base]
  simp only [Hull.nodeAt_modify, Hull.data_length_modify, hp, hn, hv, and_true,
    eq_self_iff_true, if_true]
  generalize (h.nodeAt p).next = a
  generalize (h.nodeAt p).prev = b
  split_ifs <;> subst_vars <;> first | rfl | omega | simp_all

theorem Hull.erase_buckets_length (h : Hull) (p : Nat) :
    (h.erase p).buckets.length = h.buckets.length := by
  simp only [Hull.erase]
  split
  · split <;> simp [Hull.buckets_length_setBucket, Hull.buckets_modify]
  · simp [Hull.buckets_modify]

/-- Bucket slots other than `p`'s own bucket are untouched by `erase`. -/
theorem Hull.erase_bucketAt_ne (h : Hull) (p b : Nat) (hb : b ≠ h.bucket p) :
    (h.erase p).bucketAt b = h.bucketAt b := by
  simp only [Hull.erase]
  split
  · split
    · rw [Hull.bucketAt_setBucket_ne _ _ _ _ (fun hcon => hb hcon.symm)]
      rfl
    · rw [Hull.bucketAt_setBucket_ne _ _ _ _ (fun hcon => hb hcon.symm)]
      rfl
  · rfl

/-- The entry of `p`'s own bucket after `erase p`, exactly as the source
computes it: unchanged unless it was `p`; if it was `p`, it becomes `p`'s old
`next` when that neighbour falls in the same bucket, and `EMPTY` otherwise. -/
theorem Hull.erase_bucketAt_self (h : Hull) (p : Nat)
    (hb : h.bucket p < h.buckets.length) :
    (h.erase p).bucketAt (h.bucket p) =
      if h.bucketAt (h.bucket p) = p then
        (if h.bucket (h.nodeAt p).next = h.bucket p then (h.nodeAt p).next else EMPTY)
      else h.bucketAt (h.bucket p) := by
  have hb4 : ∀ q : Nat,
      ((((h.modifyNode (h.nodeAt p).next fun n => { n with prev := (h.nodeAt p).prev }).modifyNode
          (h.nodeAt p).prev fun n => { n with next := (h.nodeAt p).next }).modifyNode
          p fun n => { n with next := EMPTY }).modifyNode
          p fun n => { n with prev := EMPTY }).bucket q = h.bucket q := by
    intro q
    rw [Hull.bucket_modify_of_order_eq _ p (fun n => { n with prev := EMPTY })
          (fun n => rfl),
        Hull.bucket_modify_of_order_eq _ p (fun n => { n with next := EMPTY })
          (fun n => rfl),
        Hull.bucket_modify_of_order_eq _ (h.nodeAt p).prev
          (fun n => { n with next := (h.nodeAt p).next }) (fun n => rfl),
        Hull.bucket_modify_of_order_eq _ (h.nodeAt p).next
          (fun n => { n with prev := (h.nodeAt p).prev }) (fun n => rfl)]
  have hba : ∀ b : Nat,
      ((((h.modifyNode (h.nodeAt p).next fun n => { n with prev := (h.nodeAt p).prev }).modifyNode
          (h.nodeAt p).prev fun n => { n with next := (h.nodeAt p).next }).modifyNode
          p fun n => { n with next := EMPTY }).modifyNode
          p fun n => { n with prev := EMPTY }).bucketAt b = h.bucketAt b := fun b => rfl
  simp only [Hull.erase]
  rw [hb4, hba]
  split_ifs with h1 h2
  · exact Hull.bucketAt_setBucket_self _ _ _ hb
  · exact Hull.bucketAt_setBucket_self _ _ _ hb
  · exact hba _

/-- C10: for a live point `p` (with real neighbour indices, as the Rust
indexing requires), `erase p` keeps `p`'s `order` and `edge` fields (the
stale edge handle stays stored), and modifies only: `p`'s own `prev`/`next`
(cleared to the sentinel), the `prev` field of `p`'s former `next`, the
`next` field of `p`'s former `prev`, and at most the one bucket slot of
`p`'s bucket; every other node and every other bucket slot is untouched. -/
theorem C10_erase_frame (h : Hull) (p : Nat) (hp : p < h.data.length)
    (hl : (h.nodeAt p).next ≠ EMPTY)
    (hn : (h.nodeAt p).next < h.data.length) (hv : (h.nodeAt p).prev < h.data.length) :
    ((h.erase p).nodeAt p).order = (h.nodeAt p).order ∧
    ((h.erase p).nodeAt p).edge = (h.nodeAt p).edge ∧
    ((h.erase p).nodeAt p).next = EMPTY ∧
    ((h.erase p).nodeAt p).prev = EMPTY ∧
    (∀ i, ((h.erase p).nodeAt i).order = (h.nodeAt i).order ∧
          ((h.erase p).nodeAt i).edge = (h.nodeAt i).edge) ∧
    (∀ i, i ≠ p → i ≠ (h.nodeAt p).next → i ≠ (h.nodeAt p).prev →
      (h.erase p).nodeAt i = h.nodeAt i) ∧
    ((h.nodeAt p).next ≠ p → ((h.erase p).nodeAt (h.nodeAt p).next).prev = (h.nodeAt p).prev) ∧
    ((h.nodeAt p).prev ≠ p → ((h.erase p).nodeAt (h.nodeAt p).prev).next = (h.nodeAt p).next) ∧
    ((h.nodeAt p).next ≠ p → (h.nodeAt p).next ≠ (h.nodeAt p).prev →
      ((h.erase p).nodeAt (h.nodeAt p).next).next = (h.nodeAt (h.nodeAt p).next).next) ∧
    ((h.nodeAt p).prev ≠ p → (h.nodeAt p).prev ≠ (h.nodeAt p).next →
      ((h.erase p).nodeAt (h.nodeAt p).prev).prev = (h.nodeAt (h.nodeAt p).prev).prev) ∧
    (∀ b, b ≠ h.bucket p → (h.erase p).bucketAt b = h.bucketAt b) ∧
    (h.erase p).data.length = h.data.length ∧
    (h.erase p).buckets.length = h.buckets.length := by
  refine ⟨?_, ?_, ?_, ?_, fun i => ⟨h.erase_order p i, h.erase_edge p i⟩, fun i h1 h2 h3 => ?_,
    fun h1 => ?_, fun h1 => ?_, fun h1 h2 => ?_, fun h1 h2 => ?_,
    fun b hbne => h.erase_bucketAt_ne p b hbne, h.erase_data_length p, h.erase_buckets_length p⟩
  · exact h.erase_order p p
  · exact h.erase_edge p p
  · rw [h.erase_next p hp hn hv p, if_pos rfl]
  · rw [h.erase_prev p hp hn hv p, if_pos rfl]
  · have ho := h.erase_order p i
    have he := h.erase_edge p i
    have hx := h.erase_next p hp hn hv i
    have hy := h.erase_prev p hp hn hv i
    rw [if_neg h1, if_neg h3] at hx
    rw [if_neg h1, if_neg h2] at hy
    cases hcur : (h.erase p).nodeAt i
    cases horig : h.nodeAt i
    simp_all
  · rw [h.erase_prev p hp hn hv _, if_neg h1, if_pos rfl]
  · rw [h.erase_next p hp hn hv _, if_neg h1, if_pos rfl]
  · rw [h.erase_next p hp hn hv _, if_neg h1, if_neg]
    intro hcon
    exact h2 (hcon.symm ▸ rfl)
  · rw [h.erase_prev p hp hn hv _, if_neg h1, if_neg]
    intro hcon
    exact h2 (hcon.symm ▸ rfl)

/-- Witness for C10 at `Whull`, erasing live point `0` (whose two neighbours
are both point `1`). -/
theorem C10_erase_frame_witness :
    ((0 : Nat) < Whull.data.length ∧ (Whull.nodeAt 0).next ≠ EMPTY ∧
      (Whull.nodeAt 0).next < Whull.data.length ∧
      (Whull.nodeAt 0).prev < Whull.data.length) ∧
    (((Whull.erase 0).nodeAt 0).order = (Whull.nodeAt 0).order ∧
    ((Whull.erase 0).nodeAt 0).edge = (Whull.nodeAt 0).edge ∧
    ((Whull.erase 0).nodeAt 0).next = EMPTY ∧
    ((Whull.erase 0).nodeAt 0).prev = EMPTY ∧
    (∀ i, ((Whull.erase 0).nodeAt i).order = (Whull.nodeAt i).order ∧
          ((Whull.erase 0).nodeAt i).edge = (Whull.nodeAt i).edge) ∧
    (∀ i, i ≠ 0 → i ≠ (Whull.nodeAt 0).next → i ≠ (Whull.nodeAt 0).prev →
      (Whull.erase 0).nodeAt i = Whull.nodeAt i) ∧
    ((Whull.nodeAt 0).next ≠ 0 →
      ((Whull.erase 0).nodeAt (Whull.nodeAt 0).next).prev = (Whull.nodeAt 0).prev) ∧
    ((Whull.nodeAt 0).prev ≠ 0 →
      ((Whull.erase 0).nodeAt (Whull.nodeAt 0).prev).next = (Whull.nodeAt 0).next) ∧
    ((Whull.nodeAt 0).next ≠ 0 → (Whull.nodeAt 0).next ≠ (Whull.nodeAt 0).prev →
      ((Whull.erase 0).nodeAt (Whull.nodeAt 0).next).next = (Whull.nodeAt (Whull.nodeAt 0).next).next) ∧
    ((Whull.nodeAt 0).prev ≠ 0 → (Whull.nodeAt 0).prev ≠ (Whull.nodeAt 0).next →
      ((Whull.erase 0).nodeAt (Whull.nodeAt 0).prev).prev = (Whull.nodeAt (Whull.nodeAt 0).prev).prev) ∧
    (∀ b, b ≠ Whull.bucket 0 → (Whull.erase 0).bucketAt b = Whull.bucketAt b) ∧
    (Whull.erase 0).data.length = Whull.data.length ∧
    (Whull.erase 0).buckets.length = Whull.buckets.length) :=
  ⟨⟨by decide, by decide, by decide, by decide⟩,
    C10_erase_frame Whull 0 (by decide) (by decide) (by decide) (by decide)⟩

/-- C9: `insert_first`'s precondition check is local to `p`'s bucket.  If
`p`'s own bucket entry is the sentinel, the call succeeds even when another
live point `q` exists in a different bucket; `p` becomes a self-linked
one-node cycle while `q`'s node — and hence `q`'s own cycle — is untouched,
leaving two disjoint cycles. -/
theorem C9_insert_first_is_local (h : Hull) (p e q : Nat)
    (hp : p < h.data.length) (hlen : h.data.length ≤ EMPTY)
    (hempty : h.bucketAt (h.bucket p) = EMPTY)
    (hq : h.live q) (hbq : h.bucket q ≠ h.bucket p) :
    ∃ h', h.insert_first p e = .ok h' ∧
      (h'.nodeAt p).next = p ∧ (h'.nodeAt p).prev = p ∧ (h'.nodeAt p).edge = e ∧
      h'.live p ∧ h'.nodeAt q = h.nodeAt q ∧ h'.live q := by
  have hqp : q ≠ p := by
    intro hcon
    exact hbq (by rw [hcon])
  refine ⟨(h.setBucket (h.bucket p) p).modifyNode p fun n =>
    { n with next := p, prev := p, edge := e }, ?_, ?_⟩
  · unfold Hull.insert_first
    rw [if_pos hempty]
  · have hlp : ((h.setBucket (h.bucket p) p).modifyNode p fun n =>
        { n with next := p, prev := p, edge := e }).nodeAt p =
        { h.nodeAt p with next := p, prev := p, edge := e } := by
      rw [Hull.nodeAt_modify_self]
      · rw [Hull.nodeAt_setBucket]
      · rw [Hull.data_setBucket]
        exact hp
    have hlq : ((h.setBucket (h.bucket p) p).modifyNode p fun n =>
        { n with next := p, prev := p, edge := e }).nodeAt q = h.nodeAt q := by
      rw [Hull.nodeAt_modify_ne _ _ _ _ (fun hcon => hqp hcon.symm), Hull.nodeAt_setBucket]
    have hlen' : ((h.setBucket (h.bucket p) p).modifyNode p fun n =>
        { n with next := p, prev := p, edge := e }).data.length = h.data.length := by
      rw [Hull.data_length_modify, Hull.data_setBucket]
    refine ⟨by rw [hlp], by rw [hlp], by rw [hlp], ⟨by rw [hlen']; exact hp, ?_⟩,
      hlq, ⟨by rw [hlen']; exact hq.1, by rw [hlq]; exact hq.2⟩⟩
    rw [hlp]
    show p ≠ EMPTY
    omega

/-- Witness for C9: a hull with point `1` live alone in bucket `1`, and
`insert_first 0` succeeding into the empty bucket `0`. -/
theorem C9_insert_first_is_local_witness :
    ((0 : Nat) < WhullQ.data.length ∧ WhullQ.data.length ≤ EMPTY ∧
      WhullQ.bucketAt (WhullQ.bucket 0) = EMPTY ∧ WhullQ.live 1 ∧
      WhullQ.bucket 1 ≠ WhullQ.bucket 0) ∧
    (∃ h', WhullQ.insert_first 0 7 = .ok h' ∧
      (h'.nodeAt 0).next = 0 ∧ (h'.nodeAt 0).prev = 0 ∧ (h'.nodeAt 0).edge = 7 ∧
      h'.live 0 ∧ h'.nodeAt 1 = WhullQ.nodeAt 1 ∧ h'.live 1) :=
  ⟨⟨by decide, by decide, by decide, by decide, by decide⟩,
    C9_insert_first_is_local WhullQ 0 7 1 (by decide) (by decide) (by decide)
      (by decide) (by decide)⟩

/-! ## Two code bugs, witnessed on reachable states -/

set_option maxRecDepth 40000 in
/-- C3 (code bug): erasing the only live point leaves that now-dead point
behind as its bucket's entry.  In `erase`, when `p` is a singleton cycle its
`next` is `p` itself, so the head-replacement branch stores `p` back instead
of `EMPTY` — contradicting the function's own comment ("or EMPTY if the
bucket is now completely empty") and the spec's invariant that a non-sentinel
bucket entry is a live node. -/
theorem C3_bucket_entry_dead_after_singleton_erase :
    (Hull.init [0, 1]).insert_first 0 7 = .ok c3Hull ∧
    c3Hull.live 0 ∧
    (c3Hull.erase 0).bucketAt ((c3Hull.erase 0).bucket 0) = 0 ∧
    (c3Hull.erase 0).bucketAt ((c3Hull.erase 0).bucket 0) ≠ EMPTY ∧
    ¬ (c3Hull.erase 0).live 0 :=
  ⟨rfl, by decide, by decide, by decide, by decide⟩

set_option maxRecDepth 40000 in
/-- On `divergeHull`, the bucket-chain walk of `get 1` starts at the
singleton point `0`, whose `next` is itself; the loop guard
(`order 0 < order 1` and same bucket) holds forever, so the walk never
stops — for every fuel it returns `none`. -/
theorem divergeHull_walk_none : ∀ fuel,
    divergeHull.walk (divergeHull.ordOf 1) (divergeHull.bucket 1)
      (divergeHull.bucketAt (divergeHull.bucket 1)) fuel = none := by
  have hstart : divergeHull.bucketAt (divergeHull.bucket 1) = 0 := by decide
  have hcond : (divergeHull.nodeAt 0).order < divergeHull.ordOf 1 ∧
      divergeHull.bucket 0 = divergeHull.bucket 1 := by decide
  have hnext : (divergeHull.nodeAt 0).next = 0 := by decide
  rw [hstart]
  intro fuel
  induction fuel with
  | zero => rfl
  | succ n ih =>
    simp only [Hull.walk]
    rw [if_pos hcond, hnext]
    exact ih

set_option maxRecDepth 40000 in
/-- C7 (code bug): on the reachable 1025-point state `divergeHull` (one live
point, `insert_first` only), `get`/locate of point `1` never reaches its
stopping condition: point `1` is not live, a live point exists, yet the
chain walk spins forever on point `0`'s self-loop (`none` at every fuel),
so `get 1` does not return. -/
theorem C7_locate_nonterminating :
    (Hull.init (List.range 1025)).insert_first 0 5 = .ok divergeHull ∧
    divergeHull.live 0 ∧ ¬ divergeHull.live 1 ∧
    (1 : Nat) < divergeHull.data.length ∧
    (∀ fuel, divergeHull.walk (divergeHull.ordOf 1) (divergeHull.bucket 1)
      (divergeHull.bucketAt (divergeHull.bucket 1)) fuel = none) ∧
    divergeHull.get 1 = none := by
  refine ⟨rfl, by decide, by decide, by decide, divergeHull_walk_none, ?_⟩
  simp only [Hull.get]
  rw [if_neg (by decide : ¬ divergeHull.bucketAt (divergeHull.bucket 1) = EMPTY)]
  rw [divergeHull_walk_none]

/-! ## Order theory of the live set -/

theorem Hull.live_lt {h : Hull} {k : Nat} (hl : h.live k) : k < h.data.length := hl.1

theorem Hull.live_ne_EMPTY {h : Hull} {k : Nat} (hlen : h.data.length ≤ EMPTY)
    (hl : h.live k) : k ≠ EMPTY := by
  have := hl.1
  omega

theorem Hull.ord_ne_of_ne {h : Hull} (w : h.WF) {i j : Nat} (hi : i < h.data.length)
    (hj : j < h.data.length) (hne : i ≠ j) : h.ordOf i ≠ h.ordOf j := fun hcon =>
  hne (w.ordinj i hi j hj hcon)

/-- Minimum of a nonempty list under an image. -/
theorem List.exists_min_image (l : List Nat) (f : Nat → Nat) (hne : l ≠ []) :
    ∃ m ∈ l, ∀ x ∈ l, f m ≤ f x := by
  induction l with
  | nil => exact absurd rfl hne
  | cons a t ih =>
    cases t with
    | nil =>
      refine ⟨a, List.mem_singleton_self a, ?_⟩
      intro x hx
      rw [List.mem_singleton] at hx
      rw [hx]
    | cons b u =>
      obtain ⟨m, hm, hmin⟩ := ih (by simp)
      by_cases hle : f a ≤ f m
      · refine ⟨a, List.mem_cons_self a _, ?_⟩
        intro x hx
        rcases List.mem_cons.mp hx with hxa | hxt
        · rw [hxa]
        · exact Nat.le_trans hle (hmin x hxt)
      · refine ⟨m, List.mem_cons_of_mem a hm, ?_⟩
        intro x hx
        rcases List.mem_cons.mp hx with hxa | hxt
        · rw [hxa]
          exact Nat.le_of_lt (Nat.lt_of_not_le hle)
        · exact hmin x hxt

/-- Maximum of a nonempty list under an image. -/
theorem List.exists_max_image (l : List Nat) (f : Nat → Nat) (hne : l ≠ []) :
    ∃ m ∈ l, ∀ x ∈ l, f x ≤ f m := by
  induction l with
  | nil => exact absurd rfl hne
  | cons a t ih =>
    cases t with
    | nil =>
      refine ⟨a, List.mem_singleton_self a, ?_⟩
      intro x hx
      rw [List.mem_singleton] at hx
      rw [hx]
    | cons b u =>
      obtain ⟨m, hm, hmax⟩ := ih (by simp)
      by_cases hle : f m ≤ f a
      · refine ⟨a, List.mem_cons_self a _, ?_⟩
        intro x hx
        rcases List.mem_cons.mp hx with hxa | hxt
        · rw [hxa]
        · exact Nat.le_trans (hmax x hxt) hle
      · refine ⟨m, List.mem_cons_of_mem a hm, ?_⟩
        intro x hx
        rcases List.mem_cons.mp hx with hxa | hxt
        · rw [hxa]
          exact Nat.le_of_lt (Nat.lt_of_not_le hle)
        · exact hmax x hxt

theorem Hull.mem_liveL {h : Hull} {k : Nat} : k ∈ h.liveL ↔ h.live k := by
  unfold Hull.liveL
  rw [List.mem_filter, List.mem_range]
  constructor
  · rintro ⟨-, hdec⟩
    exact of_decide_eq_true hdec
  · intro hl
    exact ⟨hl.1, decide_eq_true hl⟩

theorem Hull.liveL_ne_nil {h : Hull} {q : Nat} (hq : h.live q) : h.liveL ≠ [] := by
  intro hcon
  have hmem : q ∈ h.liveL := Hull.mem_liveL.mpr hq
  rw [hcon] at hmem
  exact absurd hmem (List.not_mem_nil q)

theorem Hull.exists_isMinLive {h : Hull} {q : Nat} (hq : h.live q) :
    ∃ m, h.isMinLive m := by
  obtain ⟨m, hm, hmin⟩ := List.exists_min_image h.liveL h.ordOf (Hull.liveL_ne_nil hq)
  exact ⟨m, Hull.mem_liveL.mp hm, fun k _ hk => hmin k (Hull.mem_liveL.mpr hk)⟩

theorem Hull.exists_isMaxLive {h : Hull} {q : Nat} (hq : h.live q) :
    ∃ m, h.isMaxLive m := by
  obtain ⟨m, hm, hmax⟩ := List.exists_max_image h.liveL h.ordOf (Hull.liveL_ne_nil hq)
  exact ⟨m, Hull.mem_liveL.mp hm, fun k _ hk => hmax k (Hull.mem_liveL.mpr hk)⟩

theorem Hull.exists_minAboveP {h : Hull} {q o : Nat} (hq : h.live q)
    (hgt : o < h.ordOf q) : ∃ m, h.minAboveP o m := by
  obtain ⟨m, hm, hmin⟩ := List.exists_min_image
    (h.liveL.filter fun k => decide (o < h.ordOf k)) h.ordOf
    (fun hcon => by
      have hq' : q ∈ h.liveL.filter fun k => decide (o < h.ordOf k) :=
        List.mem_filter.mpr ⟨Hull.mem_liveL.mpr hq, decide_eq_true hgt⟩
      rw [hcon] at hq'
      exact absurd hq' (List.not_mem_nil q))
  obtain ⟨hml, hmo⟩ := List.mem_filter.mp hm
  refine ⟨m, Hull.mem_liveL.mp hml, of_decide_eq_true hmo, fun k _ hk hko => ?_⟩
  exact hmin k (List.mem_filter.mpr ⟨Hull.mem_liveL.mpr hk, decide_eq_true hko⟩)

theorem Hull.exists_maxBelowP {h : Hull} {q o : Nat} (hq : h.live q)
    (hlt : h.ordOf q < o) : ∃ m, h.maxBelowP o m := by
  obtain ⟨m, hm, hmax⟩ := List.exists_max_image
    (h.liveL.filter fun k => decide (h.ordOf k < o)) h.ordOf
    (fun hcon => by
      have hq' : q ∈ h.liveL.filter fun k => decide (h.ordOf k < o) :=
        List.mem_filter.mpr ⟨Hull.mem_liveL.mpr hq, decide_eq_true hlt⟩
      rw [hcon] at hq'
      exact absurd hq' (List.not_mem_nil q))
  obtain ⟨hml, hmo⟩ := List.mem_filter.mp hm
  refine ⟨m, Hull.mem_liveL.mp hml, of_decide_eq_true hmo, fun k _ hk hko => ?_⟩
  exact hmax k (List.mem_filter.mpr ⟨Hull.mem_liveL.mpr hk, decide_eq_true hko⟩)

theorem Hull.ordSucc_live {h : Hull} {o j : Nat} (hs : h.ordSucc o j) : h.live j := by
  rcases hs with hmin | ⟨-, hglob⟩
  · exact hmin.1
  · exact hglob.1

theorem Hull.ordPred_live {h : Hull} {o j : Nat} (hs : h.ordPred o j) : h.live j := by
  rcases hs with hmax | ⟨-, hglob⟩
  · exact hmax.1
  · exact hglob.1

theorem Hull.ordSucc_unique {h : Hull} (w : h.WF) {o i j : Nat}
    (hi : h.ordSucc o i) (hj : h.ordSucc o j) : i = j := by
  have hli := Hull.ordSucc_live hi
  have hlj := Hull.ordSucc_live hj
  rcases hi with ⟨hli', hoi, hmi⟩ | ⟨halli, hgi⟩
  · rcases hj with ⟨hlj', hoj, hmj⟩ | ⟨hallj, hgj⟩
    · exact w.ordinj i hli.1 j hlj.1
        (Nat.le_antisymm (hmi j hlj.1 hlj' hoj) (hmj i hli.1 hli' hoi))
    · exact absurd hoi (Nat.not_lt_of_le (hallj i hli.1 hli'))
  · rcases hj with ⟨hlj', hoj, hmj⟩ | ⟨hallj, hgj⟩
    · exact absurd hoj (Nat.not_lt_of_le (halli j hlj.1 hlj'))
    · exact w.ordinj i hli.1 j hlj.1
        (Nat.le_antisymm (hgi.2 j hlj.1 hgj.1) (hgj.2 i hli.1 hgi.1))

theorem Hull.ordPred_unique {h : Hull} (w : h.WF) {o i j : Nat}
    (hi : h.ordPred o i) (hj : h.ordPred o j) : i = j := by
  have hli := Hull.ordPred_live hi
  have hlj := Hull.ordPred_live hj
  rcases hi with ⟨hli', hoi, hmi⟩ | ⟨halli, hgi⟩
  · rcases hj with ⟨hlj', hoj, hmj⟩ | ⟨hallj, hgj⟩
    · exact w.ordinj i hli.1 j hlj.1
        (Nat.le_antisymm (hmj i hli.1 hli' hoi) (hmi j hlj.1 hlj' hoj))
    · exact absurd hoi (Nat.not_lt_of_le (hallj i hli.1 hli'))
  · rcases hj with ⟨hlj', hoj, hmj⟩ | ⟨hallj, hgj⟩
    · exact absurd hoj (Nat.not_lt_of_le (halli j hlj.1 hlj'))
    · exact w.ordinj i hli.1 j hlj.1
        (Nat.le_antisymm (hgj.2 i hli.1 hgi.1) (hgi.2 j hlj.1 hgj.1))

/-- From `i` being the cyclic predecessor of `j`, `j` is the cyclic
successor of `i` (on live points). -/
theorem Hull.cyclicSucc_of_cyclicPred {h : Hull} {i j : Nat}
    (hi : h.live i) (hj : h.live j) (hp : h.cyclicPred j i) : h.cyclicSucc i j := by
  rcases hp with ⟨hli, hoi, hmax⟩ | ⟨hnone, hgi⟩
  · left
    refine ⟨hj, hoi, fun k hk hlk hok => ?_⟩
    by_contra hcon
    have hklt : h.ordOf k < h.ordOf j := Nat.lt_of_not_le hcon
    exact absurd hok (Nat.not_lt_of_le (hmax k hk hlk hklt))
  · right
    refine ⟨fun k hk hlk => hgi.2 k hk hlk, hj, fun k hk hlk => hnone k hk hlk⟩

theorem Hull.cyclicPred_of_cyclicSucc {h : Hull} {i j : Nat}
    (hi : h.live i) (hj : h.live j) (hs : h.cyclicSucc i j) : h.cyclicPred j i := by
  rcases hs with ⟨hlj, hoj, hmin⟩ | ⟨hnone, hgj⟩
  · left
    refine ⟨hi, hoj, fun k hk hlk hok => ?_⟩
    by_contra hcon
    have hkgt : h.ordOf i < h.ordOf k := Nat.lt_of_not_le hcon
    exact absurd hok (Nat.not_lt_of_le (hmin k hk hlk hkgt))
  · right
    refine ⟨fun k hk hlk => hgj.2 k hk hlk, hi, fun k hk hlk => hnone k hk hlk⟩

theorem Hull.next_live {h : Hull} (w : h.WF) {i : Nat} (hi : h.live i) :
    h.live (h.nodeAt i).next :=
  Hull.ordSucc_live (w.nextsucc i hi.1 hi)

theorem Hull.prev_live {h : Hull} (w : h.WF) {i : Nat} (hi : h.live i) :
    h.live (h.nodeAt i).prev :=
  Hull.ordPred_live (w.prevpred i hi.1 hi)

/-- `prev` undoes `next` on live points. -/
theorem Hull.prev_next_inverse {h : Hull} (w : h.WF) {i : Nat} (hi : h.live i) :
    (h.nodeAt (h.nodeAt i).next).prev = i := by
  have hj : h.live (h.nodeAt i).next := h.next_live w hi
  have hs : h.cyclicSucc i (h.nodeAt i).next := w.nextsucc i hi.1 hi
  have hp : h.cyclicPred (h.nodeAt i).next i := Hull.cyclicPred_of_cyclicSucc hi hj hs
  have hp' : h.cyclicPred (h.nodeAt i).next (h.nodeAt (h.nodeAt i).next).prev :=
    w.prevpred _ hj.1 hj
  exact Hull.ordPred_unique w hp' hp

/-- `next` undoes `prev` on live points. -/
theorem Hull.next_prev_inverse {h : Hull} (w : h.WF) {i : Nat} (hi : h.live i) :
    (h.nodeAt (h.nodeAt i).prev).next = i := by
  have hj : h.live (h.nodeAt i).prev := h.prev_live w hi
  have hp : h.cyclicPred i (h.nodeAt i).prev := w.prevpred i hi.1 hi
  have hs : h.cyclicSucc (h.nodeAt i).prev i := Hull.cyclicSucc_of_cyclicPred hj hi hp
  have hs' : h.cyclicSucc (h.nodeAt i).prev (h.nodeAt (h.nodeAt i).prev).next :=
    w.nextsucc _ hj.1 hj
  exact Hull.ordSucc_unique w hs' hs

/-! ## Correctness of the empty-bucket scan -/

/-- If the first non-empty slot at cyclic offset `t` from `s` lies within the
fuel, the scan returns its entry. -/
theorem Hull.scanB_spec (h : Hull) :
    ∀ t fuel s, s < h.buckets.length → t < fuel →
      h.bucketAt ((s + t) % h.buckets.length) ≠ EMPTY →
      (∀ u < t, h.bucketAt ((s + u) % h.buckets.length) = EMPTY) →
      h.scanB s fuel = some (h.bucketAt ((s + t) % h.buckets.length)) := by
  intro t
  induction t with
  | zero =>
    intro fuel s hs hf hne _
    match fuel, hf with
    | fuel + 1, _ =>
      have hmod : (s + 0) % h.buckets.length = s := by
        rw [Nat.add_zero, Nat.mod_eq_of_lt hs]
      rw [hmod] at hne
      unfold Hull.scanB
      rw [if_neg hne, hmod]
  | succ t ih =>
    intro fuel s hs hf hne hemp
    match fuel, hf with
    | fuel + 1, hf =>
      have h0 : h.bucketAt ((s + 0) % h.buckets.length) = EMPTY :=
        hemp 0 (Nat.succ_pos t)
      rw [Nat.add_zero, Nat.mod_eq_of_lt hs] at h0
      unfold Hull.scanB
      rw [if_pos h0]
      have hblen : 0 < h.buckets.length := Nat.lt_of_le_of_lt (Nat.zero_le s) hs
      have hmodeq : ∀ u : Nat, ((s + 1) % h.buckets.length + u) % h.buckets.length =
          (s + (u + 1)) % h.buckets.length := by
        intro u
        rw [Nat.mod_add_mod]
        congr 1
        omega
      have hih := ih fuel ((s + 1) % h.buckets.length) (Nat.mod_lt _ hblen)
        (Nat.lt_of_succ_lt_succ hf) ?_ ?_
      · rw [hih, hmodeq t]
      · rw [hmodeq t]
        exact hne
      · intro u hu
        rw [hmodeq u]
        exact hemp (u + 1) (Nat.succ_lt_succ hu)

theorem Hull.live_bucket_lt {h : Hull} (w : h.WF) {k : Nat} (hl : h.live k) :
    h.bucket k < h.buckets.length :=
  h.bucketOfOrd_lt (w.ordlt k hl.1) w.bpos

theorem Hull.live_bucket_nonempty {h : Hull} (w : h.WF) {k : Nat} (hl : h.live k) :
    h.bucketAt (h.bucket k) ≠ EMPTY := by
  intro hcon
  exact w.bempty (h.bucket k) (h.live_bucket_lt w hl) hcon k hl.1 hl rfl

/-- The scan path of `get`: when `p`'s bucket is empty and some live point
exists, the scan finds the bucket entry that is the cyclic order-successor
of `p`'s rank. -/
theorem Hull.scan_case_spec {h : Hull} (w : h.WF) {p q : Nat}
    (hp : p < h.data.length) (hnl : ¬ h.live p) (hq : h.live q)
    (hbe : h.bucketAt (h.bucket p) = EMPTY) :
    ∃ nxt, h.scanB (h.bucket p) h.buckets.length = some nxt ∧
      h.ordSucc (h.ordOf p) nxt := by
  have hblen : 0 < h.buckets.length := w.bpos
  have hb : h.bucket p < h.buckets.length := h.bucketOfOrd_lt (w.ordlt p hp) hblen
  -- the scan's search predicate
  have hPdec : DecidablePred fun u => h.bucketAt ((h.bucket p + u) % h.buckets.length) ≠ EMPTY :=
    fun u => inferInstanceAs (Decidable (_ ≠ _))
  by_cases hab : ∃ j, j < h.data.length ∧ h.live j ∧ h.ordOf p < h.ordOf j
  · -- Case A: some live point lies above `p`'s order.
    obtain ⟨j0, hj0len, hj0, hj0gt⟩ := hab
    obtain ⟨j, hjl, hjgt, hjmin⟩ := Hull.exists_minAboveP hj0 hj0gt
    have hbj : h.bucket p < h.bucket j := by
      have hle : h.bucket p ≤ h.bucket j := h.bucket_mono (Nat.le_of_lt hjgt)
      rcases Nat.lt_or_ge (h.bucket p) (h.bucket j) with hlt | hge
      · exact hlt
      · have heq : h.bucket j = h.bucket p := Nat.le_antisymm hge hle
        exact absurd heq (w.bempty (h.bucket p) hb hbe j hjl.1 hjl)
    have hbjlt : h.bucket j < h.buckets.length := h.live_bucket_lt w hjl
    have hPtj : h.bucketAt ((h.bucket p + (h.bucket j - h.bucket p)) % h.buckets.length) ≠ EMPTY := by
      rw [show h.bucket p + (h.bucket j - h.bucket p) = h.bucket j by omega,
        Nat.mod_eq_of_lt hbjlt]
      exact h.live_bucket_nonempty w hjl
    have hex : ∃ u, h.bucketAt ((h.bucket p + u) % h.buckets.length) ≠ EMPTY :=
      ⟨h.bucket j - h.bucket p, hPtj⟩
    classical
    set t0 := Nat.find hex with ht0def
    have hP0 : h.bucketAt ((h.bucket p + t0) % h.buckets.length) ≠ EMPTY := Nat.find_spec hex
    have ht0min : ∀ u < t0, h.bucketAt ((h.bucket p + u) % h.buckets.length) = EMPTY := by
      intro u hu
      by_contra hcon
      exact absurd (Nat.find_le hcon) (Nat.not_le_of_lt hu)
    have ht0le : t0 ≤ h.bucket j - h.bucket p := Nat.find_le hPtj
    have ht0lt : t0 < h.buckets.length := by omega
    have hs0 : (h.bucket p + t0) % h.buckets.length = h.bucket p + t0 := by
      apply Nat.mod_eq_of_lt
      omega
    have hscan := h.scanB_spec t0 h.buckets.length (h.bucket p) hb ht0lt hP0 ht0min
    refine ⟨_, hscan, ?_⟩
    -- the found slot's entry is the minimum live point above `p`
    rw [hs0] at hP0 ⊢
    obtain ⟨hel, heb, hemin⟩ := w.bfull (h.bucket p + t0) (by omega) hP0
    have ht0pos : 0 < t0 := by
      rcases Nat.eq_zero_or_pos t0 with h0 | hpos
    -- t0 = 0 would mean `p`'s own bucket is non-empty
      · rw [h0] at hP0
        rw [Nat.add_zero] at hP0
        exact absurd hbe hP0
      · exact hpos
    left
    refine ⟨hel, ?_, ?_⟩
    · have : h.bucket p < h.bucket (h.bucketAt (h.bucket p + t0)) := by omega
      exact h.ord_lt_of_bucket_lt this
    · intro k hk hlk hok
      have hkb : h.bucket p ≤ h.bucket k := h.bucket_mono (Nat.le_of_lt hok)
      have hkbne : h.bucket k ≠ h.bucket p := fun hcon =>
        w.bempty (h.bucket p) hb hbe k hk hlk hcon
      have hkgt : h.bucket p < h.bucket k := by omega
      have hkP : h.bucketAt ((h.bucket p + (h.bucket k - h.bucket p)) % h.buckets.length) ≠ EMPTY := by
        rw [show h.bucket p + (h.bucket k - h.bucket p) = h.bucket k by omega,
          Nat.mod_eq_of_lt (h.live_bucket_lt w hlk)]
        exact h.live_bucket_nonempty w hlk
      have : t0 ≤ h.bucket k - h.bucket p := Nat.find_le hkP
      rcases Nat.lt_or_ge (h.bucket p + t0) (h.bucket k) with hlt | hge
      · have hbke : h.bucket (h.bucketAt (h.bucket p + t0)) < h.bucket k := by
          rw [heb]
          exact hlt
        exact Nat.le_of_lt (h.ord_lt_of_bucket_lt hbke)
      · have hkeq : h.bucket k = h.bucket p + t0 := by omega
        exact hemin k hk hlk hkeq
  · -- Case B: every live point has order below `p`'s; wraparound to the
    -- global minimum.
    push_neg at hab
    have hallb : ∀ k, k < h.data.length → h.live k → h.ordOf k ≤ h.ordOf p := fun k hk hlk =>
      hab k hk hlk
    obtain ⟨m, hml, hmmin⟩ := Hull.exists_isMinLive hq
    have hbm : h.bucket m < h.bucket p := by
      have hle : h.bucket m ≤ h.bucket p := h.bucket_mono (hallb m hml.1 hml)
      rcases Nat.lt_or_ge (h.bucket m) (h.bucket p) with hlt | hge
      · exact hlt
      · exact absurd (Nat.le_antisymm hle hge)
          (w.bempty (h.bucket p) hb hbe m hml.1 hml)
    have hPtm : h.bucketAt ((h.bucket p + (h.bucket m + h.buckets.length - h.bucket p)) %
        h.buckets.length) ≠ EMPTY := by
      rw [show h.bucket p + (h.bucket m + h.buckets.length - h.bucket p) =
        h.buckets.length + h.bucket m by omega, Nat.add_mod_left,
        Nat.mod_eq_of_lt (h.live_bucket_lt w hml)]
      exact h.live_bucket_nonempty w hml
    have hex : ∃ u, h.bucketAt ((h.bucket p + u) % h.buckets.length) ≠ EMPTY :=
      ⟨h.bucket m + h.buckets.length - h.bucket p, hPtm⟩
    classical
    set t0 := Nat.find hex with ht0def
    have hP0 : h.bucketAt ((h.bucket p + t0) % h.buckets.length) ≠ EMPTY := Nat.find_spec hex
    have ht0min : ∀ u < t0, h.bucketAt ((h.bucket p + u) % h.buckets.length) = EMPTY := by
      intro u hu
      by_contra hcon
      exact absurd (Nat.find_le hcon) (Nat.not_le_of_lt hu)
    have ht0le : t0 ≤ h.bucket m + h.buckets.length - h.bucket p := Nat.find_le hPtm
    have ht0lt : t0 < h.buckets.length := by omega
    have hscan := h.scanB_spec t0 h.buckets.length (h.bucket p) hb ht0lt hP0 ht0min
    -- every live bucket is strictly below `p`'s, so the first `blen - b`
    -- offsets are all empty and the scan wraps around
    have hlivebelow : ∀ k, k < h.data.length → h.live k → h.bucket k < h.bucket p := by
      intro k hk hlk
      have hle : h.bucket k ≤ h.bucket p := h.bucket_mono (hallb k hk hlk)
      rcases Nat.lt_or_ge (h.bucket k) (h.bucket p) with hlt | hge
      · exact hlt
      · exact absurd (Nat.le_antisymm hle hge)
          (w.bempty (h.bucket p) hb hbe k hk hlk)
    have ht0wrap : h.buckets.length - h.bucket p ≤ t0 := by
      by_contra hcon
      push_neg at hcon
      -- then the found slot is `≥ bucket p`, hence `bfull` gives a live
      -- point in a bucket `≥ bucket p`, contradiction
      have hs0 : (h.bucket p + t0) % h.buckets.length = h.bucket p + t0 :=
        Nat.mod_eq_of_lt (by omega)
      rw [hs0] at hP0
      obtain ⟨hel, heb, -⟩ := w.bfull (h.bucket p + t0) (by omega) hP0
      have := hlivebelow _ hel.1 hel
      omega
    have hs0 : (h.bucket p + t0) % h.buckets.length = h.bucket p + t0 - h.buckets.length := by
      rw [Nat.mod_eq_sub_mod (by omega)]
      rw [show h.bucket p + t0 - h.buckets.length = h.bucket p + t0 - h.buckets.length from rfl]
      exact Nat.mod_eq_of_lt (by omega)
    refine ⟨_, hscan, ?_⟩
    rw [hs0] at hP0 ⊢
    obtain ⟨hel, heb, hemin⟩ := w.bfull (h.bucket p + t0 - h.buckets.length) (by omega) hP0
    right
    refine ⟨hallb, hel, ?_⟩
    intro k hk hlk
    have hkP : h.bucketAt ((h.bucket p + (h.bucket k + h.buckets.length - h.bucket p)) %
        h.buckets.length) ≠ EMPTY := by
      rw [show h.bucket p + (h.bucket k + h.buckets.length - h.bucket p) =
        h.buckets.length + h.bucket k by
          have := hlivebelow k hk hlk
          omega, Nat.add_mod_left,
        Nat.mod_eq_of_lt (h.live_bucket_lt w hlk)]
      exact h.live_bucket_nonempty w hlk
    have hle : t0 ≤ h.bucket k + h.buckets.length - h.bucket p := Nat.find_le hkP
    rcases Nat.lt_or_ge (h.bucket p + t0 - h.buckets.length) (h.bucket k) with hlt | hge
    · have hbke : h.bucket (h.bucketAt (h.bucket p + t0 - h.buckets.length)) < h.bucket k := by
        rw [heb]
        exact hlt
      exact Nat.le_of_lt (h.ord_lt_of_bucket_lt hbke)
    · have hkeq : h.bucket k = h.bucket p + t0 - h.buckets.length := by omega
      exact hemin k hk hlk hkeq

/-! ## Correctness and termination of the bucket-chain walk -/

/-- On a stuck configuration the walk never returns, whatever the fuel. -/
theorem Hull.walk_stuck_none {h : Hull} (w : h.WF) {p : Nat}
    (hst : h.getStuck p) :
    ∀ fuel cur, h.live cur → h.walk (h.ordOf p) (h.bucket p) cur fuel = none := by
  intro fuel
  induction fuel with
  | zero => intro cur _ ; rfl
  | succ f ih =>
    intro cur hcur
    have hck := hst cur hcur.1 hcur
    simp only [Hull.walk]
    rw [if_pos ⟨hck.2, hck.1⟩]
    exact ih _ (h.next_live w hcur)

/-- Walk induction: starting from a live point of `p`'s bucket strictly
below `p`'s order, with enough fuel and a non-stuck configuration, the walk
stops at the cyclic order-successor of `p`'s rank. -/
theorem Hull.walk_spec_aux {h : Hull} (w : h.WF) {p : Nat} (hp : p < h.data.length)
    (hnl : ¬ h.live p) (hnd : ¬ h.getStuck p) :
    ∀ d cur fuel, h.live cur → h.bucket cur = h.bucket p →
      h.ordOf cur < h.ordOf p → h.ordOf p - h.ordOf cur = d → d + 2 ≤ fuel →
      ∃ s, h.walk (h.ordOf p) (h.bucket p) cur fuel = some s ∧
        h.ordSucc (h.ordOf p) s := by
  intro d
  induction d using Nat.strong_induction_on with
  | _ d ih =>
    intro cur fuel hcur hbcur hocur hd hfuel
    obtain ⟨f, rfl⟩ : ∃ f, fuel = f + 1 := ⟨fuel - 1, by omega⟩
    simp only [Hull.walk]
    rw [if_pos ⟨hocur, hbcur⟩]
    have hsucc := w.nextsucc cur hcur.1 hcur
    have hnxl : h.live (h.nodeAt cur).next := h.next_live w hcur
    rcases hsucc with ⟨-, hnxgt, hnxmin⟩ | ⟨hallle, hnxglob⟩
    · -- ascending step: `next cur` is the least live point above `cur`
      rcases Nat.lt_trichotomy (h.ordOf (h.nodeAt cur).next) (h.ordOf p) with hlt | heq | hgt
      · -- still below `p`: the successor stays in `p`'s bucket; recurse
        have hble : h.bucket cur ≤ h.bucket (h.nodeAt cur).next :=
          h.bucket_mono (Nat.le_of_lt hnxgt)
        have hbnx : h.bucket (h.nodeAt cur).next = h.bucket p := by
          rcases Nat.lt_or_ge (h.bucket p) (h.bucket (h.nodeAt cur).next) with hlt2 | hge2
          · exact absurd (h.ord_lt_of_bucket_lt hlt2) (Nat.not_lt_of_le (Nat.le_of_lt hlt))
          · omega
        exact ih (h.ordOf p - h.ordOf (h.nodeAt cur).next) (by omega) _ f hnxl hbnx hlt rfl
          (by omega)
      · exact absurd (w.ordinj _ hnxl.1 p hp heq) (fun hcon => hnl (hcon ▸ hnxl))
      · -- first point above `p`: the walk stops there, and it is the least
        -- live point above `p`'s order
        obtain ⟨f', rfl⟩ : ∃ f', f = f' + 1 := ⟨f - 1, by omega⟩
        simp only [Hull.walk]
        rw [if_neg (fun hcon => Nat.not_lt_of_le (Nat.le_of_lt hgt) hcon.1)]
        refine ⟨_, rfl, Or.inl ⟨hnxl, hgt, fun k hk hlk hok => ?_⟩⟩
        exact hnxmin k hk hlk (Nat.lt_trans hocur hok)
    · -- wraparound step: `cur` is the global maximum, `next cur` the global
      -- minimum, which must lie outside `p`'s bucket (else we were stuck)
      have hbnx : h.bucket (h.nodeAt cur).next ≠ h.bucket p := by
        intro hbeq
        apply hnd
        intro k hk hlk
        refine ⟨?_, Nat.lt_of_le_of_lt (hallle k hk hlk) hocur⟩
        have h1 : h.bucket (h.nodeAt cur).next ≤ h.bucket k :=
          h.bucket_mono (hnxglob.2 k hk hlk)
        have h2 : h.bucket k ≤ h.bucket cur := h.bucket_mono (hallle k hk hlk)
        omega
      obtain ⟨f', rfl⟩ : ∃ f', f = f' + 1 := ⟨f - 1, by omega⟩
      simp only [Hull.walk]
      rw [if_neg (fun hcon => hbnx hcon.2)]
      refine ⟨_, rfl, Or.inr ⟨fun k hk hlk => ?_, hnxglob⟩⟩
      exact Nat.le_of_lt (Nat.lt_of_le_of_lt (hallle k hk hlk) hocur)

/-- The walk path of `get`: when `p`'s bucket is non-empty and the
configuration is not stuck, the walk (with the fuel `get` supplies) stops at
the cyclic order-successor of `p`'s rank. -/
theorem Hull.walk_case_spec {h : Hull} (w : h.WF) {p : Nat} (hp : p < h.data.length)
    (hnl : ¬ h.live p) (hnd : ¬ h.getStuck p)
    (hbne : h.bucketAt (h.bucket p) ≠ EMPTY) :
    ∃ s, h.walk (h.ordOf p) (h.bucket p) (h.bucketAt (h.bucket p))
        (h.data.length + 1) = some s ∧ h.ordSucc (h.ordOf p) s := by
  have hb : h.bucket p < h.buckets.length := h.bucketOfOrd_lt (w.ordlt p hp) w.bpos
  obtain ⟨hel, heb, hemin⟩ := w.bfull (h.bucket p) hb hbne
  rcases Nat.lt_trichotomy (h.ordOf (h.bucketAt (h.bucket p))) (h.ordOf p) with hlt | heq | hgt
  · -- head below `p`: run the inductive walk
    have hlen1 : 1 ≤ h.data.length := Nat.lt_of_le_of_lt (Nat.zero_le p) hp
    exact h.walk_spec_aux w hp hnl hnd (h.ordOf p - h.ordOf (h.bucketAt (h.bucket p)))
      (h.bucketAt (h.bucket p)) (h.data.length + 1) hel heb hlt rfl
      (by have := w.ordlt p hp ; omega)
  · exact absurd (w.ordinj _ hel.1 p hp heq) (fun hcon => hnl (hcon ▸ hel))
  · -- head above `p`: stop immediately; the head is the least live point
    -- above `p`
    refine ⟨_, ?_, Or.inl ⟨hel, hgt, fun k hk hlk hok => ?_⟩⟩
    · simp only [Hull.walk]
      rw [if_neg (fun hcon => Nat.not_lt_of_le (Nat.le_of_lt hgt) hcon.1)]
    · have hkb : h.bucket p ≤ h.bucket k := h.bucket_mono (Nat.le_of_lt hok)
      rcases Nat.lt_or_ge (h.bucket p) (h.bucket k) with hlt2 | hge2
      · have : h.bucket (h.bucketAt (h.bucket p)) < h.bucket k := by
          rw [heb]
          exact hlt2
        exact Nat.le_of_lt (h.ord_lt_of_bucket_lt this)
      · exact hemin k hk hlk (by omega)

/-! ## The main characterisation of `get` (the spec's `locate`) -/

/-- On a well-formed state with a live point, for a non-live in-range `p`
whose configuration is not stuck, `get p` returns `(prev nxt, nxt)` where
`nxt` is the cyclic order-successor of `p`'s rank. -/
theorem Hull.get_spec {h : Hull} (w : h.WF) {p q : Nat} (hp : p < h.data.length)
    (hnl : ¬ h.live p) (hq : h.live q) (hnd : ¬ h.getStuck p) :
    ∃ nxt, h.get p = some ((h.nodeAt nxt).prev, nxt) ∧
      h.ordSucc (h.ordOf p) nxt := by
  by_cases hbe : h.bucketAt (h.bucket p) = EMPTY
  · obtain ⟨nxt, hscan, hsucc⟩ := h.scan_case_spec w hp hnl hq hbe
    refine ⟨nxt, ?_, hsucc⟩
    simp only [Hull.get]
    rw [if_pos hbe, hscan]
  · obtain ⟨nxt, hwalk, hsucc⟩ := h.walk_case_spec w hp hnl hnd hbe
    refine ⟨nxt, ?_, hsucc⟩
    simp only [Hull.get]
    rw [if_neg hbe, hwalk]

theorem Hull.bucketAt_oob (h : Hull) (b : Nat) (hb : h.buckets.length ≤ b) :
    h.bucketAt b = EMPTY := by
  unfold Hull.bucketAt
  rw [List.getElem?_eq_none hb]
  rfl

/-- Any value the scan returns is the entry of some non-empty slot. -/
theorem Hull.scanB_mem {h : Hull} :
    ∀ fuel t v, h.scanB t fuel = some v →
      ∃ b', h.bucketAt b' = v ∧ h.bucketAt b' ≠ EMPTY := by
  intro fuel
  induction fuel with
  | zero =>
    intro t v hcon
    exact absurd hcon (by simp [Hull.scanB])
  | succ f ihf =>
    intro t v hsc
    simp only [Hull.scanB] at hsc
    by_cases hte : h.bucketAt t = EMPTY
    · rw [if_pos hte] at hsc
      exact ihf _ _ hsc
    · rw [if_neg hte] at hsc
      refine ⟨t, ?_, hte⟩
      injection hsc

/-- Conversely, whenever `get` returns at all, some live point exists and the
configuration is not stuck. -/
theorem Hull.get_some_inv {h : Hull} (w : h.WF) {p prv nxt : Nat}
    (hg : h.get p = some (prv, nxt)) :
    (∃ q, h.live q) ∧ ¬ h.getStuck p := by
  by_cases hbe : h.bucketAt (h.bucket p) = EMPTY
  · -- scan path: the entry found is live; were the state stuck, `p`'s own
    -- bucket would hold that live point yet be empty
    simp only [Hull.get] at hg
    rw [if_pos hbe] at hg
    match hscan : h.scanB (h.bucket p) h.buckets.length with
    | none =>
      rw [hscan] at hg
      exact absurd hg (by simp)
    | some v =>
      rw [hscan] at hg
      obtain ⟨b', hbv, hbne⟩ := Hull.scanB_mem _ _ _ hscan
      have hblt' : b' < h.buckets.length := by
        by_contra hcon
        exact hbne (h.bucketAt_oob b' (by omega))
      obtain ⟨hel, -, -⟩ := w.bfull b' hblt' hbne
      rw [hbv] at hel
      refine ⟨⟨v, hel⟩, fun hst => ?_⟩
      have hsv := hst v hel.1 hel
      have hblt : h.bucket p < h.buckets.length := by
        have hvb := h.live_bucket_lt w hel
        rw [hsv.1] at hvb
        exact hvb
      exact w.bempty (h.bucket p) hblt hbe v hel.1 hel hsv.1
  · -- walk path: the walk started from the live bucket entry; had the
    -- configuration been stuck the walk would never return
    simp only [Hull.get] at hg
    rw [if_neg hbe] at hg
    have hb : h.bucket p < h.buckets.length := by
      by_contra hcon
      exact hbe (h.bucketAt_oob _ (by omega))
    obtain ⟨hel, -, -⟩ := w.bfull (h.bucket p) hb hbe
    refine ⟨⟨_, hel⟩, fun hst => ?_⟩
    rw [h.walk_stuck_none w hst _ _ hel] at hg
    exact absurd hg (by simp)

/-- From `nxt` being the cyclic order-successor of non-live `p`'s rank, the
pair `(prev nxt, nxt)` is a live bracket of `p`: both ends live, adjacent in
the cycle, with `p`'s rank cyclically between them. -/
theorem Hull.bracket_of_ordSucc {h : Hull} (w : h.WF) {p nxt : Nat}
    (hp : p < h.data.length) (hnl : ¬ h.live p)
    (hs : h.ordSucc (h.ordOf p) nxt) :
    h.live nxt ∧ h.live (h.nodeAt nxt).prev ∧
    (h.nodeAt (h.nodeAt nxt).prev).next = nxt ∧
    h.betweenCyc (h.nodeAt nxt).prev p nxt := by
  have hnxt : h.live nxt := Hull.ordSucc_live hs
  have hprv : h.live (h.nodeAt nxt).prev := h.prev_live w hnxt
  have hnp : (h.nodeAt (h.nodeAt nxt).prev).next = nxt := h.next_prev_inverse w hnxt
  refine ⟨hnxt, hprv, hnp, ?_⟩
  have hpred : h.ordPred (h.ordOf nxt) (h.nodeAt nxt).prev := w.prevpred nxt hnxt.1 hnxt
  have hprvnep : (h.nodeAt nxt).prev ≠ p := fun hcon => hnl (hcon ▸ hprv)
  have hprvord : h.ordOf (h.nodeAt nxt).prev ≠ h.ordOf p :=
    h.ord_ne_of_ne w hprv.1 hp hprvnep
  rcases hs with ⟨-, hpgt, hpmin⟩ | ⟨hallle, hmin⟩
  · rcases hpred with ⟨-, hvlt, -⟩ | ⟨hnob, hmax⟩
    · -- no wrap at `nxt`: `prev nxt` is the greatest live point below `nxt`,
      -- and it must be below `p`
      left
      refine ⟨?_, hpgt⟩
      rcases Nat.lt_or_ge (h.ordOf (h.nodeAt nxt).prev) (h.ordOf p) with hlt | hge
      · exact hlt
      · have : h.ordOf p < h.ordOf (h.nodeAt nxt).prev := by omega
        exact absurd hvlt (Nat.not_lt_of_le (hpmin _ hprv.1 hprv this))
    · -- `nxt` is the global minimum and `prev nxt` the global maximum
      right
      exact ⟨hnob _ hprv.1 hprv, Or.inr hpgt⟩
  · -- every live point is below `p`: the bracket wraps at the maximum
    right
    have hple : h.ordOf (h.nodeAt nxt).prev ≤ h.ordOf p := hallle _ hprv.1 hprv
    exact ⟨hmin.2 _ hprv.1 hprv, Or.inl (by omega)⟩

/-- C1 (amended): on every well-formed hull state with at least one live
point, for every in-range non-live `p` whose configuration is not stuck
(some live point has order at least `p`'s or lies outside `p`'s bucket —
without this the code's walk never returns, see `C1_locate_counterexample`),
`locate`/`get` returns a pair `(prev, next)` of live points with `next` the
cycle successor of `prev` and `order(prev) < order(p) < order(next)` modulo
the circular wraparound at the maximum live order. -/
theorem C1_locate_brackets (h : Hull) (p q : Nat) (hwf : h.WF) (hq : h.live q)
    (hp : p < h.data.length) (hnl : ¬ h.live p) (hnd : ¬ h.getStuck p) :
    ∃ prv nxt, h.get p = some (prv, nxt) ∧
      h.live prv ∧ h.live nxt ∧
      (h.nodeAt prv).next = nxt ∧ (h.nodeAt nxt).prev = prv ∧
      h.betweenCyc prv p nxt := by
  obtain ⟨nxt, hg, hs⟩ := h.get_spec hwf hp hnl hq hnd
  obtain ⟨hnxt, hprv, hnp, hbet⟩ := h.bracket_of_ordSucc hwf hp hnl hs
  exact ⟨_, nxt, hg, hprv, hnxt, hnp, rfl, hbet⟩

/-- Witness for the amended C1 at the concrete hull `Whull` (live two-cycle
`{0, 1}`, querying the non-live point `2`). -/
theorem C1_locate_brackets_witness :
    (Whull.WF ∧ Whull.live 0 ∧ (2 : Nat) < Whull.data.length ∧
      ¬ Whull.live 2 ∧ ¬ Whull.getStuck 2) ∧
    (∃ prv nxt, Whull.get 2 = some (prv, nxt) ∧
      Whull.live prv ∧ Whull.live nxt ∧
      (Whull.nodeAt prv).next = nxt ∧ (Whull.nodeAt nxt).prev = prv ∧
      Whull.betweenCyc prv 2 nxt) :=
  ⟨⟨by decide, by decide, by decide, by decide, by decide⟩,
    C1_locate_brackets Whull 2 0 (by decide) (by decide) (by decide) (by decide) (by decide)⟩

/-! ## Well-formedness of construction and bootstrap -/

theorem Hull.init_data_length (ords : List Nat) :
    (Hull.init ords).data.length = ords.length := by
  simp [Hull.init]

theorem Hull.init_buckets_length (ords : List Nat) :
    (Hull.init ords).buckets.length = NBUCKETS := by
  simp [Hull.init]

theorem Hull.init_nodeAt (ords : List Nat) (i : Nat) (hi : i < ords.length) :
    (Hull.init ords).nodeAt i =
      { order := ords.getD i 0, edge := 0, prev := EMPTY, next := EMPTY } := by
  unfold Hull.init Hull.nodeAt
  simp only [List.getElem?_map]
  rw [List.getD_eq_getElem?_getD]
  cases hg : ords[i]? with
  | none =>
    exact absurd hg (by rw [List.getElem?_eq_none_iff] ; omega)
  | some o => rfl

theorem Hull.init_nodeAt_next (ords : List Nat) (i : Nat) :
    ((Hull.init ords).nodeAt i).next = EMPTY := by
  unfold Hull.init Hull.nodeAt
  simp only [List.getElem?_map]
  cases ords[i]? <;> rfl

theorem Hull.init_not_live (ords : List Nat) (k : Nat) : ¬ (Hull.init ords).live k := by
  rintro ⟨-, hne⟩
  exact hne (Hull.init_nodeAt_next ords k)

theorem Hull.init_bucketAt (ords : List Nat) (b : Nat) :
    (Hull.init ords).bucketAt b = EMPTY := by
  unfold Hull.init Hull.bucketAt
  simp only [List.getElem?_replicate]
  split <;> rfl

/-- Construction produces a well-formed (entirely dead) state whenever the
rank assignment is an injective map into `0..n-1` (which the pseudo-angle
sort guarantees). -/
theorem Hull.init_WF (ords : List Nat) (hlen : ords.length ≤ EMPTY)
    (hmem : ∀ i < ords.length, ords.getD i 0 < ords.length)
    (hinj : ∀ i < ords.length, ∀ j < ords.length, ords.getD i 0 = ords.getD j 0 → i = j) :
    (Hull.init ords).WF := by
  have hord : ∀ i < ords.length, (Hull.init ords).ordOf i = ords.getD i 0 := by
    intro i hi
    unfold Hull.ordOf
    rw [Hull.init_nodeAt ords i hi]
  have hdl := Hull.init_data_length ords
  refine ⟨?_, ?_, ?_, ?_, ?_, ?_, ?_, ?_, ?_⟩
  · rw [Hull.init_buckets_length]
    decide
  · rw [hdl]
    exact hlen
  · intro i hi
    rw [hdl] at hi ⊢
    rw [hord i hi]
    exact hmem i hi
  · intro i hi j hj
    rw [hdl] at hi hj
    rw [hord i hi, hord j hj]
    exact hinj i hi j hj
  · intro i hi _
    rw [hdl] at hi
    rw [Hull.init_nodeAt ords i hi]
  · intro i _ hl
    exact absurd hl (Hull.init_not_live ords i)
  · intro i _ hl
    exact absurd hl (Hull.init_not_live ords i)
  · intro b _ hne
    exact absurd (Hull.init_bucketAt ords b) hne
  · intro b _ _ k _ hl
    exact absurd hl (Hull.init_not_live ords k)

/-- Bootstrap on a well-formed fully-dead state: `insert_first` succeeds and
produces a well-formed state whose single live point is `p`, a one-node
cycle. -/
theorem Hull.insert_first_WF {h : Hull} (w : h.WF) (hnolive : ∀ k, ¬ h.live k)
    {p e : Nat} (hp : p < h.data.length) :
    ∃ h', h.insert_first p e = .ok h' ∧ h'.WF ∧ (∀ k, h'.live k ↔ k = p) ∧
      h'.data.length = h.data.length ∧ h'.buckets.length = h.buckets.length ∧
      (∀ i, h'.ordOf i = h.ordOf i) ∧ (h'.nodeAt p).next = p ∧
      (h'.nodeAt p).prev = p ∧ (h'.nodeAt p).edge = e := by
  have hbp : h.bucket p < h.buckets.length := h.bucketOfOrd_lt (w.ordlt p hp) w.bpos
  have hempty : h.bucketAt (h.bucket p) = EMPTY := by
    by_contra hne
    exact hnolive _ (w.bfull (h.bucket p) hbp hne).1
  refine ⟨(h.setBucket (h.bucket p) p).modifyNode p fun n =>
    { n with next := p, prev := p, edge := e }, ?_, ?_⟩
  · unfold Hull.insert_first
    rw [if_pos hempty]
  set h' := (h.setBucket (h.bucket p) p).modifyNode p fun n =>
    { n with next := p, prev := p, edge := e } with hh'
  have hdl : h'.data.length = h.data.length := by
    rw [hh', Hull.data_length_modify, Hull.data_setBucket]
  have hnode : ∀ i, h'.nodeAt i =
      if i = p then { h.nodeAt p with next := p, prev := p, edge := e }
      else h.nodeAt i := by
    intro i
    rw [hh', Hull.nodeAt_modify, Hull.data_setBucket]
    by_cases hip : i = p
    · rw [if_pos ⟨hip, hip ▸ hp⟩, if_pos hip, Hull.nodeAt_setBucket]
    · rw [if_neg (fun hcon => hip hcon.1), if_neg hip, Hull.nodeAt_setBucket]
  have hord : ∀ i, h'.ordOf i = h.ordOf i := by
    intro i
    unfold Hull.ordOf
    rw [hnode i]
    split <;> simp_all
  have hbl : h'.buckets.length = h.buckets.length := by
    rw [hh', Hull.buckets_modify, Hull.buckets_length_setBucket]
  have hbucket : ∀ i, h'.bucket i = h.bucket i := by
    intro i
    unfold Hull.bucket Hull.bucketOfOrd
    rw [hord i, hdl, hbl]
  have hba : ∀ b, h'.bucketAt b = if b = h.bucket p then p else h.bucketAt b := by
    intro b
    rw [hh', Hull.bucketAt_modify]
    by_cases hbb : b = h.bucket p
    · rw [if_pos hbb, hbb, Hull.bucketAt_setBucket_self _ _ _ hbp]
    · rw [if_neg hbb, Hull.bucketAt_setBucket_ne _ _ _ _ (fun hcon => hbb hcon.symm)]
  have hlive : ∀ k, h'.live k ↔ k = p := by
    intro k
    constructor
    · rintro ⟨hk, hne⟩
      by_contra hkp
      rw [hnode k, if_neg hkp] at hne
      rw [hdl] at hk
      exact hnolive k ⟨hk, hne⟩
    · intro hkp
      refine ⟨by rw [hdl, hkp] ; exact hp, ?_⟩
      rw [hnode k, if_pos hkp]
      show p ≠ EMPTY
      have := w.lenle
      omega
  have hlp : h'.live p := (hlive p).mpr rfl
  refine ⟨⟨?_, ?_, ?_, ?_, ?_, ?_, ?_, ?_, ?_⟩, hlive, hdl, hbl, hord, ?_, ?_, ?_⟩
  · rw [hbl]
    exact w.bpos
  · rw [hdl]
    exact w.lenle
  · intro i hi
    rw [hdl] at hi ⊢
    rw [hord]
    exact w.ordlt i hi
  · intro i hi j hj
    rw [hdl] at hi hj
    rw [hord, hord]
    exact w.ordinj i hi j hj
  · intro i hi hnext
    rw [hnode i] at hnext ⊢
    by_cases hip : i = p
    · rw [if_pos hip] at hnext
      exfalso
      have hne : p ≠ EMPTY := by
        have := w.lenle
        omega
      exact hne hnext
    · rw [if_neg hip] at hnext ⊢
      rw [hdl] at hi
      exact w.deadprev i hi hnext
  · intro i hi hl
    have hip : i = p := (hlive i).mp hl
    rw [hnode i, if_pos hip]
    show h'.cyclicSucc i p
    right
    refine ⟨fun k hk hlk => ?_, hlp, fun k hk hlk => ?_⟩
    · rw [(hlive k).mp hlk, hip]
    · rw [(hlive k).mp hlk]
  · intro i hi hl
    have hip : i = p := (hlive i).mp hl
    rw [hnode i, if_pos hip]
    show h'.cyclicPred i p
    right
    refine ⟨fun k hk hlk => ?_, hlp, fun k hk hlk => ?_⟩
    · rw [(hlive k).mp hlk, hip]
    · rw [(hlive k).mp hlk]
  · intro b hb hne
    rw [hba b] at hne ⊢
    by_cases hbb : b = h.bucket p
    · rw [if_pos hbb] at hne ⊢
      refine ⟨hlp, by rw [hbucket, hbb], fun k hk hlk _ => ?_⟩
      rw [(hlive k).mp hlk]
    · rw [if_neg hbb] at hne ⊢
      exfalso
      rw [hbl] at hb
      exact hnolive _ (w.bfull b hb hne).1
  · intro b hb hemp k hk hlk
    rw [hba b] at hemp
    by_cases hbb : b = h.bucket p
    · rw [if_pos hbb] at hemp
      exfalso
      have : p ≠ EMPTY := by
        have := w.lenle
        omega
      exact this hemp
    · rw [hbucket k, (hlive k).mp hlk]
      intro hcon
      exact hbb hcon.symm
  · rw [hnode p, if_pos rfl]
  · rw [hnode p, if_pos rfl]
  · rw [hnode p, if_pos rfl]

/-! ## Characterising a successful `insert` -/

/-- Unfolding of `insert` on the success path: the assertion passed, `get`
returned a pair, the neighbour indices were in bounds, and the result is the
four-write splice (with the conditional bucket-entry update). -/
theorem Hull.insert_ok_inv {h h' : Hull} {p e : Nat} (hins : h.insert p e = .ok h') :
    p < h.data.length ∧ (h.nodeAt p).next = EMPTY ∧
    ∃ prv nxt, h.get p = some (prv, nxt) ∧ nxt < h.data.length ∧ prv < h.data.length ∧
      h' = h.spliceIns p e prv nxt := by
  unfold Hull.insert at hins
  by_cases hchk : p < h.data.length ∧ (h.nodeAt p).next = EMPTY
  · rw [if_pos hchk] at hins
    refine ⟨hchk.1, hchk.2, ?_⟩
    match hg : h.get p with
    | none =>
      rw [hg] at hins
      exact absurd hins (by simp)
    | some (prv, nxt) =>
      rw [hg] at hins
      dsimp only at hins
      refine ⟨prv, nxt, rfl, ?_⟩
      set h1 := if h.bucketAt (h.bucket p) = EMPTY ∨ h.bucketAt (h.bucket p) = nxt
        then h.setBucket (h.bucket p) p else h with hh1
      have hl1 : h1.data.length = h.data.length := by
        rw [hh1]
        split <;> rfl
      have hl2 : (h1.modifyNode p fun n =>
          { n with edge := e, next := nxt, prev := prv }).data.length = h.data.length := by
        rw [Hull.data_length_modify, hl1]
      by_cases hnb : nxt < h.data.length
      · rw [if_pos (by rw [hl2] ; exact hnb)] at hins
        have hl3 : ((h1.modifyNode p fun n =>
            { n with edge := e, next := nxt, prev := prv }).modifyNode nxt
            fun n => { n with prev := p }).data.length = h.data.length := by
          rw [Hull.data_length_modify, hl2]
        by_cases hvb : prv < h.data.length
        · rw [if_pos (by rw [hl3] ; exact hvb)] at hins
          refine ⟨hnb, hvb, ?_⟩
          injection hins with hins
          exact hins.symm
        · rw [if_neg (by rw [hl3] ; exact hvb)] at hins
          exact absurd hins (by simp)
      · rw [if_neg (by rw [hl2] ; exact hnb)] at hins
        exact absurd hins (by simp)
  · rw [if_neg hchk] at hins
    exact absurd hins (by simp)

theorem Hull.condSet_nodeAt (h : Hull) (c : Prop) [Decidable c] (b v i : Nat) :
    (if c then h.setBucket b v else h).nodeAt i = h.nodeAt i := by
  split <;> rfl

theorem Hull.condSet_data_length (h : Hull) (c : Prop) [Decidable c] (b v : Nat) :
    (if c then h.setBucket b v else h).data.length = h.data.length := by
  split <;> rfl

theorem Hull.spliceIns_data_length (h : Hull) (p e prv nxt : Nat) :
    (h.spliceIns p e prv nxt).data.length = h.data.length := by
  unfold Hull.spliceIns
  rw [Hull.data_length_modify, Hull.data_length_modify, Hull.data_length_modify,
    Hull.condSet_data_length]

theorem Hull.spliceIns_buckets_length (h : Hull) (p e prv nxt : Nat) :
    (h.spliceIns p e prv nxt).buckets.length = h.buckets.length := by
  unfold Hull.spliceIns
  rw [Hull.buckets_modify, Hull.buckets_modify, Hull.buckets_modify]
  split <;> simp [Hull.buckets_length_setBucket]

theorem Hull.spliceIns_order (h : Hull) (p e prv nxt : Nat) (i : Nat) :
    ((h.spliceIns p e prv nxt).nodeAt i).order = (h.nodeAt i).order := by
  unfold Hull.spliceIns
  simp only [Hull.nodeAt_modify, Hull.data_length_modify, Hull.condSet_data_length,
    Hull.condSet_nodeAt]
  split_ifs <;> first | rfl | simp_all

theorem Hull.spliceIns_edge (h : Hull) (p e prv nxt : Nat) (i : Nat) :
    ((h.spliceIns p e prv nxt).nodeAt i).edge =
      if i = p ∧ p < h.data.length then e else (h.nodeAt i).edge := by
  unfold Hull.spliceIns
  simp only [Hull.nodeAt_modify, Hull.data_length_modify, Hull.condSet_data_length,
    Hull.condSet_nodeAt]
  split_ifs <;> first | rfl | omega | simp_all

theorem Hull.spliceIns_next (h : Hull) {p prv nxt : Nat} (e : Nat)
    (hp : p < h.data.length) (hnb : nxt < h.data.length) (hvb : prv < h.data.length)
    (hpv : prv ≠ p) (hpn : nxt ≠ p) (i : Nat) :
    ((h.spliceIns p e prv nxt).nodeAt i).next =
      if i = prv then p else if i = p then nxt else (h.nodeAt i).next := by
  unfold Hull.spliceIns
  simp only [Hull.nodeAt_modify, Hull.data_length_modify, Hull.condSet_data_length,
    Hull.condSet_nodeAt, hp, hnb, hvb, and_true]
  split_ifs <;> first | rfl | omega | simp_all

theorem Hull.spliceIns_prev (h : Hull) {p prv nxt : Nat} (e : Nat)
    (hp : p < h.data.length) (hnb : nxt < h.data.length) (hvb : prv < h.data.length)
    (hpv : prv ≠ p) (hpn : nxt ≠ p) (i : Nat) :
    ((h.spliceIns p e prv nxt).nodeAt i).prev =
      if i = nxt then p else if i = p then prv else (h.nodeAt i).prev := by
  unfold Hull.spliceIns
  simp only [Hull.nodeAt_modify, Hull.data_length_modify, Hull.condSet_data_length,
    Hull.condSet_nodeAt, hp, hnb, hvb, and_true]
  split_ifs <;> first | rfl | omega | simp_all

theorem Hull.spliceIns_bucketAt_ne (h : Hull) (p e prv nxt b : Nat)
    (hb : b ≠ h.bucket p) :
    (h.spliceIns p e prv nxt).bucketAt b = h.bucketAt b := by
  unfold Hull.spliceIns
  rw [Hull.bucketAt_modify, Hull.bucketAt_modify, Hull.bucketAt_modify]
  split
  · exact h.bucketAt_setBucket_ne _ _ _ (fun hcon => hb hcon.symm)
  · rfl

theorem Hull.spliceIns_bucketAt_self (h : Hull) (p e prv nxt : Nat)
    (hb : h.bucket p < h.buckets.length) :
    (h.spliceIns p e prv nxt).bucketAt (h.bucket p) =
      if h.bucketAt (h.bucket p) = EMPTY ∨ h.bucketAt (h.bucket p) = nxt
      then p else h.bucketAt (h.bucket p) := by
  unfold Hull.spliceIns
  rw [Hull.bucketAt_modify, Hull.bucketAt_modify, Hull.bucketAt_modify]
  split
  · rw [Hull.bucketAt_setBucket_self _ _ _ hb]
  · rfl

/-- A successful `insert` preserves well-formedness, adds exactly `p` to the
live set, and leaves lengths and orders unchanged. -/
theorem Hull.insert_WF {h h' : Hull} (w : h.WF) {p e : Nat}
    (hins : h.insert p e = .ok h') :
    h'.WF ∧ (∀ k, h'.live k ↔ (h.live k ∨ k = p)) ∧
      h'.data.length = h.data.length ∧ h'.buckets.length = h.buckets.length ∧
      (∀ i, h'.ordOf i = h.ordOf i) ∧ p < h.data.length ∧ ¬ h.live p := by
  obtain ⟨hp, hpnext, prv, nxt, hg, hnb, hvb, hh'⟩ := Hull.insert_ok_inv hins
  have hnl : ¬ h.live p := fun hl => hl.2 hpnext
  obtain ⟨⟨q, hq⟩, hnd⟩ := h.get_some_inv w hg
  obtain ⟨nxt0, hg0, hsucc0⟩ := h.get_spec w hp hnl hq hnd
  rw [hg] at hg0
  have hpair := Option.some.inj hg0
  have hnxteq : nxt = nxt0 := congrArg Prod.snd hpair
  subst hnxteq
  have hprveq : prv = (h.nodeAt nxt).prev := congrArg Prod.fst hpair
  have hsucc : h.ordSucc (h.ordOf p) nxt := hsucc0
  have hnxtl : h.live nxt := Hull.ordSucc_live hsucc
  have hprvl : h.live prv := by
    rw [hprveq]
    exact h.prev_live w hnxtl
  have hpred : h.ordPred (h.ordOf nxt) prv := by
    rw [hprveq]
    exact w.prevpred nxt hnxtl.1 hnxtl
  have hnpv : (h.nodeAt prv).next = nxt := by
    rw [hprveq]
    exact h.next_prev_inverse w hnxtl
  have hpn : nxt ≠ p := fun hc => hnl (hc ▸ hnxtl)
  have hpv : prv ≠ p := fun hc => hnl (hc ▸ hprvl)
  have hdl : h'.data.length = h.data.length := by
    rw [hh']
    exact h.spliceIns_data_length p e prv nxt
  have hbl : h'.buckets.length = h.buckets.length := by
    rw [hh']
    exact h.spliceIns_buckets_length p e prv nxt
  have hordn : ∀ i, (h'.nodeAt i).order = (h.nodeAt i).order := by
    intro i
    rw [hh']
    exact h.spliceIns_order p e prv nxt i
  have hord : ∀ i, h'.ordOf i = h.ordOf i := hordn
  have hbk : ∀ i, h'.bucket i = h.bucket i := by
    intro i
    unfold Hull.bucket Hull.bucketOfOrd
    rw [hord i, hdl, hbl]
  have hnext : ∀ i, (h'.nodeAt i).next =
      if i = prv then p else if i = p then nxt else (h.nodeAt i).next := by
    intro i
    rw [hh']
    exact h.spliceIns_next e hp hnb hvb hpv hpn i
  have hprev : ∀ i, (h'.nodeAt i).prev =
      if i = nxt then p else if i = p then prv else (h.nodeAt i).prev := by
    intro i
    rw [hh']
    exact h.spliceIns_prev e hp hnb hvb hpv hpn i
  have hEMP := w.lenle
  have hpE : p ≠ EMPTY := by omega
  have hnE : nxt ≠ EMPTY := by omega
  have hlive : ∀ k, h'.live k ↔ (h.live k ∨ k = p) := by
    intro k
    constructor
    · rintro ⟨hk, hne⟩
      rw [hdl] at hk
      rw [hnext k] at hne
      split_ifs at hne with h1 h2
      · left
        rw [h1]
        exact hprvl
      · right
        exact h2
      · left
        exact ⟨hk, hne⟩
    · intro hk
      have hkl : k < h.data.length := by
        rcases hk with hk | hkp
        · exact hk.1
        · rw [hkp]
          exact hp
      refine ⟨by rw [hdl] ; exact hkl, ?_⟩
      rw [hnext k]
      split_ifs with h1 h2
      · exact hpE
      · exact hnE
      · rcases hk with hk | hkp
        · exact hk.2
        · exact absurd hkp h2
  have hlivep : h'.live p := (hlive p).mpr (Or.inr rfl)
  have hordlt2 : ∀ a b : Nat, h.ordOf a < h.ordOf b → h'.ordOf a < h'.ordOf b := by
    intro a b hab
    rw [hord, hord]
    exact hab
  have hordlt2' : ∀ a b : Nat, h'.ordOf a < h'.ordOf b → h.ordOf a < h.ordOf b := by
    intro a b hab
    rw [hord, hord] at hab
    exact hab
  have hordle2 : ∀ a b : Nat, h.ordOf a ≤ h.ordOf b → h'.ordOf a ≤ h'.ordOf b := by
    intro a b hab
    rw [hord, hord]
    exact hab
  -- successor invariant at the bracket's left end
  have hsuccprv : h'.cyclicSucc prv p := by
    rcases hsucc with ⟨hnl2, hpgt, hpmin⟩ | ⟨hall, hminl⟩
    · rcases hpred with ⟨hpl2, hvlt, hvmax⟩ | ⟨hnob, hmaxl⟩
      · -- no wrap: `p` slots strictly between `prv` and `nxt`
        have hprvp : h.ordOf prv < h.ordOf p := by
          rcases Nat.lt_or_ge (h.ordOf prv) (h.ordOf p) with hlt | hge
          · exact hlt
          · have hne := h.ord_ne_of_ne w hprvl.1 hp hpv
            have hplt : h.ordOf p < h.ordOf prv := by omega
            have := hpmin prv hprvl.1 hprvl hplt
            omega
        refine Or.inl ⟨hlivep, hordlt2 prv p hprvp, ?_⟩
        intro k hk hlk hok
        rcases (hlive k).mp hlk with hlkh | hkp
        · have hok' := hordlt2' _ _ hok
          have hkp2 : h.ordOf p ≤ h.ordOf k := by
            by_contra hcon
            push_neg at hcon
            have hklt : h.ordOf k < h.ordOf nxt := by omega
            have := hvmax k hlkh.1 hlkh hklt
            omega
          exact hordle2 p k hkp2
        · rw [hkp]
      · -- `nxt` is the global minimum, `prv` the global maximum
        refine Or.inr ⟨?_, hlivep, ?_⟩
        · intro k hk hlk
          rcases (hlive k).mp hlk with hlkh | hkp
          · exact hordle2 k prv (hmaxl.2 k hlkh.1 hlkh)
          · rw [hkp]
            have h1 := hnob prv hprvl.1 hprvl
            have : h.ordOf p ≤ h.ordOf prv := by omega
            exact hordle2 p prv this
        · intro k hk hlk
          rcases (hlive k).mp hlk with hlkh | hkp
          · have := hnob k hlkh.1 hlkh
            have : h.ordOf p ≤ h.ordOf k := by omega
            exact hordle2 p k this
          · rw [hkp]
    · rcases hpred with ⟨hpl2, hvlt, hvmax⟩ | ⟨hnob, hmaxl⟩
      · have := hminl.2 prv hprvl.1 hprvl
        omega
      · -- all live below `p`: `prv` is the global maximum and `p` follows it
        refine Or.inl ⟨hlivep, ?_, ?_⟩
        · have h1 := hall prv hprvl.1 hprvl
          have h2 := h.ord_ne_of_ne w hprvl.1 hp hpv
          have : h.ordOf prv < h.ordOf p := by omega
          exact hordlt2 prv p this
        · intro k hk hlk hok
          rcases (hlive k).mp hlk with hlkh | hkp
          · have hok' := hordlt2' _ _ hok
            have := hmaxl.2 k hlkh.1 hlkh
            omega
          · rw [hkp]
  -- successor invariant at the new point
  have hsuccp : h'.cyclicSucc p nxt := by
    rcases hsucc with ⟨hnl2, hpgt, hpmin⟩ | ⟨hall, hminl⟩
    · refine Or.inl ⟨(hlive nxt).mpr (Or.inl hnl2), hordlt2 _ _ hpgt, ?_⟩
      intro k hk hlk hok
      rcases (hlive k).mp hlk with hlkh | hkp
      · exact hordle2 _ _ (hpmin k hlkh.1 hlkh (hordlt2' _ _ hok))
      · rw [hkp] at hok
        exact absurd (hordlt2' _ _ hok) (Nat.lt_irrefl _)
    · refine Or.inr ⟨?_, (hlive nxt).mpr (Or.inl hminl.1), ?_⟩
      · intro k hk hlk
        rcases (hlive k).mp hlk with hlkh | hkp
        · exact hordle2 _ _ (hall k hlkh.1 hlkh)
        · rw [hkp]
      · intro k hk hlk
        rcases (hlive k).mp hlk with hlkh | hkp
        · exact hordle2 _ _ (hminl.2 k hlkh.1 hlkh)
        · rw [hkp]
          exact hordle2 _ _ (hall nxt hnxtl.1 hnxtl)
  -- predecessor invariant at the bracket's right end
  have hpredn : h'.cyclicPred nxt p := by
    rcases hsucc with ⟨hnl2, hpgt, hpmin⟩ | ⟨hall, hminl⟩
    · refine Or.inl ⟨hlivep, hordlt2 _ _ hpgt, ?_⟩
      intro k hk hlk hok
      rcases (hlive k).mp hlk with hlkh | hkp
      · have hok' := hordlt2' _ _ hok
        have hkp2 : h.ordOf k ≤ h.ordOf p := by
          by_contra hcon
          push_neg at hcon
          have := hpmin k hlkh.1 hlkh hcon
          omega
        exact hordle2 _ _ hkp2
      · rw [hkp]
    · refine Or.inr ⟨?_, hlivep, ?_⟩
      · intro k hk hlk
        rcases (hlive k).mp hlk with hlkh | hkp
        · exact hordle2 _ _ (hminl.2 k hlkh.1 hlkh)
        · rw [hkp]
          exact hordle2 _ _ (hall nxt hnxtl.1 hnxtl)
      · intro k hk hlk
        rcases (hlive k).mp hlk with hlkh | hkp
        · exact hordle2 _ _ (hall k hlkh.1 hlkh)
        · rw [hkp]
  -- predecessor invariant at the new point
  have hpredp : h'.cyclicPred p prv := by
    rcases hsucc with ⟨hnl2, hpgt, hpmin⟩ | ⟨hall, hminl⟩
    · rcases hpred with ⟨hpl2, hvlt, hvmax⟩ | ⟨hnob, hmaxl⟩
      · have hprvp : h.ordOf prv < h.ordOf p := by
          rcases Nat.lt_or_ge (h.ordOf prv) (h.ordOf p) with hlt | hge
          · exact hlt
          · have hne := h.ord_ne_of_ne w hprvl.1 hp hpv
            have hplt : h.ordOf p < h.ordOf prv := by omega
            have := hpmin prv hprvl.1 hprvl hplt
            omega
        refine Or.inl ⟨(hlive prv).mpr (Or.inl hprvl), hordlt2 _ _ hprvp, ?_⟩
        intro k hk hlk hok
        rcases (hlive k).mp hlk with hlkh | hkp
        · have hok' := hordlt2' _ _ hok
          have hkp2 : h.ordOf k ≤ h.ordOf prv := by
            by_contra hcon
            push_neg at hcon
            have hklt : h.ordOf k < h.ordOf nxt := by omega
            have := hvmax k hlkh.1 hlkh hklt
            omega
          exact hordle2 _ _ hkp2
        · rw [hkp] at hok
          exact absurd (hordlt2' _ _ hok) (Nat.lt_irrefl _)
      · refine Or.inr ⟨?_, (hlive prv).mpr (Or.inl hprvl), ?_⟩
        · intro k hk hlk
          rcases (hlive k).mp hlk with hlkh | hkp
          · have := hnob k hlkh.1 hlkh
            have : h.ordOf p ≤ h.ordOf k := by omega
            exact hordle2 _ _ this
          · rw [hkp]
        · intro k hk hlk
          rcases (hlive k).mp hlk with hlkh | hkp
          · exact hordle2 _ _ (hmaxl.2 k hlkh.1 hlkh)
          · rw [hkp]
            have h1 := hnob prv hprvl.1 hprvl
            have : h.ordOf p ≤ h.ordOf prv := by omega
            exact hordle2 _ _ this
    · rcases hpred with ⟨hpl2, hvlt, hvmax⟩ | ⟨hnob, hmaxl⟩
      · have := hminl.2 prv hprvl.1 hprvl
        omega
      · refine Or.inl ⟨(hlive prv).mpr (Or.inl hprvl), ?_, ?_⟩
        · have h1 := hall prv hprvl.1 hprvl
          have h2 := h.ord_ne_of_ne w hprvl.1 hp hpv
          have : h.ordOf prv < h.ordOf p := by omega
          exact hordlt2 _ _ this
        · intro k hk hlk hok
          rcases (hlive k).mp hlk with hlkh | hkp
          · exact hordle2 _ _ (hmaxl.2 k hlkh.1 hlkh)
          · rw [hkp] at hok
            exact absurd (hordlt2' _ _ hok) (Nat.lt_irrefl _)
  -- successor invariant at untouched live points
  have hsuccold : ∀ i, h.live i → i ≠ prv → i ≠ p →
      h'.cyclicSucc i (h.nodeAt i).next := by
    intro i hlih hiprv hip
    have hsI : h.cyclicSucc i (h.nodeAt i).next := w.nextsucc i hlih.1 hlih
    have hjlive : h.live (h.nodeAt i).next := h.next_live w hlih
    rcases hsI with ⟨hjl, hjgt, hjmin⟩ | ⟨halli, hjglob⟩
    · refine Or.inl ⟨(hlive _).mpr (Or.inl hjl), hordlt2 _ _ hjgt, ?_⟩
      intro k hk hlk hok
      rcases (hlive k).mp hlk with hlkh | hkp
      · exact hordle2 _ _ (hjmin k hlkh.1 hlkh (hordlt2' _ _ hok))
      · -- `p` cannot fall between `i` and its old successor
        rw [hkp] at hok ⊢
        have hok' := hordlt2' _ _ hok
        have hjp : h.ordOf (h.nodeAt i).next ≤ h.ordOf p := by
          by_contra hcon
          push_neg at hcon
          have hsj : h.ordSucc (h.ordOf p) (h.nodeAt i).next :=
            Or.inl ⟨hjl, hcon, fun k2 hk2 hlk2 hok2 =>
              hjmin k2 hk2 hlk2 (Nat.lt_trans hok' hok2)⟩
          have hjeq : (h.nodeAt i).next = nxt := Hull.ordSucc_unique w hsj hsucc
          have hcp : h.cyclicPred (h.nodeAt i).next i :=
            Hull.cyclicPred_of_cyclicSucc hlih hjlive (w.nextsucc i hlih.1 hlih)
          rw [hjeq] at hcp
          exact hiprv (Hull.ordPred_unique w hcp hpred)
        exact hordle2 _ _ hjp
    · refine Or.inr ⟨?_, (hlive _).mpr (Or.inl hjglob.1), ?_⟩
      · intro k hk hlk
        rcases (hlive k).mp hlk with hlkh | hkp
        · exact hordle2 _ _ (halli k hlkh.1 hlkh)
        · -- `p` cannot lie above the global maximum `i`
          rw [hkp]
          have hpi : h.ordOf p ≤ h.ordOf i := by
            by_contra hcon
            push_neg at hcon
            rcases hsucc with ⟨hnl2, hpgt, hpmin⟩ | ⟨hall, hminl⟩
            · have := halli nxt hnxtl.1 hnxtl
              omega
            · rcases hpred with ⟨hpl2, hvlt, hvmax⟩ | ⟨hnob, hmaxl⟩
              · have := hminl.2 prv hprvl.1 hprvl
                omega
              · have h1 := hmaxl.2 i hlih.1 hlih
                have h2 := halli prv hprvl.1 hprvl
                have : i = prv := w.ordinj i hlih.1 prv hprvl.1 (by omega)
                exact hiprv this
          exact hordle2 _ _ hpi
      · intro k hk hlk
        rcases (hlive k).mp hlk with hlkh | hkp
        · exact hordle2 _ _ (hjglob.2 k hlkh.1 hlkh)
        · rw [hkp]
          have hjp : h.ordOf (h.nodeAt i).next ≤ h.ordOf p := by
            by_contra hcon
            push_neg at hcon
            rcases hsucc with ⟨hnl2, hpgt, hpmin⟩ | ⟨hall, hminl⟩
            · have h1 := hpmin (h.nodeAt i).next hjlive.1 hjglob.1 hcon
              have h2 := hjglob.2 nxt hnxtl.1 hnxtl
              have hjeq : (h.nodeAt i).next = nxt :=
                w.ordinj _ hjlive.1 nxt hnxtl.1 (by omega)
              have hcp : h.cyclicPred (h.nodeAt i).next i :=
                Hull.cyclicPred_of_cyclicSucc hlih hjlive (w.nextsucc i hlih.1 hlih)
              rw [hjeq] at hcp
              exact hiprv (Hull.ordPred_unique w hcp hpred)
            · have := hall (h.nodeAt i).next hjlive.1 hjglob.1
              omega
          exact hordle2 _ _ hjp
  -- predecessor invariant at untouched live points
  have hpredold : ∀ i, h.live i → i ≠ nxt → i ≠ p →
      h'.cyclicPred i (h.nodeAt i).prev := by
    intro i hlih hinxt hip
    have hpI : h.cyclicPred i (h.nodeAt i).prev := w.prevpred i hlih.1 hlih
    have hjlive : h.live (h.nodeAt i).prev := h.prev_live w hlih
    rcases hpI with ⟨hjl, hjlt, hjmax⟩ | ⟨hnobi, hjglob⟩
    · refine Or.inl ⟨(hlive _).mpr (Or.inl hjl), hordlt2 _ _ hjlt, ?_⟩
      intro k hk hlk hok
      rcases (hlive k).mp hlk with hlkh | hkp
      · exact hordle2 _ _ (hjmax k hlkh.1 hlkh (hordlt2' _ _ hok))
      · -- `p` cannot fall between `i`'s old predecessor and `i`
        rw [hkp] at hok ⊢
        have hok' := hordlt2' _ _ hok
        have hjp : h.ordOf p ≤ h.ordOf (h.nodeAt i).prev := by
          by_contra hcon
          push_neg at hcon
          have hsi : h.ordSucc (h.ordOf p) i :=
            Or.inl ⟨hlih, hok', fun k2 hk2 hlk2 hok2 => by
              by_contra hcon2
              push_neg at hcon2
              have := hjmax k2 hk2 hlk2 hcon2
              omega⟩
          exact hinxt (Hull.ordSucc_unique w hsi hsucc)
        exact hordle2 _ _ hjp
    · refine Or.inr ⟨?_, (hlive _).mpr (Or.inl hjglob.1), ?_⟩
      · intro k hk hlk
        rcases (hlive k).mp hlk with hlkh | hkp
        · exact hordle2 _ _ (hnobi k hlkh.1 hlkh)
        · -- `p` cannot lie below the global minimum `i`
          rw [hkp]
          have hpi : h.ordOf i ≤ h.ordOf p := by
            by_contra hcon
            push_neg at hcon
            have hsi : h.ordSucc (h.ordOf p) i :=
              Or.inl ⟨hlih, hcon, fun k2 hk2 hlk2 hok2 => hnobi k2 hk2 hlk2⟩
            exact hinxt (Hull.ordSucc_unique w hsi hsucc)
          exact hordle2 _ _ hpi
      · intro k hk hlk
        rcases (hlive k).mp hlk with hlkh | hkp
        · exact hordle2 _ _ (hjglob.2 k hlkh.1 hlkh)
        · rw [hkp]
          have hjp : h.ordOf p ≤ h.ordOf (h.nodeAt i).prev := by
            by_contra hcon
            push_neg at hcon
            rcases hsucc with ⟨hnl2, hpgt, hpmin⟩ | ⟨hall, hminl⟩
            · have := hjglob.2 nxt hnxtl.1 hnxtl
              omega
            · have h1 := hminl.2 i hlih.1 hlih
              have h2 := hnobi nxt hnxtl.1 hnxtl
              exact hinxt (w.ordinj i hlih.1 nxt hnxtl.1 (by omega))
          exact hordle2 _ _ hjp
  refine ⟨⟨?_, ?_, ?_, ?_, ?_, ?_, ?_, ?_, ?_⟩, hlive, hdl, hbl, hord, hp, hnl⟩
  · rw [hbl]
    exact w.bpos
  · rw [hdl]
    exact hEMP
  · intro i hi
    rw [hdl] at hi ⊢
    rw [hord]
    exact w.ordlt i hi
  · intro i hi j hj
    rw [hdl] at hi hj
    rw [hord, hord]
    exact w.ordinj i hi j hj
  · intro i hi hin
    rw [hnext i] at hin
    rw [hprev i]
    split_ifs at hin with h1 h2
    · exact absurd hin hpE
    · exact absurd hin hnE
    · rw [hdl] at hi
      have hid : ¬ h.live i := fun hl => hl.2 hin
      rw [if_neg (fun hc : i = nxt => hid (hc ▸ hnxtl)), if_neg h2]
      exact w.deadprev i hi hin
  · -- nextsucc
    intro i hi hli
    rw [hnext i]
    by_cases hiprv : i = prv
    · rw [if_pos hiprv, hiprv]
      exact hsuccprv
    · rw [if_neg hiprv]
      by_cases hip : i = p
      · rw [if_pos hip, hip]
        exact hsuccp
      · rw [if_neg hip]
        rcases (hlive i).mp hli with hlih | hipc
        · exact hsuccold i hlih hiprv hip
        · exact absurd hipc hip
  · -- prevpred
    intro i hi hli
    rw [hprev i]
    by_cases hinxt : i = nxt
    · rw [if_pos hinxt, hinxt]
      exact hpredn
    · rw [if_neg hinxt]
      by_cases hip : i = p
      · rw [if_pos hip, hip]
        exact hpredp
      · rw [if_neg hip]
        rcases (hlive i).mp hli with hlih | hipc
        · exact hpredold i hlih hinxt hip
        · exact absurd hipc hip
  · -- bfull
    intro b hb hbne
    rw [hbl] at hb
    by_cases hbbp : b = h.bucket p
    · have hself : h'.bucketAt b =
          if h.bucketAt b = EMPTY ∨ h.bucketAt b = nxt then p else h.bucketAt b := by
        rw [hh', hbbp]
        exact h.spliceIns_bucketAt_self p e prv nxt (hbbp ▸ hb)
      rw [hself] at hbne ⊢
      split_ifs at hbne ⊢ with hc
      · -- the entry became `p`; `p` is now the least live point of its bucket
        refine ⟨hlivep, by rw [hbk, hbbp], ?_⟩
        intro k hk hlk hkb
        rcases (hlive k).mp hlk with hlkh | hkp
        · rw [hbk k, hbbp] at hkb
          rcases hc with hcE | hcN
          · rw [hbbp] at hcE
            exact absurd hkb (w.bempty _ (hbbp ▸ hb) hcE k hlkh.1 hlkh)
          · rw [hbbp] at hcN
            obtain ⟨hel, heb, hemin⟩ := w.bfull _ (hbbp ▸ hb)
              (by rw [hcN] ; exact Hull.live_ne_EMPTY hEMP hnxtl)
            rw [hcN] at hemin
            have hkmin := hemin k hlkh.1 hlkh hkb
            rcases hsucc with ⟨hnl2, hpgt, hpmin⟩ | ⟨hall, hminl⟩
            · have : h.ordOf p ≤ h.ordOf k := by omega
              exact hordle2 _ _ this
            · -- impossible: the configuration would have been stuck
              exfalso
              rw [hcN] at heb
              apply hnd
              intro k2 hk2 hlk2
              have h1 := hminl.2 k2 hk2 hlk2
              have h2 := hall k2 hk2 hlk2
              have h3 := h.ord_ne_of_ne w hk2 hp (fun hc2 => hnl (hc2 ▸ hlk2))
              refine ⟨?_, by omega⟩
              have hb1 : h.bucket nxt ≤ h.bucket k2 := h.bucket_mono h1
              have hb2 : h.bucket k2 ≤ h.bucket p := h.bucket_mono (by omega)
              rw [heb] at hb1
              omega
        · rw [hkp]
      · -- the entry is unchanged, and stays minimal
        push_neg at hc
        obtain ⟨hel, heb, hemin⟩ := w.bfull b hb hbne
        refine ⟨(hlive _).mpr (Or.inl hel), by rw [hbk] ; exact heb, ?_⟩
        intro k hk hlk hkb
        rcases (hlive k).mp hlk with hlkh | hkp
        · rw [hbk k] at hkb
          exact hordle2 _ _ (hemin k hlkh.1 hlkh hkb)
        · -- the old entry must be below `p`
          rw [hkp]
          have hE : h.ordOf (h.bucketAt b) ≤ h.ordOf p := by
            by_contra hcon
            push_neg at hcon
            rcases hsucc with ⟨hnl2, hpgt, hpmin⟩ | ⟨hall, hminl⟩
            · have h1 := hpmin _ hel.1 hel hcon
              have hb1 : h.bucket nxt ≤ h.bucket (h.bucketAt b) :=
                h.bucket_mono h1
              have hb2 : h.bucket p ≤ h.bucket nxt :=
                h.bucket_mono (Nat.le_of_lt hpgt)
              rw [heb, hbbp] at hb1
              have hbeq : h.bucket nxt = h.bucket p := by omega
              rw [← hbbp] at hbeq
              obtain hx := hemin nxt hnxtl.1 hnxtl hbeq
              have : h.bucketAt b = nxt :=
                w.ordinj _ hel.1 nxt hnxtl.1 (by omega)
              exact hc.2 this
            · have := hall _ hel.1 hel
              omega
          exact hordle2 _ _ hE
    · have hne : h'.bucketAt b = h.bucketAt b := by
        rw [hh']
        exact h.spliceIns_bucketAt_ne p e prv nxt b hbbp
      rw [hne] at hbne ⊢
      obtain ⟨hel, heb, hemin⟩ := w.bfull b hb hbne
      refine ⟨(hlive _).mpr (Or.inl hel), by rw [hbk] ; exact heb, ?_⟩
      intro k hk hlk hkb
      rcases (hlive k).mp hlk with hlkh | hkp
      · rw [hbk k] at hkb
        exact hordle2 _ _ (hemin k hlkh.1 hlkh hkb)
      · rw [hkp] at hkb
        rw [hbk p] at hkb
        exact absurd hkb (fun hcon => hbbp hcon.symm)
  · -- bempty
    intro b hb hbemp k hk hlk
    rw [hbl] at hb
    by_cases hbbp : b = h.bucket p
    · have hself : h'.bucketAt b =
          if h.bucketAt b = EMPTY ∨ h.bucketAt b = nxt then p else h.bucketAt b := by
        rw [hh', hbbp]
        exact h.spliceIns_bucketAt_self p e prv nxt (hbbp ▸ hb)
      rw [hself] at hbemp
      split_ifs at hbemp with hc
      · exact absurd hbemp hpE
      · push_neg at hc
        exact absurd hbemp hc.1
    · have hne : h'.bucketAt b = h.bucketAt b := by
        rw [hh']
        exact h.spliceIns_bucketAt_ne p e prv nxt b hbbp
      rw [hne] at hbemp
      rw [hbk k]
      rcases (hlive k).mp hlk with hlkh | hkp
      · exact w.bempty b hb hbemp k hlkh.1 hlkh
      · rw [hkp]
        exact fun hcon => hbbp hcon.symm

/-- On a well-formed state, a live point with a live companion is not its own
successor. -/
theorem Hull.next_ne_self {h : Hull} (w : h.WF) {p q : Nat} (hlp : h.live p)
    (hq : h.live q) (hqp : q ≠ p) : (h.nodeAt p).next ≠ p := by
  intro hc
  have hsucc := w.nextsucc p hlp.1 hlp
  rw [hc] at hsucc
  rcases hsucc with ⟨-, hgt, -⟩ | ⟨hall, hmin⟩
  · exact Nat.lt_irrefl _ hgt
  · have h1 := hall q hq.1 hq
    have h2 := hmin.2 q hq.1 hq
    exact hqp (w.ordinj q hq.1 p hlp.1 (by omega))

theorem Hull.prev_ne_self {h : Hull} (w : h.WF) {p q : Nat} (hlp : h.live p)
    (hq : h.live q) (hqp : q ≠ p) : (h.nodeAt p).prev ≠ p := by
  intro hc
  have hpred := w.prevpred p hlp.1 hlp
  rw [hc] at hpred
  rcases hpred with ⟨-, hlt, -⟩ | ⟨hall, hmax⟩
  · exact Nat.lt_irrefl _ hlt
  · have h1 := hall q hq.1 hq
    have h2 := hmax.2 q hq.1 hq
    exact hqp (w.ordinj q hq.1 p hlp.1 (by omega))

/-- Erasing a live point that is not the last one preserves well-formedness
and removes exactly `p` from the live set. -/
theorem Hull.erase_WF {h : Hull} (w : h.WF) {p q : Nat} (hlp : h.live p)
    (hq : h.live q) (hqp : q ≠ p) :
    (h.erase p).WF ∧ (∀ k, (h.erase p).live k ↔ (h.live k ∧ k ≠ p)) ∧
      (h.erase p).data.length = h.data.length ∧
      (h.erase p).buckets.length = h.buckets.length ∧
      (∀ i, (h.erase p).ordOf i = h.ordOf i) := by
  have hp : p < h.data.length := hlp.1
  have hnxtl : h.live (h.nodeAt p).next := h.next_live w hlp
  have hprvl : h.live (h.nodeAt p).prev := h.prev_live w hlp
  have hnb : (h.nodeAt p).next < h.data.length := hnxtl.1
  have hvb : (h.nodeAt p).prev < h.data.length := hprvl.1
  have hnp : (h.nodeAt p).next ≠ p := h.next_ne_self w hlp hq hqp
  have hvp : (h.nodeAt p).prev ≠ p := h.prev_ne_self w hlp hq hqp
  have hsucc : h.ordSucc (h.ordOf p) (h.nodeAt p).next := w.nextsucc p hp hlp
  have hpred : h.ordPred (h.ordOf p) (h.nodeAt p).prev := w.prevpred p hp hlp
  have hEMP := w.lenle
  have hdl : (h.erase p).data.length = h.data.length := h.erase_data_length p
  have hbl : (h.erase p).buckets.length = h.buckets.length := h.erase_buckets_length p
  have hordn : ∀ i, (h.erase p).ordOf i = h.ordOf i := fun i => h.erase_order p i
  have hbk : ∀ i, (h.erase p).bucket i = h.bucket i := by
    intro i
    unfold Hull.bucket Hull.bucketOfOrd
    rw [hordn i, hdl, hbl]
  have hnext : ∀ i, ((h.erase p).nodeAt i).next =
      if i = p then EMPTY
      else if i = (h.nodeAt p).prev then (h.nodeAt p).next
      else (h.nodeAt i).next := fun i => h.erase_next p hp hnb hvb i
  have hprev : ∀ i, ((h.erase p).nodeAt i).prev =
      if i = p then EMPTY
      else if i = (h.nodeAt p).next then (h.nodeAt p).prev
      else (h.nodeAt i).prev := fun i => h.erase_prev p hp hnb hvb i
  have hnE : (h.nodeAt p).next ≠ EMPTY := by
    have := hnxtl.1
    omega
  have hlive : ∀ k, (h.erase p).live k ↔ (h.live k ∧ k ≠ p) := by
    intro k
    constructor
    · rintro ⟨hk, hne⟩
      rw [hdl] at hk
      rw [hnext k] at hne
      split_ifs at hne with h1 h2
      · exact absurd rfl hne
      · exact ⟨⟨hk, by rw [h2] ; exact hprvl.2⟩, h1⟩
      · exact ⟨⟨hk, hne⟩, h1⟩
    · rintro ⟨hk, hkp⟩
      refine ⟨by rw [hdl] ; exact hk.1, ?_⟩
      rw [hnext k]
      rw [if_neg hkp]
      split_ifs with h2
      · exact hnE
      · exact hk.2
  have hordle2 : ∀ a b : Nat, h.ordOf a ≤ h.ordOf b → (h.erase p).ordOf a ≤ (h.erase p).ordOf b := by
    intro a b hab
    rw [hordn, hordn]
    exact hab
  have hordlt2 : ∀ a b : Nat, h.ordOf a < h.ordOf b → (h.erase p).ordOf a < (h.erase p).ordOf b := by
    intro a b hab
    rw [hordn, hordn]
    exact hab
  have hordlt2' : ∀ a b : Nat, (h.erase p).ordOf a < (h.erase p).ordOf b → h.ordOf a < h.ordOf b := by
    intro a b hab
    rw [hordn, hordn] at hab
    exact hab
  -- the spliced-out bracket: `prv`'s new successor is `nxt`
  have hsuccprv : (h.erase p).cyclicSucc (h.nodeAt p).prev (h.nodeAt p).next := by
    rcases hpred with ⟨hpl2, hvlt, hvmax⟩ | ⟨hnob, hmaxl⟩
    · rcases hsucc with ⟨hnl2, hngt, hnmin⟩ | ⟨hall, hminl⟩
      · -- `p` strictly inside: remove it and the two ends join
        refine Or.inl ⟨(hlive _).mpr ⟨hnxtl, hnp⟩, hordlt2 _ _ (Nat.lt_trans hvlt hngt), ?_⟩
        intro k hk hlk hok
        obtain ⟨hlkh, hkp⟩ := (hlive k).mp hlk
        have hok' := hordlt2' _ _ hok
        rcases Nat.lt_or_ge (h.ordOf k) (h.ordOf p) with hklt | hkge
        · have := hvmax k hlkh.1 hlkh hklt
          omega
        · have hkgt : h.ordOf p < h.ordOf k := by
            have := h.ord_ne_of_ne w hlkh.1 hp hkp
            omega
          exact hordle2 _ _ (hnmin k hlkh.1 hlkh hkgt)
      · -- `p` was the global maximum: `prv` becomes it, `nxt` is the minimum
        refine Or.inr ⟨?_, (hlive _).mpr ⟨hnxtl, hnp⟩, ?_⟩
        · intro k hk hlk
          obtain ⟨hlkh, hkp⟩ := (hlive k).mp hlk
          rcases Nat.lt_or_ge (h.ordOf k) (h.ordOf p) with hklt | hkge
          · exact hordle2 _ _ (hvmax k hlkh.1 hlkh hklt)
          · have := hall k hlkh.1 hlkh
            have := h.ord_ne_of_ne w hlkh.1 hp hkp
            omega
        · intro k hk hlk
          obtain ⟨hlkh, hkp⟩ := (hlive k).mp hlk
          exact hordle2 _ _ (hminl.2 k hlkh.1 hlkh)
    · rcases hsucc with ⟨hnl2, hngt, hnmin⟩ | ⟨hall, hminl⟩
      · -- `p` was the global minimum: `nxt` becomes it, `prv` is the maximum
        refine Or.inr ⟨?_, (hlive _).mpr ⟨hnxtl, hnp⟩, ?_⟩
        · intro k hk hlk
          obtain ⟨hlkh, hkp⟩ := (hlive k).mp hlk
          exact hordle2 _ _ (hmaxl.2 k hlkh.1 hlkh)
        · intro k hk hlk
          obtain ⟨hlkh, hkp⟩ := (hlive k).mp hlk
          have hkgt : h.ordOf p < h.ordOf k := by
            have := hnob k hlkh.1 hlkh
            have := h.ord_ne_of_ne w hlkh.1 hp hkp
            omega
          exact hordle2 _ _ (hnmin k hlkh.1 hlkh hkgt)
      · -- `p` both maximum and minimum: it was the only live point
        exfalso
        have h1 := hall q hq.1 hq
        have h2 := hnob q hq.1 hq
        exact hqp (w.ordinj q hq.1 p hp (by omega))
  -- and `nxt`'s new predecessor is `prv`
  have hpredn : (h.erase p).cyclicPred (h.nodeAt p).next (h.nodeAt p).prev := by
    have hlprv : (h.erase p).live (h.nodeAt p).prev := (hlive _).mpr ⟨hprvl, hvp⟩
    have hlnxt : (h.erase p).live (h.nodeAt p).next := (hlive _).mpr ⟨hnxtl, hnp⟩
    exact Hull.cyclicPred_of_cyclicSucc hlprv hlnxt hsuccprv
  refine ⟨⟨?_, ?_, ?_, ?_, ?_, ?_, ?_, ?_, ?_⟩, hlive, hdl, hbl, hordn⟩
  · rw [hbl]
    exact w.bpos
  · rw [hdl]
    exact hEMP
  · intro i hi
    rw [hdl] at hi ⊢
    rw [hordn]
    exact w.ordlt i hi
  · intro i hi j hj
    rw [hdl] at hi hj
    rw [hordn, hordn]
    exact w.ordinj i hi j hj
  · intro i hi hin
    rw [hdl] at hi
    rw [hnext i] at hin
    rw [hprev i]
    by_cases h1 : i = p
    · rw [if_pos h1]
    · rw [if_neg h1] at hin ⊢
      split_ifs at hin with h2
      · exact absurd hin hnE
      · have hid : ¬ h.live i := fun hl => hl.2 hin
        rw [if_neg (fun hc : i = (h.nodeAt p).next => hid (hc ▸ hnxtl))]
        exact w.deadprev i hi hin
  · -- nextsucc
    intro i hi hli
    obtain ⟨hlih, hip⟩ := (hlive i).mp hli
    rw [hnext i, if_neg hip]
    by_cases hiprv : i = (h.nodeAt p).prev
    · rw [if_pos hiprv, hiprv]
      exact hsuccprv
    · rw [if_neg hiprv]
      have hjlive : h.live (h.nodeAt i).next := h.next_live w hlih
      have hjp : (h.nodeAt i).next ≠ p := by
        intro hc
        have hcp : h.cyclicPred (h.nodeAt i).next i :=
          Hull.cyclicPred_of_cyclicSucc hlih hjlive (w.nextsucc i hlih.1 hlih)
        rw [hc] at hcp
        exact hiprv (Hull.ordPred_unique w hcp hpred)
      rcases w.nextsucc i hlih.1 hlih with ⟨hjl, hjgt, hjmin⟩ | ⟨halli, hjglob⟩
      · refine Or.inl ⟨(hlive _).mpr ⟨hjl, hjp⟩, hordlt2 _ _ hjgt, ?_⟩
        intro k hk hlk hok
        obtain ⟨hlkh, hkp⟩ := (hlive k).mp hlk
        exact hordle2 _ _ (hjmin k hlkh.1 hlkh (hordlt2' _ _ hok))
      · refine Or.inr ⟨?_, (hlive _).mpr ⟨hjglob.1, hjp⟩, ?_⟩
        · intro k hk hlk
          obtain ⟨hlkh, hkp⟩ := (hlive k).mp hlk
          exact hordle2 _ _ (halli k hlkh.1 hlkh)
        · intro k hk hlk
          obtain ⟨hlkh, hkp⟩ := (hlive k).mp hlk
          exact hordle2 _ _ (hjglob.2 k hlkh.1 hlkh)
  · -- prevpred
    intro i hi hli
    obtain ⟨hlih, hip⟩ := (hlive i).mp hli
    rw [hprev i, if_neg hip]
    by_cases hinxt : i = (h.nodeAt p).next
    · rw [if_pos hinxt, hinxt]
      exact hpredn
    · rw [if_neg hinxt]
      have hjlive : h.live (h.nodeAt i).prev := h.prev_live w hlih
      have hjp : (h.nodeAt i).prev ≠ p := by
        intro hc
        have hcs : h.cyclicSucc (h.nodeAt i).prev i :=
          Hull.cyclicSucc_of_cyclicPred hjlive hlih (w.prevpred i hlih.1 hlih)
        rw [hc] at hcs
        exact hinxt (Hull.ordSucc_unique w hcs hsucc)
      rcases w.prevpred i hlih.1 hlih with ⟨hjl, hjlt, hjmax⟩ | ⟨hnobi, hjglob⟩
      · refine Or.inl ⟨(hlive _).mpr ⟨hjl, hjp⟩, hordlt2 _ _ hjlt, ?_⟩
        intro k hk hlk hok
        obtain ⟨hlkh, hkp⟩ := (hlive k).mp hlk
        exact hordle2 _ _ (hjmax k hlkh.1 hlkh (hordlt2' _ _ hok))
      · refine Or.inr ⟨?_, (hlive _).mpr ⟨hjglob.1, hjp⟩, ?_⟩
        · intro k hk hlk
          obtain ⟨hlkh, hkp⟩ := (hlive k).mp hlk
          exact hordle2 _ _ (hnobi k hlkh.1 hlkh)
        · intro k hk hlk
          obtain ⟨hlkh, hkp⟩ := (hlive k).mp hlk
          exact hordle2 _ _ (hjglob.2 k hlkh.1 hlkh)
  · -- bfull
    intro b hb hbne
    rw [hbl] at hb
    have hbp : h.bucket p < h.buckets.length := h.live_bucket_lt w hlp
    by_cases hbbp : b = h.bucket p
    · have hself : (h.erase p).bucketAt b =
          if h.bucketAt b = p then
            (if h.bucket (h.nodeAt p).next = h.bucket p then (h.nodeAt p).next else EMPTY)
          else h.bucketAt b := by
        rw [hbbp]
        exact h.erase_bucketAt_self p hbp
      rw [hself] at hbne ⊢
      split_ifs at hbne ⊢ with h1 h2
      · -- the entry becomes `nxt`, still of `p`'s bucket, and now minimal
        have hnewb : (h.erase p).bucket (h.nodeAt p).next = b := by
          rw [hbk, hbbp]
          exact h2
        refine ⟨(hlive _).mpr ⟨hnxtl, hnp⟩, hnewb, ?_⟩
        intro k hk hlk hkb
        obtain ⟨hlkh, hkp⟩ := (hlive k).mp hlk
        rw [hbk k] at hkb
        rcases hsucc with ⟨hnl2, hngt, hnmin⟩ | ⟨hall, hminl⟩
        · -- `p` was the bucket minimum, `k` lies above it
          obtain ⟨hel, heb, hemin⟩ := w.bfull b hb (by rw [h1] ; exact Hull.live_ne_EMPTY hEMP hlp)
          rw [h1] at hemin
          have hkmin := hemin k hlkh.1 hlkh hkb
          have hkgt : h.ordOf p < h.ordOf k := by
            have := h.ord_ne_of_ne w hlkh.1 hp hkp
            omega
          exact hordle2 _ _ (hnmin k hlkh.1 hlkh hkgt)
        · exact hordle2 _ _ (hminl.2 k hlkh.1 hlkh)
      · exact absurd rfl hbne
      · -- the entry is unchanged: it was not `p`, so it survives
        obtain ⟨hel, heb, hemin⟩ := w.bfull b hb hbne
        refine ⟨(hlive _).mpr ⟨hel, h1⟩, by rw [hbk] ; exact heb, ?_⟩
        intro k hk hlk hkb
        obtain ⟨hlkh, hkp⟩ := (hlive k).mp hlk
        rw [hbk k] at hkb
        exact hordle2 _ _ (hemin k hlkh.1 hlkh hkb)
    · have hne : (h.erase p).bucketAt b = h.bucketAt b := h.erase_bucketAt_ne p b hbbp
      rw [hne] at hbne ⊢
      obtain ⟨hel, heb, hemin⟩ := w.bfull b hb hbne
      have hep : h.bucketAt b ≠ p := by
        intro hc
        rw [hc] at heb
        exact hbbp heb.symm
      refine ⟨(hlive _).mpr ⟨hel, hep⟩, by rw [hbk] ; exact heb, ?_⟩
      intro k hk hlk hkb
      obtain ⟨hlkh, hkp⟩ := (hlive k).mp hlk
      rw [hbk k] at hkb
      exact hordle2 _ _ (hemin k hlkh.1 hlkh hkb)
  · -- bempty
    intro b hb hbemp k hk hlk
    rw [hbl] at hb
    obtain ⟨hlkh, hkp⟩ := (hlive k).mp hlk
    rw [hbk k]
    have hbp : h.bucket p < h.buckets.length := h.live_bucket_lt w hlp
    by_cases hbbp : b = h.bucket p
    · have hself : (h.erase p).bucketAt b =
          if h.bucketAt b = p then
            (if h.bucket (h.nodeAt p).next = h.bucket p then (h.nodeAt p).next else EMPTY)
          else h.bucketAt b := by
        rw [hbbp]
        exact h.erase_bucketAt_self p hbp
      rw [hself] at hbemp
      split_ifs at hbemp with h1 h2
      · exact absurd hbemp hnE
      · -- the bucket became empty: `p` was its only member
        intro hkb
        -- `k` is another live member of `p`'s bucket, above `p`
        obtain ⟨hel, heb, hemin⟩ := w.bfull (h.bucket p) hbp
          (by rw [← hbbp, h1] ; exact Hull.live_ne_EMPTY hEMP hlp)
        rw [← hbbp, h1] at hemin
        have hkmin := hemin k hlkh.1 hlkh hkb
        have hkgt : h.ordOf p < h.ordOf k := by
          have := h.ord_ne_of_ne w hlkh.1 hp hkp
          omega
        rcases hsucc with ⟨hnl2, hngt, hnmin⟩ | ⟨hall, hminl⟩
        · have h3 := hnmin k hlkh.1 hlkh hkgt
          have hb1 : h.bucket (h.nodeAt p).next ≤ h.bucket k := h.bucket_mono h3
          have hb2 : h.bucket p ≤ h.bucket (h.nodeAt p).next :=
            h.bucket_mono (Nat.le_of_lt hngt)
          rw [hkb] at hb1
          exact h2 (by omega)
        · have := hall k hlkh.1 hlkh
          omega
      · -- the slot was already empty
        exact w.bempty b hb hbemp k hlkh.1 hlkh
    · have hne : (h.erase p).bucketAt b = h.bucketAt b := h.erase_bucketAt_ne p b hbbp
      rw [hne] at hbemp
      exact w.bempty b hb hbemp k hlkh.1 hlkh

/-! ## C4: insert followed by erase restores the live cycle -/

/-- C4: on a well-formed state, a successful `insert p e` immediately
followed by `erase p` restores both the live set and the `prev`/`next`
adjacency of every live point to their pre-insert values. -/
theorem C4_insert_erase_roundtrip {h h' : Hull} (w : h.WF) {p e : Nat}
    (hins : h.insert p e = .ok h') :
    (∀ k, (h'.erase p).live k ↔ h.live k) ∧
    ∀ k, h.live k →
      ((h'.erase p).nodeAt k).next = (h.nodeAt k).next ∧
      ((h'.erase p).nodeAt k).prev = (h.nodeAt k).prev := by
  obtain ⟨hp, hpnext, prv, nxt, hg, hnb, hvb, hh'⟩ := Hull.insert_ok_inv hins
  have hnl : ¬ h.live p := fun hl => hl.2 hpnext
  obtain ⟨⟨q, hq⟩, hnd⟩ := h.get_some_inv w hg
  obtain ⟨nxt0, hg0, hsucc0⟩ := h.get_spec w hp hnl hq hnd
  rw [hg] at hg0
  have hpair := Option.some.inj hg0
  have hnxteq : nxt = nxt0 := congrArg Prod.snd hpair
  subst hnxteq
  have hprveq : prv = (h.nodeAt nxt).prev := congrArg Prod.fst hpair
  have hnxtl : h.live nxt := Hull.ordSucc_live hsucc0
  have hprvl : h.live prv := by
    rw [hprveq]
    exact h.prev_live w hnxtl
  have hnpv : (h.nodeAt prv).next = nxt := by
    rw [hprveq]
    exact h.next_prev_inverse w hnxtl
  have hpn : nxt ≠ p := fun hc => hnl (hc ▸ hnxtl)
  have hpv : prv ≠ p := fun hc => hnl (hc ▸ hprvl)
  have hEMP := w.lenle
  have hdl : h'.data.length = h.data.length := by
    rw [hh']
    exact h.spliceIns_data_length p e prv nxt
  have hnext' : ∀ i, (h'.nodeAt i).next =
      if i = prv then p else if i = p then nxt else (h.nodeAt i).next := by
    intro i
    rw [hh']
    exact h.spliceIns_next e hp hnb hvb hpv hpn i
  have hprev' : ∀ i, (h'.nodeAt i).prev =
      if i = nxt then p else if i = p then prv else (h.nodeAt i).prev := by
    intro i
    rw [hh']
    exact h.spliceIns_prev e hp hnb hvb hpv hpn i
  have hppn : (h'.nodeAt p).next = nxt := by
    rw [hnext' p, if_neg (fun hc => hpv hc.symm), if_pos rfl]
  have hppv : (h'.nodeAt p).prev = prv := by
    rw [hprev' p, if_neg (fun hc => hpn hc.symm), if_pos rfl]
  have hp' : p < h'.data.length := by omega
  have hnb' : (h'.nodeAt p).next < h'.data.length := by
    rw [hppn]
    omega
  have hvb' : (h'.nodeAt p).prev < h'.data.length := by
    rw [hppv]
    omega
  have hnexte : ∀ k, ((h'.erase p).nodeAt k).next =
      if k = p then EMPTY else if k = prv then nxt else (h.nodeAt k).next := by
    intro k
    rw [h'.erase_next p hp' hnb' hvb' k, hppn, hppv]
    by_cases h1 : k = p
    · rw [if_pos h1, if_pos h1]
    · rw [if_neg h1, if_neg h1]
      by_cases h2 : k = prv
      · rw [if_pos h2, if_pos h2]
      · rw [if_neg h2, if_neg h2, hnext' k, if_neg h2, if_neg h1]
  have hpreve : ∀ k, ((h'.erase p).nodeAt k).prev =
      if k = p then EMPTY else if k = nxt then prv else (h.nodeAt k).prev := by
    intro k
    rw [h'.erase_prev p hp' hnb' hvb' k, hppn, hppv]
    by_cases h1 : k = p
    · rw [if_pos h1, if_pos h1]
    · rw [if_neg h1, if_neg h1]
      by_cases h2 : k = nxt
      · rw [if_pos h2, if_pos h2]
      · rw [if_neg h2, if_neg h2, hprev' k, if_neg h2, if_neg h1]
  have hedl : (h'.erase p).data.length = h.data.length := by
    rw [h'.erase_data_length p, hdl]
  constructor
  · intro k
    simp only [Hull.live]
    rw [hedl, hnexte k]
    by_cases h1 : k = p
    · rw [if_pos h1]
      constructor
      · rintro ⟨-, hc⟩
        exact absurd rfl hc
      · rintro ⟨-, hc⟩
        rw [h1] at hc
        exact (hc hpnext).elim
    · rw [if_neg h1]
      by_cases h2 : k = prv
      · rw [if_pos h2, h2]
        constructor
        · intro hx
          exact hprvl
        · intro hx
          exact ⟨hprvl.1, by omega⟩
      · rw [if_neg h2]
  · intro k hlk
    have hkp : k ≠ p := fun hc => hnl (hc ▸ hlk)
    refine ⟨?_, ?_⟩
    · rw [hnexte k, if_neg hkp]
      by_cases h2 : k = prv
      · rw [if_pos h2, h2, hnpv]
      · rw [if_neg h2]
    · rw [hpreve k, if_neg hkp]
      by_cases h2 : k = nxt
      · rw [if_pos h2, h2]
        exact hprveq
      · rw [if_neg h2]

/-- Witness for C4 at `Whull`: inserting point `2` (edge handle 20) into the
two-cycle `{0,1}` and erasing it again restores the original live cycle. -/
theorem C4_insert_erase_roundtrip_witness :
    Whull.WF ∧ Whull.insert 2 20 = Except.ok c4H ∧
    ((∀ k, (c4H.erase 2).live k ↔ Whull.live k) ∧
     ∀ k, Whull.live k →
       ((c4H.erase 2).nodeAt k).next = (Whull.nodeAt k).next ∧
       ((c4H.erase 2).nodeAt k).prev = (Whull.nodeAt k).prev) :=
  ⟨by decide, by rfl, C4_insert_erase_roundtrip (by decide) (by rfl)⟩

set_option maxRecDepth 40000 in
/-- C1 counterexample: on the reachable 1025-point state `divergeHull`
(fresh construction, then one `insert_first`), point `0` is live and point
`1` is in range and not live, yet `get 1` returns no pair at all (the chain
walk diverges), refuting the unconditional "returns a pair" of the claim. -/
theorem C1_locate_brackets_counterexample :
    (Hull.init (List.range 1025)).insert_first 0 5 = Except.ok divergeHull ∧
    divergeHull.live 0 ∧ (1 : Nat) < divergeHull.data.length ∧
    ¬ divergeHull.live 1 ∧ divergeHull.get 1 = none := by
  refine ⟨rfl, by decide, by decide, by decide, ?_⟩
  simp only [Hull.get]
  rw [if_neg (by decide : ¬ divergeHull.bucketAt (divergeHull.bucket 1) = EMPTY)]
  rw [divergeHull_walk_none]

/-! ## Cycle closure: iterating `next` around the live set -/

theorem Hull.mem_liveFS {h : Hull} {k : Nat} : k ∈ h.liveFS ↔ h.live k := by
  unfold Hull.liveFS Hull.live
  rw [Finset.mem_filter, Finset.mem_range]

theorem Hull.posOf_lt_liveCount {h : Hull} {p : Nat} (hlp : h.live p) :
    h.posOf p < h.liveCount := by
  have hpm : p ∈ h.liveFS := Hull.mem_liveFS.mpr hlp
  refine Finset.card_lt_card ((Finset.ssubset_iff_of_subset
    (Finset.filter_subset _ _)).mpr ⟨p, hpm, fun hc => ?_⟩)
  have := (Finset.mem_filter.mp hc).2
  omega

theorem Hull.posOf_lt_of_ord_lt {h : Hull} {p q : Nat} (hlp : h.live p)
    (hpq : h.ordOf p < h.ordOf q) : h.posOf p < h.posOf q := by
  apply Finset.card_lt_card
  refine (Finset.ssubset_iff_of_subset ?_).mpr ⟨p, ?_, ?_⟩
  · intro x hx
    obtain ⟨hx1, hx2⟩ := Finset.mem_filter.mp hx
    exact Finset.mem_filter.mpr ⟨hx1, by omega⟩
  · exact Finset.mem_filter.mpr ⟨Hull.mem_liveFS.mpr hlp, hpq⟩
  · intro hc
    have := (Finset.mem_filter.mp hc).2
    omega

theorem Hull.posOf_inj {h : Hull} (w : h.WF) {p q : Nat} (hlp : h.live p)
    (hlq : h.live q) (heq : h.posOf p = h.posOf q) : p = q := by
  rcases Nat.lt_trichotomy (h.ordOf p) (h.ordOf q) with hlt | heqo | hgt
  · have := Hull.posOf_lt_of_ord_lt hlp hlt
    omega
  · exact w.ordinj p hlp.1 q hlq.1 heqo
  · have := Hull.posOf_lt_of_ord_lt hlq hgt
    omega

/-- The successor of a live point sits exactly one position further around
the cycle, modulo the wraparound. -/
theorem Hull.posOf_next {h : Hull} (w : h.WF) {p : Nat} (hlp : h.live p) :
    h.posOf (h.nextIter p) = (h.posOf p + 1) % h.liveCount := by
  simp only [Hull.nextIter]
  have hsucc := w.nextsucc p hlp.1 hlp
  have hln : h.live (h.nodeAt p).next := h.next_live w hlp
  have hcnt := Hull.posOf_lt_liveCount hln
  rcases hsucc with ⟨hln2, hgt, hmin⟩ | ⟨hall, hminl⟩
  · have hset : (h.liveFS.filter fun q => h.ordOf q < h.ordOf (h.nodeAt p).next) =
        Insert.insert p (h.liveFS.filter fun q => h.ordOf q < h.ordOf p) := by
      ext x
      rw [Finset.mem_insert, Finset.mem_filter, Finset.mem_filter]
      constructor
      · rintro ⟨hx1, hx2⟩
        have hlx := Hull.mem_liveFS.mp hx1
        rcases Nat.lt_trichotomy (h.ordOf x) (h.ordOf p) with h1 | h2 | h3
        · exact Or.inr ⟨hx1, h1⟩
        · exact Or.inl (w.ordinj x hlx.1 p hlp.1 h2)
        · have := hmin x hlx.1 hlx h3
          omega
      · rintro (rfl | ⟨hx1, hx2⟩)
        · exact ⟨Hull.mem_liveFS.mpr hlp, hgt⟩
        · exact ⟨hx1, by omega⟩
    have hpn : p ∉ (h.liveFS.filter fun q => h.ordOf q < h.ordOf p) := fun hc => by
      have := (Finset.mem_filter.mp hc).2
      omega
    have hstep : h.posOf (h.nodeAt p).next = h.posOf p + 1 := by
      unfold Hull.posOf
      rw [hset, Finset.card_insert_of_not_mem hpn]
    rw [hstep]
    rw [hstep] at hcnt
    exact (Nat.mod_eq_of_lt hcnt).symm
  · have hzero : h.posOf (h.nodeAt p).next = 0 := by
      unfold Hull.posOf
      rw [Finset.card_eq_zero]
      apply Finset.filter_eq_empty_iff.mpr
      intro x hx
      have hlx := Hull.mem_liveFS.mp hx
      have := hminl.2 x hlx.1 hlx
      omega
    have hmax : h.posOf p = h.liveCount - 1 := by
      unfold Hull.posOf Hull.liveCount
      have hset : (h.liveFS.filter fun q => h.ordOf q < h.ordOf p) = h.liveFS.erase p := by
        ext x
        rw [Finset.mem_filter, Finset.mem_erase]
        constructor
        · rintro ⟨hx1, hx2⟩
          refine ⟨fun hc => ?_, hx1⟩
          rw [hc] at hx2
          omega
        · rintro ⟨hne, hx1⟩
          have hlx := Hull.mem_liveFS.mp hx1
          have h1 := hall x hlx.1 hlx
          have h2 : h.ordOf x ≠ h.ordOf p := fun hc => hne (w.ordinj x hlx.1 p hlp.1 hc)
          exact ⟨hx1, by omega⟩
      rw [hset, Finset.card_erase_of_mem (Hull.mem_liveFS.mpr hlp)]
    have hpos : 0 < h.liveCount := by
      have := Hull.posOf_lt_liveCount hlp
      omega
    rw [hzero, hmax, Nat.sub_add_cancel hpos, Nat.mod_self]

/-- Iterating `next` `k` times from a live point stays live and advances the
position by `k` modulo the live count. -/
theorem Hull.nextIter_iterate {h : Hull} (w : h.WF) {p : Nat} (hlp : h.live p) :
    ∀ k, h.live (h.nextIter^[k] p) ∧
      h.posOf (h.nextIter^[k] p) = (h.posOf p + k) % h.liveCount := by
  intro k
  induction k with
  | zero =>
    refine ⟨hlp, ?_⟩
    rw [Function.iterate_zero_apply, Nat.add_zero,
      Nat.mod_eq_of_lt (Hull.posOf_lt_liveCount hlp)]
  | succ n ih =>
    obtain ⟨ihl, ihp⟩ := ih
    rw [Function.iterate_succ_apply']
    refine ⟨h.next_live w ihl, ?_⟩
    rw [Hull.posOf_next w ihl, ihp, Nat.mod_add_mod, Nat.add_assoc]

/-- Walking `next` exactly `|live set|` times from any live point returns to
the start. -/
theorem Hull.nextIter_liveCount_eq {h : Hull} (w : h.WF) {p : Nat}
    (hlp : h.live p) : h.nextIter^[h.liveCount] p = p := by
  obtain ⟨hl, hpos⟩ := h.nextIter_iterate w hlp h.liveCount
  refine Hull.posOf_inj w hl hlp ?_
  rw [hpos, Nat.add_mod_right, Nat.mod_eq_of_lt (Hull.posOf_lt_liveCount hlp)]

theorem Hull.prevIter_nextIter {h : Hull} (w : h.WF) {x : Nat} (hlx : h.live x) :
    h.prevIter (h.nextIter x) = x := h.prev_next_inverse w hlx

/-- Walking `prev` undoes walking `next`, step by step. -/
theorem Hull.prevIter_nextIter_iterate {h : Hull} (w : h.WF) {p : Nat}
    (hlp : h.live p) : ∀ k, h.prevIter^[k] (h.nextIter^[k] p) = p := by
  intro k
  induction k with
  | zero => rfl
  | succ n ih =>
    rw [Function.iterate_succ_apply, Function.iterate_succ_apply',
      Hull.prevIter_nextIter w (h.nextIter_iterate w hlp n).1]
    exact ih

/-- Walking `prev` `i` steps is the same as walking `next` the complementary
number of steps: `prev` traverses the cycle in exact reverse. -/
theorem Hull.prevIter_reverse {h : Hull} (w : h.WF) {p : Nat} (hlp : h.live p) :
    ∀ i ≤ h.liveCount, h.prevIter^[i] p = h.nextIter^[h.liveCount - i] p := by
  intro i hi
  have hx := (h.nextIter_iterate w hlp (h.liveCount - i)).1
  have hsplit : h.nextIter^[h.liveCount] p =
      h.nextIter^[i] (h.nextIter^[h.liveCount - i] p) := by
    rw [← Function.iterate_add_apply]
    congr 1
    omega
  calc h.prevIter^[i] p
      = h.prevIter^[i] (h.nextIter^[h.liveCount] p) := by
        rw [h.nextIter_liveCount_eq w hlp]
    _ = h.prevIter^[i] (h.nextIter^[i] (h.nextIter^[h.liveCount - i] p)) := by
        rw [← hsplit]
    _ = h.nextIter^[h.liveCount - i] p := h.prevIter_nextIter_iterate w hx i

/-! ## The dead-end state left by erasing the last live point -/

theorem Hull.deadend_no_live {h : Hull} (hd : h.DeadEnd) (k : Nat) :
    ¬ h.live k := fun hl => hd.2.2.1 k hl.1 hl

/-- Erasing the only live point produces the dead-end state. -/
theorem Hull.erase_deadend {h : Hull} (w : h.WF) {p : Nat} (hlp : h.live p)
    (honly : ∀ q, h.live q → q = p) : (h.erase p).DeadEnd := by
  have hp : p < h.data.length := hlp.1
  have hEMP := w.lenle
  have hnxtl : h.live (h.nodeAt p).next := h.next_live w hlp
  have hprvl : h.live (h.nodeAt p).prev := h.prev_live w hlp
  have hnxtp : (h.nodeAt p).next = p := honly _ hnxtl
  have hprvp : (h.nodeAt p).prev = p := honly _ hprvl
  have hnb : (h.nodeAt p).next < h.data.length := hnxtl.1
  have hvb : (h.nodeAt p).prev < h.data.length := hprvl.1
  have hdl : (h.erase p).data.length = h.data.length := h.erase_data_length p
  have hbl : (h.erase p).buckets.length = h.buckets.length := h.erase_buckets_length p
  have hordn : ∀ i, (h.erase p).ordOf i = h.ordOf i := fun i => h.erase_order p i
  have hbk : ∀ i, (h.erase p).bucket i = h.bucket i := by
    intro i
    unfold Hull.bucket Hull.bucketOfOrd
    rw [hordn i, hdl, hbl]
  have hnext : ∀ i, ((h.erase p).nodeAt i).next =
      if i = p then EMPTY
      else if i = (h.nodeAt p).prev then (h.nodeAt p).next
      else (h.nodeAt i).next := fun i => h.erase_next p hp hnb hvb i
  have hprev : ∀ i, ((h.erase p).nodeAt i).prev =
      if i = p then EMPTY
      else if i = (h.nodeAt p).next then (h.nodeAt p).prev
      else (h.nodeAt i).prev := fun i => h.erase_prev p hp hnb hvb i
  have hbp : h.bucket p < h.buckets.length := h.live_bucket_lt w hlp
  have hbap : h.bucketAt (h.bucket p) = p := by
    have hne : h.bucketAt (h.bucket p) ≠ EMPTY := by
      intro hcon
      exact w.bempty _ hbp hcon p hp hlp rfl
    obtain ⟨hel, -, -⟩ := w.bfull _ hbp hne
    exact honly _ hel
  have hself : (h.erase p).bucketAt (h.bucket p) = p := by
    rw [h.erase_bucketAt_self p hbp, if_pos hbap, hnxtp, if_pos rfl]
  refine ⟨by rw [hbl] ; exact w.bpos, by rw [hdl] ; exact hEMP, ?_,
    p, by rw [hdl] ; exact hp, by rw [hprev p, if_pos rfl],
    by rw [hbk p, hbl] ; exact hbp, by rw [hbk p] ; exact hself, ?_⟩
  · intro k hk hlk
    rw [hdl] at hk
    obtain ⟨-, hne⟩ := hlk
    rw [hnext k] at hne
    split_ifs at hne with h1 h2
    · exact hne rfl
    · exact h1 (h2.trans hprvp)
    · exact h1 (honly k ⟨hk, hne⟩)
  · intro b hb hbne
    rw [hbl] at hb
    rw [hbk p] at hbne
    rw [h.erase_bucketAt_ne p b hbne]
    by_contra hcon
    obtain ⟨hel, heb, -⟩ := w.bfull b hb hcon
    have hbp2 := honly _ hel
    rw [hbp2] at heb
    exact hbne heb.symm

theorem Hull.nodeAt_EMPTY (h : Hull) (hlen : h.data.length ≤ EMPTY) :
    h.nodeAt EMPTY = default := by
  unfold Hull.nodeAt
  rw [List.getElem?_eq_none hlen]
  rfl

/-- Once the chain walk steps onto the sentinel index while the loop guard
still holds there, it never terminates: the default node's `next` is the
sentinel again. -/
theorem Hull.walk_EMPTY_none (h : Hull) (hlen : h.data.length ≤ EMPTY)
    {po b : Nat} (hc : (h.nodeAt EMPTY).order < po ∧ h.bucket EMPTY = b) :
    ∀ fuel, h.walk po b EMPTY fuel = none := by
  have hnx : (h.nodeAt EMPTY).next = EMPTY := by
    rw [h.nodeAt_EMPTY hlen]
    rfl
  intro fuel
  induction fuel with
  | zero => rfl
  | succ n ih =>
    simp only [Hull.walk]
    rw [if_pos hc, hnx]
    exact ih

/-- From a dead-end state, `insert` never succeeds: `get` either diverges or
hands back a sentinel neighbour, which fails the bounds check of the splice’s
neighbour writes. -/
theorem Hull.deadend_insert_not_ok {h : Hull} (hd : h.DeadEnd) (p e : Nat) :
    ∀ h', h.insert p e ≠ .ok h' := by
  intro h' hins
  obtain ⟨hp, hpnext, prv, nxt, hg, hnb, hvb, -⟩ := Hull.insert_ok_inv hins
  obtain ⟨hbpos, hlen, hnol, q, hq, hqprev, hqblt, hqba, hother⟩ := hd
  simp only [Hull.get] at hg
  by_cases hbe : h.bucketAt (h.bucket p) = EMPTY
  · rw [if_pos hbe] at hg
    match hscan : h.scanB (h.bucket p) h.buckets.length with
    | none =>
      rw [hscan] at hg
      exact absurd hg (by simp)
    | some v =>
      rw [hscan] at hg
      obtain ⟨b', hbv, hbne⟩ := Hull.scanB_mem _ _ _ hscan
      have hblt' : b' < h.buckets.length := by
        by_contra hcon
        exact hbne (h.bucketAt_oob b' (by omega))
      have hbq : b' = h.bucket q := by
        by_contra hcon
        exact hbne (hother b' hblt' hcon)
      have hvq : v = q := by
        rw [← hbv, hbq, hqba]
      have hpq : (h.nodeAt v).prev = prv := congrArg Prod.fst (Option.some.inj hg)
      rw [hvq, hqprev] at hpq
      omega
  · rw [if_neg hbe] at hg
    have hblt : h.bucket p < h.buckets.length := by
      by_contra hcon
      exact hbe (h.bucketAt_oob _ (by omega))
    have hbq : h.bucket p = h.bucket q := by
      by_contra hcon
      exact hbe (hother _ hblt hcon)
    have hfq : h.bucketAt (h.bucket p) = q := by
      rw [hbq, hqba]
    rw [hfq] at hg
    by_cases hcq : (h.nodeAt q).order < h.ordOf p ∧ h.bucket q = h.bucket p
    · have hqdead : (h.nodeAt q).next = EMPTY := by
        by_contra hcon
        exact hnol q hq ⟨hq, hcon⟩
      have hw1 : h.walk (h.ordOf p) (h.bucket p) q (h.data.length + 1) =
          h.walk (h.ordOf p) (h.bucket p) EMPTY h.data.length := by
        simp only [Hull.walk]
        rw [if_pos hcq, hqdead]
      rw [hw1] at hg
      by_cases hce : (h.nodeAt EMPTY).order < h.ordOf p ∧ h.bucket EMPTY = h.bucket p
      · rw [h.walk_EMPTY_none hlen hce] at hg
        exact absurd hg (by simp)
      · obtain ⟨m, hm⟩ : ∃ m, h.data.length = m + 1 := ⟨h.data.length - 1, by omega⟩
        have hw2 : h.walk (h.ordOf p) (h.bucket p) EMPTY h.data.length = some EMPTY := by
          rw [hm]
          simp only [Hull.walk]
          rw [if_neg hce]
        rw [hw2] at hg
        have hnE : EMPTY = nxt := congrArg Prod.snd (Option.some.inj hg)
        omega
    · have hw1 : h.walk (h.ordOf p) (h.bucket p) q (h.data.length + 1) = some q := by
        simp only [Hull.walk]
        rw [if_neg hcq]
      rw [hw1] at hg
      have hpq : (h.nodeAt q).prev = prv := congrArg Prod.fst (Option.some.inj hg)
      rw [hqprev] at hpq
      omega

/-! ## C5: sequences of inserts and erases keep the boundary a single cycle -/

/-- Each successful operation preserves "well-formed or dead-end". -/
theorem Hull.applyOp_WFD {h h' : Hull} (w : h.WF ∨ h.DeadEnd) {op : HOp}
    (happ : h.applyOp op = some h') : h'.WF ∨ h'.DeadEnd := by
  rcases w with w | hd
  · match op with
    | .ins p e =>
      simp only [Hull.applyOp] at happ
      match hins : h.insert p e with
      | .ok h2 =>
        rw [hins] at happ
        have h2h : h2 = h' := Option.some.inj happ
        rw [← h2h]
        exact Or.inl (Hull.insert_WF w hins).1
      | .error h2 =>
        rw [hins] at happ
        exact absurd happ (by simp)
    | .ers p =>
      simp only [Hull.applyOp] at happ
      by_cases hlp : h.live p
      · rw [if_pos hlp] at happ
        have heq : h.erase p = h' := Option.some.inj happ
        rw [← heq]
        by_cases hone : ∀ q, h.live q → q = p
        · exact Or.inr (h.erase_deadend w hlp hone)
        · push_neg at hone
          obtain ⟨q, hq, hqp⟩ := hone
          exact Or.inl (h.erase_WF w hlp hq hqp).1
      · rw [if_neg hlp] at happ
        exact absurd happ (by simp)
  · match op with
    | .ins p e =>
      simp only [Hull.applyOp] at happ
      match hins : h.insert p e with
      | .ok h2 =>
        exact absurd hins (Hull.deadend_insert_not_ok hd p e h2)
      | .error h2 =>
        rw [hins] at happ
        exact absurd happ (by simp)
    | .ers p =>
      simp only [Hull.applyOp] at happ
      rw [if_neg (Hull.deadend_no_live hd p)] at happ
      exact absurd happ (by simp)

/-- A successful operation sequence preserves "well-formed or dead-end". -/
theorem Hull.applyOps_WFD {h : Hull} (w : h.WF ∨ h.DeadEnd) {ops : List HOp}
    {h' : Hull} (happ : h.applyOps ops = some h') : h'.WF ∨ h'.DeadEnd := by
  induction ops generalizing h with
  | nil =>
    have heq : h = h' := Option.some.inj happ
    rw [← heq]
    exact w
  | cons op ops ih =>
    simp only [Hull.applyOps] at happ
    match hop : h.applyOp op with
    | some h2 =>
      rw [hop] at happ
      exact ih (Hull.applyOp_WFD w hop) happ
    | none =>
      rw [hop] at happ
      exact absurd happ (by simp)

/-- C5: starting from any well-formed state, after any sequence of
`insert`/`erase` operations each satisfying its precondition, walking `next`
from any live point exactly `|live set|` times returns to the start, walking
`prev` undoes walking `next` step by step, and walking `prev` `i` steps lands
where walking `next` `|live set| − i` steps lands — `prev` traverses the same
cycle in exact reverse order. -/
theorem C5_cycle_closure {h0 h : Hull} (w0 : h0.WF) {ops : List HOp}
    (happ : h0.applyOps ops = some h) {p : Nat} (hlp : h.live p) :
    h.nextIter^[h.liveCount] p = p ∧
    (∀ i, h.prevIter^[i] (h.nextIter^[i] p) = p) ∧
    (∀ i ≤ h.liveCount, h.prevIter^[i] p = h.nextIter^[h.liveCount - i] p) := by
  rcases Hull.applyOps_WFD (Or.inl w0) happ with w | hd
  · exact ⟨h.nextIter_liveCount_eq w hlp, h.prevIter_nextIter_iterate w hlp,
      h.prevIter_reverse w hlp⟩
  · exact absurd hlp (Hull.deadend_no_live hd p)

/-- Witness for C5 at `Whull`: erasing live point `0` from the two-cycle
leaves the singleton cycle `{1}`, on which the closure properties hold. -/
theorem C5_cycle_closure_witness :
    Whull.WF ∧ Whull.applyOps [HOp.ers 0] = some (Whull.erase 0) ∧
    (Whull.erase 0).live 1 ∧
    ((Whull.erase 0).nextIter^[(Whull.erase 0).liveCount] 1 = 1 ∧
     (∀ i, (Whull.erase 0).prevIter^[i] ((Whull.erase 0).nextIter^[i] 1) = 1) ∧
     (∀ i ≤ (Whull.erase 0).liveCount,
       (Whull.erase 0).prevIter^[i] 1 =
         (Whull.erase 0).nextIter^[(Whull.erase 0).liveCount - i] 1)) :=
  ⟨by decide, by decide, by decide,
    @C5_cycle_closure Whull (Whull.erase 0) (by decide) [HOp.ers 0] (by decide) 1 (by decide)⟩

/-! ## C2: `values` visits the live cycle in sorted angular order -/

theorem Hull.posOf_min_zero {h : Hull} {m : Nat} (hm : h.isMinLive m) :
    h.posOf m = 0 := by
  unfold Hull.posOf
  rw [Finset.card_eq_zero]
  apply Finset.filter_eq_empty_iff.mpr
  intro x hx
  have hlx := Hull.mem_liveFS.mp hx
  have := hm.2 x hlx.1 hlx
  omega

theorem Hull.liveCount_le {h : Hull} : h.liveCount ≤ h.data.length := by
  unfold Hull.liveCount Hull.liveFS
  calc (Finset.filter (fun k => (h.nodeAt k).next ≠ EMPTY)
        (Finset.range h.data.length)).card
      ≤ (Finset.range h.data.length).card := Finset.card_filter_le _ _
    _ = h.data.length := Finset.card_range _

theorem Hull.liveCount_pos {h : Hull} {q : Nat} (hq : h.live q) :
    0 < h.liveCount :=
  Finset.card_pos.mpr ⟨q, Hull.mem_liveFS.mpr hq⟩

/-- `find?` over a contiguous index range returns the first index satisfying
the predicate. -/
theorem find_range_first (p : Nat → Bool) :
    ∀ n s b, s ≤ b → b < s + n → p b = true →
      (∀ b', s ≤ b' → b' < b → p b' = false) →
      (List.range' s n).find? p = some b := by
  intro n
  induction n with
  | zero =>
    intro s b h1 h2 hb hmin
    exact absurd (Nat.lt_of_lt_of_le h2 (by omega)) (Nat.lt_irrefl b)
  | succ k ih =>
    intro s b h1 h2 hb hmin
    rw [List.range'_succ]
    by_cases hs : s = b
    · rw [List.find?_cons_of_pos _ (by rw [hs] ; exact hb), hs]
    · have hps : p s = false := hmin s (Nat.le_refl s) (by omega)
      rw [List.find?_cons_of_neg _ (by rw [hps] ; simp)]
      exact ih (s + 1) b (by omega) (by omega) hb
        (fun b' hb1 hb2 => hmin b' (by omega) hb2)

/-- The first non-empty bucket slot is the global minimum point's, and it
holds that point: `values` starts its cycle walk at the angular minimum. -/
theorem Hull.values_start_min {h : Hull} (w : h.WF) {m : Nat}
    (hm : h.isMinLive m) :
    (List.range h.buckets.length).find? (fun b => decide (h.bucketAt b ≠ EMPTY)) =
      some (h.bucket m) ∧ h.bucketAt (h.bucket m) = m := by
  have hbm : h.bucket m < h.buckets.length := h.live_bucket_lt w hm.1
  have hne : h.bucketAt (h.bucket m) ≠ EMPTY := by
    intro hcon
    exact w.bempty _ hbm hcon m hm.1.1 hm.1 rfl
  obtain ⟨hel, heb, hemin⟩ := w.bfull _ hbm hne
  have hentry : h.bucketAt (h.bucket m) = m := by
    have h1 := hm.2 _ hel.1 hel
    have h2 := hemin m hm.1.1 hm.1 rfl
    exact w.ordinj _ hel.1 m hm.1.1 (Nat.le_antisymm h2 h1)
  refine ⟨?_, hentry⟩
  rw [List.range_eq_range']
  apply find_range_first
  · exact Nat.zero_le _
  · omega
  · exact decide_eq_true hne
  · intro b' hb1 hb2
    apply decide_eq_false
    intro hbne'
    obtain ⟨hel', heb', -⟩ := w.bfull b' (by omega) hbne'
    have h1 := hm.2 _ hel'.1 hel'
    have h2 : h.bucket m ≤ h.bucket (h.bucketAt b') := h.bucket_mono h1
    rw [heb'] at h2
    omega

/-- One-step unfolding of `valuesAux` at positive fuel. -/
theorem Hull.valuesAux_succ (h : Hull) (start cur : Nat) (started : Bool)
    (fuel : Nat) :
    h.valuesAux start cur started (fuel + 1) =
      if cur = start ∧ started then some []
      else
        match h.valuesAux start (h.nodeAt cur).next true fuel with
        | some l => some ((h.nodeAt cur).edge :: l)
        | none => none := rfl

/-- The inner walk of `values`, started one step past the minimum: with `r`
points still to visit and enough fuel, it emits their edges in cycle order
and stops back at the start. -/
theorem Hull.valuesAux_spec {h : Hull} (w : h.WF) {m : Nat}
    (hm : h.isMinLive m) :
    ∀ r j fuel, j + r = h.liveCount → 1 ≤ j → r + 1 ≤ fuel →
      h.valuesAux m (h.nextIter^[j] m) true fuel =
        some ((List.range r).map fun i =>
          (h.nodeAt (h.nextIter^[j + i] m)).edge) := by
  intro r
  induction r with
  | zero =>
    intro j fuel hjr hj hfuel
    obtain ⟨f, hf⟩ : ∃ f, fuel = f + 1 := ⟨fuel - 1, by omega⟩
    have hj' : j = h.liveCount := by omega
    rw [hj', h.nextIter_liveCount_eq w hm.1, hf]
    simp only [Hull.valuesAux]
    rw [if_pos ⟨trivial, trivial⟩]
    rfl
  | succ r ih =>
    intro j fuel hjr hj hfuel
    obtain ⟨f, hf⟩ : ∃ f, fuel = f + 1 := ⟨fuel - 1, by omega⟩
    have hpm : h.posOf m = 0 := Hull.posOf_min_zero hm
    have hjlt : j < h.liveCount := by omega
    have hpj : h.posOf (h.nextIter^[j] m) = j := by
      have hit := (h.nextIter_iterate w hm.1 j).2
      rw [hpm, Nat.zero_add, Nat.mod_eq_of_lt hjlt] at hit
      exact hit
    have hne : h.nextIter^[j] m ≠ m := by
      intro hc
      rw [hc, hpm] at hpj
      omega
    rw [hf]
    simp only [Hull.valuesAux]
    rw [if_neg (fun hc => hne hc.1)]
    have hstep : (h.nodeAt (h.nextIter^[j] m)).next = h.nextIter^[j + 1] m := by
      rw [Function.iterate_succ_apply']
      rfl
    rw [hstep, ih (j + 1) f (by omega) (by omega) (by omega)]
    dsimp only
    congr 1
    apply List.ext_getElem
    · simp
    · intro n h1 h2
      cases n with
      | zero =>
        simp only [List.getElem_cons_zero, List.getElem_map, List.getElem_range]
        rw [Nat.add_zero]
      | succ k =>
        simp only [List.getElem_cons_succ, List.getElem_map, List.getElem_range]
        have hidx : j + 1 + k = j + (k + 1) := by omega
        rw [hidx]

/-- `values` on a well-formed state with minimum live point `m` returns the
edges of `m, next m, next² m, …` — one per live point, in increasing angular
order from the minimum. -/
theorem Hull.values_spec {h : Hull} (w : h.WF) {m : Nat} (hm : h.isMinLive m) :
    h.values = some ((List.range h.liveCount).map fun i =>
      (h.nodeAt (h.nextIter^[i] m)).edge) := by
  obtain ⟨hfind, hentry⟩ := h.values_start_min w hm
  have hcnt0 : 0 < h.liveCount := Hull.liveCount_pos hm.1
  have hcle : h.liveCount ≤ h.data.length := Hull.liveCount_le
  unfold Hull.values
  rw [hfind]
  dsimp only
  rw [hentry]
  obtain ⟨l, hl⟩ : ∃ l, h.data.length = l + 1 := ⟨h.data.length - 1, by omega⟩
  rw [hl]
  rw [Hull.valuesAux_succ]
  rw [if_neg (by simp)]
  have hstep : (h.nodeAt m).next = h.nextIter^[1] m := by
    rw [Function.iterate_one]
    rfl
  rw [hstep, h.valuesAux_spec w hm (h.liveCount - 1) 1 (l + 1) (by omega) (Nat.le_refl 1)
    (by omega)]
  dsimp only
  congr 1
  apply List.ext_getElem
  · simp
    omega
  · intro n h1 h2
    cases n with
    | zero =>
      simp only [List.getElem_cons_zero, List.getElem_map, List.getElem_range]
      rfl
    | succ k =>
      simp only [List.getElem_cons_succ, List.getElem_map, List.getElem_range]
      have hidx : 1 + k = k + 1 := by omega
      rw [hidx]

/-- A sequence of successful inserts preserves well-formedness and keeps
every live point live. -/
theorem Hull.applyOps_ins_WF_live {q : Nat} :
    ∀ {prs : List (Nat × Nat)} {h h' : Hull}, h.WF → h.live q →
      h.applyOps (prs.map fun pe => HOp.ins pe.1 pe.2) = some h' →
      h'.WF ∧ h'.live q := by
  intro prs
  induction prs with
  | nil =>
    intro h h' w hq happ
    have heq : h = h' := Option.some.inj happ
    rw [← heq]
    exact ⟨w, hq⟩
  | cons pe prs ih =>
    intro h h' w hq happ
    simp only [List.map_cons, Hull.applyOps, Hull.applyOp] at happ
    match hins : h.insert pe.1 pe.2 with
    | .ok h2 =>
      rw [hins] at happ
      obtain ⟨w2, hlive2, -, -, -, -, -⟩ := Hull.insert_WF w hins
      exact ih w2 ((hlive2 q).mpr (Or.inl hq)) happ
    | .error h2 =>
      rw [hins] at happ
      exact absurd happ (by simp)

/-- C2 (amended): from a fresh fully-dead well-formed state, bootstrap with
one `insert_first` and insert any further points in any order, provided
every insert completes.  Then `values` returns exactly the edge handles of
`m, next m, next² m, …` for `m` the minimum-order live point — one entry per
live point (the iteration map `i ↦ nextᶦ m` is a bijection from
`0..|live|-1` onto the live set), visited in increasing angular position:
the angular sort of the live points, up to rotation of the starting
point. -/
theorem C2_values_sorted {h0 h1 h : Hull} (w0 : h0.WF)
    (hnol : ∀ k, ¬ h0.live k) {p0 e0 : Nat} (hp0 : p0 < h0.data.length)
    (hfirst : h0.insert_first p0 e0 = .ok h1) {prs : List (Nat × Nat)}
    (happ : h1.applyOps (prs.map fun pe => HOp.ins pe.1 pe.2) = some h) :
    ∃ m, h.isMinLive m ∧
      h.values = some ((List.range h.liveCount).map fun i =>
        (h.nodeAt (h.nextIter^[i] m)).edge) ∧
      (∀ i < h.liveCount, h.posOf (h.nextIter^[i] m) = i) ∧
      (∀ i < h.liveCount, ∀ j < h.liveCount,
        h.nextIter^[i] m = h.nextIter^[j] m → i = j) ∧
      (∀ k, h.live k → ∃ i < h.liveCount, h.nextIter^[i] m = k) := by
  obtain ⟨h1', hok, w1, hlive1, -, -, -, -, -, -⟩ := Hull.insert_first_WF w0 hnol hp0
  rw [hok] at hfirst
  have heq : h1' = h1 := Except.ok.inj hfirst
  rw [heq] at w1 hlive1
  have hl1 : h1.live p0 := (hlive1 p0).mpr rfl
  obtain ⟨w, hlq⟩ := Hull.applyOps_ins_WF_live w1 hl1 happ
  obtain ⟨m, hm⟩ := Hull.exists_isMinLive hlq
  refine ⟨m, hm, h.values_spec w hm, ?_, ?_, ?_⟩
  · intro i hi
    have hit := (h.nextIter_iterate w hm.1 i).2
    rw [Hull.posOf_min_zero hm, Nat.zero_add, Nat.mod_eq_of_lt hi] at hit
    exact hit
  · intro i hi j hj hij
    have h1i := (h.nextIter_iterate w hm.1 i).2
    rw [Hull.posOf_min_zero hm, Nat.zero_add, Nat.mod_eq_of_lt hi] at h1i
    have h1j := (h.nextIter_iterate w hm.1 j).2
    rw [Hull.posOf_min_zero hm, Nat.zero_add, Nat.mod_eq_of_lt hj] at h1j
    rw [hij] at h1i
    omega
  · intro k hk
    refine ⟨h.posOf k, Hull.posOf_lt_liveCount hk, ?_⟩
    have h1i := (h.nextIter_iterate w hm.1 (h.posOf k)).2
    rw [Hull.posOf_min_zero hm, Nat.zero_add,
      Nat.mod_eq_of_lt (Hull.posOf_lt_liveCount hk)] at h1i
    exact Hull.posOf_inj w (h.nextIter_iterate w hm.1 (h.posOf k)).1 hk h1i

theorem c2H0_not_live : ∀ k, ¬ c2H0.live k := by
  intro k hl
  have hk := hl.1
  have hne := hl.2
  have hk2 : k = 0 ∨ k = 1 := by
    have : c2H0.data.length = 2 := rfl
    omega
  rcases hk2 with rfl | rfl
  · exact hne rfl
  · exact hne rfl

/-- Witness for the amended C2: build a two-point hull (orders `1`, `0`)
by `insert_first 0` then `insert 1`; the iteration visits both points in
angular order. -/
theorem C2_values_sorted_witness :
    (c2H0.WF ∧ (∀ k, ¬ c2H0.live k) ∧ (0 : Nat) < c2H0.data.length ∧
      c2H0.insert_first 0 7 = Except.ok c2H1 ∧
      c2H1.applyOps [HOp.ins 1 8] = some c2H) ∧
    (∃ m, c2H.isMinLive m ∧
      c2H.values = some ((List.range c2H.liveCount).map fun i =>
        (c2H.nodeAt (c2H.nextIter^[i] m)).edge) ∧
      (∀ i < c2H.liveCount, c2H.posOf (c2H.nextIter^[i] m) = i) ∧
      (∀ i < c2H.liveCount, ∀ j < c2H.liveCount,
        c2H.nextIter^[i] m = c2H.nextIter^[j] m → i = j) ∧
      (∀ k, c2H.live k → ∃ i < c2H.liveCount, c2H.nextIter^[i] m = k)) :=
  ⟨⟨by decide, c2H0_not_live, by decide, by rfl, by rfl⟩,
    @C2_values_sorted c2H0 c2H1 c2H (by decide) c2H0_not_live 0 7
      (by decide) (by rfl) [(1, 8)] (by rfl)⟩

set_option maxRecDepth 40000 in
/-- C2 counterexample: over 1025 points there is an insertion order whose
second insertion never completes — after `insert_first 0`, the locate inside
`insert 1` diverges (`get 1 = none`, the Rust loop spins forever), so no
final iteration is ever reached for that order. -/
theorem C2_values_sorted_counterexample :
    (Hull.init (List.range 1025)).insert_first 0 5 = Except.ok divergeHull ∧
    (1 : Nat) < divergeHull.data.length ∧ ¬ divergeHull.live 1 ∧
    divergeHull.insert 1 6 = Except.error divergeHull ∧
    divergeHull.applyOps [HOp.ins 1 6] = none := by
  have hget : divergeHull.get 1 = none := by
    simp only [Hull.get]
    rw [if_neg (by decide : ¬ divergeHull.bucketAt (divergeHull.bucket 1) = EMPTY)]
    rw [divergeHull_walk_none]
  have hins : divergeHull.insert 1 6 = Except.error divergeHull := by
    simp only [Hull.insert]
    rw [if_pos (by decide : (1 : Nat) < divergeHull.data.length ∧
      (divergeHull.nodeAt 1).next = EMPTY), hget]
  refine ⟨rfl, by decide, by decide, hins, ?_⟩
  simp only [Hull.applyOps, Hull.applyOp]
  rw [hins]
